import Mathlib

/-!
Verification development for the DGtal excerpt consisting of
`src/DGtal/geometry/curves/FuzzySegmentComputer.h` (fuzzy digital straight
segment recognition: incremental convex hull, width estimation, speculative
extension protocol) and `src/DGtal/io/Color.h` (RGBA color with clamped
component arithmetic).

The `Color` class carries its full inline implementation in the header, so the
definitions below are transcribed from that source.  The
`FuzzySegmentComputer` header declares the class interface and its single data
member only (the `.ih` implementation file is not part of the excerpt), so the
recognizer's behaviour is modelled from the specification, as marked on each
definition.
-/

namespace DGtal

/-- Color as declared in `src/DGtal/io/Color.h`: four `int` components
`myRed`, `myGreen`, `myBlue`, `myAlpha`. -/
structure Color where
  myRed : Int
  myGreen : Int
  myBlue : Int
  myAlpha : Int
deriving Repr, DecidableEq

/-- Transcription of `unsigned char Color::clamp(const double value)`:
`static_cast<unsigned char>(std::max(std::min(value, 255.0), 0.0))`.
The `double` argument is embedded as an exact rational; the final cast
truncates a value already confined to `[0, 255]`, i.e. takes its floor. -/
def Color.clamp (value : ℚ) : Int :=
  ⌊max (min value 255) 0⌋

/-- Transcription of `Color::operator+`: each component is the clamp of the
exact integer sum of the operands' components. -/
def Color.add (a v : Color) : Color :=
  { myRed := Color.clamp ((a.myRed : ℚ) + (v.myRed : ℚ))
    myBlue := Color.clamp ((a.myBlue : ℚ) + (v.myBlue : ℚ))
    myGreen := Color.clamp ((a.myGreen : ℚ) + (v.myGreen : ℚ))
    myAlpha := Color.clamp ((a.myAlpha : ℚ) + (v.myAlpha : ℚ)) }

/-- Transcription of `Color::operator+=`: same component formulas as
`operator+`, assigned in place. -/
def Color.addAssign (a v : Color) : Color :=
  { myRed := Color.clamp ((a.myRed : ℚ) + (v.myRed : ℚ))
    myBlue := Color.clamp ((a.myBlue : ℚ) + (v.myBlue : ℚ))
    myGreen := Color.clamp ((a.myGreen : ℚ) + (v.myGreen : ℚ))
    myAlpha := Color.clamp ((a.myAlpha : ℚ) + (v.myAlpha : ℚ)) }

/-- Transcription of `Color::operator-`. -/
def Color.sub (a v : Color) : Color :=
  { myRed := Color.clamp ((a.myRed : ℚ) - (v.myRed : ℚ))
    myBlue := Color.clamp ((a.myBlue : ℚ) - (v.myBlue : ℚ))
    myGreen := Color.clamp ((a.myGreen : ℚ) - (v.myGreen : ℚ))
    myAlpha := Color.clamp ((a.myAlpha : ℚ) - (v.myAlpha : ℚ)) }

/-- Transcription of `Color::operator-=`. -/
def Color.subAssign (a v : Color) : Color :=
  { myRed := Color.clamp ((a.myRed : ℚ) - (v.myRed : ℚ))
    myBlue := Color.clamp ((a.myBlue : ℚ) - (v.myBlue : ℚ))
    myGreen := Color.clamp ((a.myGreen : ℚ) - (v.myGreen : ℚ))
    myAlpha := Color.clamp ((a.myAlpha : ℚ) - (v.myAlpha : ℚ)) }

/-- Transcription of `Color::operator*(const double coeff)`: each component is
the clamp of the component value scaled by the coefficient (the `double`
coefficient embedded as an exact rational). -/
def Color.mul (a : Color) (coeff : ℚ) : Color :=
  { myRed := Color.clamp ((a.myRed : ℚ) * coeff)
    myBlue := Color.clamp ((a.myBlue : ℚ) * coeff)
    myGreen := Color.clamp ((a.myGreen : ℚ) * coeff)
    myAlpha := Color.clamp ((a.myAlpha : ℚ) * coeff) }

/-- Transcription of `Color::operator*=(const double coeff)`. -/
def Color.mulAssign (a : Color) (coeff : ℚ) : Color :=
  { myRed := Color.clamp ((a.myRed : ℚ) * coeff)
    myBlue := Color.clamp ((a.myBlue : ℚ) * coeff)
    myGreen := Color.clamp ((a.myGreen : ℚ) * coeff)
    myAlpha := Color.clamp ((a.myAlpha : ℚ) * coeff) }

/-- All four components of a color lie in `[0, 255]`. -/
def Color.inRange (c : Color) : Prop :=
  0 ≤ c.myRed ∧ c.myRed ≤ 255 ∧ 0 ≤ c.myGreen ∧ c.myGreen ≤ 255 ∧
  0 ≤ c.myBlue ∧ c.myBlue ≤ 255 ∧ 0 ≤ c.myAlpha ∧ c.myAlpha ≤ 255

/-- Per-instance data of `class FuzzySegmentComputer` exactly as declared in
`src/DGtal/geometry/curves/FuzzySegmentComputer.h` (private section): the
single member `std::deque<int> myMelkmanQueue`.  No other field is declared;
in particular no member holds a width bound. -/
structure FuzzySegmentComputer where
  myMelkmanQueue : List Int
deriving Repr, DecidableEq

end DGtal

namespace FuzzySeg

/-- A 2D input point over the integer domain (`TInputPoint` with
`TInputPoint::dimension == 2` and exact signed internal scalars, per the
concept assertions of the header). -/
abbrev Pt := Int × Int

/-- Difference of points (as vectors). -/
def psub (a b : Pt) : Pt := (a.1 - b.1, a.2 - b.2)

/-- Dot product. -/
def dot (u v : Pt) : Int := u.1 * v.1 + u.2 * v.2

/-- Cross product of two vectors. -/
def cross (u v : Pt) : Int := u.1 * v.2 - u.2 * v.1

/-- Counterclockwise perpendicular of a vector. -/
def perp (u : Pt) : Pt := (-u.2, u.1)

/-- Signed area / cross-product turn test: positive iff `b` lies strictly to
the left of the directed line from `o` to `a` (exact integer arithmetic). -/
def det (o a b : Pt) : Int :=
  (a.1 - o.1) * (b.2 - o.2) - (a.2 - o.2) * (b.1 - o.1)

/-- Lexicographic strict order on points: the comparator used by
`std::set<InputPoint>` (DGtal points compare lexicographically). -/
def ptLt (p q : Pt) : Bool :=
  p.1 < q.1 || (p.1 = q.1 && p.2 < q.2)

/-- Modelled from the spec: insertion into the Point Ledger, whose container
(`typedef std::set<InputPoint> InputPointSet` in the header) keeps points
strictly sorted and duplicate-free; inserting a present point is a no-op. -/
def setInsert (p : Pt) : List Pt → List Pt
  | [] => [p]
  | q :: s =>
    if ptLt p q then p :: q :: s
    else if ptLt q p then q :: setInsert p s
    else q :: s

/-- Membership of `q` on the closed segment from `a` to `b`: collinear and
between both endpoints (exact integer tests). -/
def onSeg (a b q : Pt) : Bool :=
  det a b q = 0 && 0 ≤ dot (psub q a) (psub b a) && 0 ≤ dot (psub q b) (psub a b)

/-- Consecutive cyclic pairs (the edges of a closed polygon given by its
vertex list). -/
def rotate1 : List Pt → List Pt
  | [] => []
  | x :: xs => xs ++ [x]

/-- Edges of the closed polygon. -/
def cyclicPairs (H : List Pt) : List (Pt × Pt) := H.zip (rotate1 H)

/-- Cyclic triples of consecutive vertices. -/
def cyclicTriples (H : List Pt) : List (Pt × Pt × Pt) :=
  H.zip ((rotate1 H).zip (rotate1 (rotate1 H)))

/-- Every cyclic triple of consecutive vertices makes a strict left turn:
the polygon is strictly convex in counterclockwise orientation. -/
def strictlyConvexCyclic (H : List Pt) : Bool :=
  (cyclicTriples H).all fun t => 0 < det t.1 t.2.1 t.2.2

/-- Modelled from the spec (§3, Hull State invariant): `q` lies on or inside
the closed convex polygon `H` — on the point / the segment for degenerate
hulls, weakly to the left of every directed edge otherwise. -/
def insideOrOn (H : List Pt) (q : Pt) : Bool :=
  match H with
  | [] => false
  | [v] => q = v
  | [a, b] => onSeg a b q
  | _ => (cyclicPairs H).all fun e => 0 ≤ det e.1 e.2 q

/-- Modelled from the spec (§4.2): the forward pop phase of one Melkman step —
repeatedly remove the deque's first vertex while the edge it sends to the next
vertex is made concave by `p` (signed-area test, popping on ties so collinear
points never become hull vertices). -/
def melkmanPopFront (p : Pt) : List Pt → List Pt
  | a :: b :: rest =>
    if det a b p ≤ 0 then melkmanPopFront p (b :: rest) else a :: b :: rest
  | L => L

/-- Backward pop phase, acting on the reversed deque: remove the last vertex
while the edge arriving at it is made concave by `p`. -/
def melkmanPopBackAux (p : Pt) : List Pt → List Pt
  | z :: y :: rest =>
    if det y z p ≤ 0 then melkmanPopBackAux p (y :: rest) else z :: y :: rest
  | L => L

/-- Modelled from the spec (§4.2): the backward pop phase of one Melkman step. -/
def melkmanPopBack (p : Pt) (L : List Pt) : List Pt :=
  (melkmanPopBackAux p L.reverse).reverse

/-- Modelled from the spec: one step of the lower-hull scan used by the full
rebuild — pop the chain vertices that the new point would make concave
(signed-area test, strict inequality keeps only strict left turns), then push
the new point.  The accumulator holds the chain reversed (most recent vertex
first). -/
def chainPush (p : Pt) : List Pt → List Pt
  | b :: a :: rest =>
    if det a b p ≤ 0 then chainPush p (a :: rest) else p :: b :: a :: rest
  | acc => p :: acc

/-- Lower hull chain of a lexicographically sorted point list, reversed. -/
def lowerChainRev (S : List Pt) : List Pt :=
  S.foldl (fun acc p => chainPush p acc) []

/-- Lower hull chain, from the lexicographic minimum to the maximum. -/
def lowerChain (S : List Pt) : List Pt := (lowerChainRev S).reverse

/-- Pointwise negation. -/
def negPt (p : Pt) : Pt := (-p.1, -p.2)

/-- Upper hull chain, from the lexicographic maximum back to the minimum,
obtained as the lower chain of the negated reversed list. -/
def upperFull (S : List Pt) : List Pt :=
  (lowerChain (S.reverse.map negPt)).map negPt

/-- Modelled from the spec (§4.2, "full rebuild when the insertion invalidates
hull ordering"): recompute the convex hull of the (sorted, duplicate-free)
ledger from scratch by the monotone-chain scan; the result is the
counterclockwise vertex cycle starting at the lexicographic minimum. -/
def rebuildHull (S : List Pt) : List Pt :=
  lowerChain S ++ ((upperFull S).drop 1).dropLast

/-- Modelled from the spec (§3 Hull State invariant and the header's
`melkmanIsConvexValid` declaration): a candidate deque is a valid Hull State
for the point set `pts` when it is a strictly convex counterclockwise vertex
cycle without repetitions, drawn from `pts`, that contains every point of
`pts` (degenerate single-point and segment forms included).  The thickness
parameter of the C++ declaration plays no role in hull-ordering validity and
is not modelled. -/
def melkmanIsConvexValid (D : List Pt) (pts : List Pt) : Bool :=
  match D with
  | [] => false
  | [v] => pts = [v]
  | [a, b] => a ≠ b && decide (a ∈ pts) && decide (b ∈ pts) && pts.all (onSeg a b)
  | _ =>
    D.Nodup && strictlyConvexCyclic D &&
      D.all (fun v => decide (v ∈ pts)) && pts.all (fun q => insideOrOn D q)

/-- Modelled from the spec (§4.2 `melkmanAddPoint`): absorb a point into the
Hull State.  A point on or inside the hull leaves it unchanged; otherwise the
double-ended pop/push Melkman step integrates it, and if the step invalidates
hull ordering the hull is rebuilt from scratch.  `pts` is the Point Ledger
before the insertion. -/
def melkmanAddPoint (pts : List Pt) (H : List Pt) (p : Pt) : List Pt :=
  if insideOrOn H p then H
  else
    match H with
    | [] => [p]
    | [a] => [p, a]
    | [a, b] =>
      if 0 < det a b p then [p, a, b]
      else if det a b p < 0 then [p, b, a]
      else if onSeg a p b then [p, a] else [p, b]
    | _ =>
      let D := p :: melkmanPopBack p (melkmanPopFront p H)
      if melkmanIsConvexValid D (setInsert p pts) then D
      else rebuildHull (setInsert p pts)

/-- Largest element of an integer list (0 for the empty list). -/
def maxList : List Int → Int
  | [] => 0
  | x :: xs => xs.foldl max x

/-- Smallest element of an integer list (0 for the empty list). -/
def minList : List Int → Int
  | [] => 0
  | x :: xs => xs.foldl min x

/-- Projections of the vertices onto the normal direction `N`. -/
def projList (N : Pt) (H : List Pt) : List Int := H.map (dot N)

/-- Denominator normalizing a strip of normal `N` to its axis width
(the largest absolute coordinate of `N`). -/
def axisDenom (N : Pt) : Int := max N.1.natAbs N.2.natAbs

/-- Axis width of the strip flush to edge `e` that encloses the vertex list
`H`: the projection extent onto the edge normal divided by the normal's
largest coordinate (exact rational arithmetic). -/
def edgeAxisWidth (H : List Pt) (e : Pt × Pt) : ℚ :=
  let N := perp (psub e.2 e.1)
  ((maxList (projList N H) - minList (projList N H) : Int) : ℚ) / (axisDenom N : ℚ)

/-- Projection extent of the vertex list `H` in direction `N` (the numerator
of the flush-strip axis width). -/
def extentInt (H : List Pt) (N : Pt) : Int :=
  maxList (projList N H) - minList (projList N H)

/-- Axis width of the enclosing strip of normal `N`: the projection extent
divided by the normal's largest absolute coordinate. -/
def dirWidth (H : List Pt) (N : Pt) : ℚ :=
  ((extentInt H N : Int) : ℚ) / ((axisDenom N : Int) : ℚ)

/-- Modelled from the spec (§4.3, rotating calipers): the edge of the convex
polygon whose flush strip has the least axis width, paired with that width.
`none` for degenerate hulls of fewer than 3 vertices. -/
def mainDiagonalEdge (H : List Pt) : Option ((Pt × Pt) × ℚ) :=
  match H with
  | [] => none
  | [_] => none
  | [_, _] => none
  | a :: b :: c :: t =>
    some (((b :: c :: t).zip ((c :: t) ++ [a])).foldl
      (fun best e2 =>
        let w := edgeAxisWidth (a :: b :: c :: t) e2
        if w < best.2 then (e2, w) else best)
      ((a, b), edgeAxisWidth (a :: b :: c :: t) (a, b)))

/-- Modelled from the spec (§4.3 and the header's `melkmanMainDiagonal`): the
width of the minimal enclosing strip of the current hull — the least flush
axis width over all hull edges, and `0` for a degenerate hull of at most two
distinct points. -/
def melkmanMainDiagonal (H : List Pt) : ℚ :=
  match mainDiagonalEdge H with
  | none => 0
  | some be => be.2

/-- The strip primitive `μ ≤ N·X ≤ μ + ε` (the header's
`ParallelStrip<Space,true,true> Primitive`), built but not algorithmically
inspected by this core. -/
structure ParallelStrip where
  N : Pt
  mu : Int
  eps : Int
deriving Repr, DecidableEq

/-- Axis width of a strip: `ε` divided by the largest coordinate of `N`. -/
def axisWidth (P : ParallelStrip) : ℚ := (P.eps : ℚ) / (axisDenom P.N : ℚ)

/-- Modelled from the spec (§4.4 `primitive()`): derive the strip from the
current Hull State — zero width aligned with the hull's single direction for
degenerate hulls, and the minimal flush strip otherwise. -/
def primitiveOf (H : List Pt) : ParallelStrip :=
  match H with
  | [] => ⟨(0, 1), 0, 0⟩
  | [v] => ⟨(0, 1), v.2, 0⟩
  | [a, b] =>
    let N := perp (psub b a)
    ⟨N, dot N a, 0⟩
  | a :: b :: c :: t =>
    match mainDiagonalEdge (a :: b :: c :: t) with
    | some be =>
      let N := perp (psub be.1.2 be.1.1)
      ⟨N, minList (projList N (a :: b :: c :: t)),
        maxList (projList N (a :: b :: c :: t)) -
          minList (projList N (a :: b :: c :: t))⟩
    | none => ⟨(0, 1), 0, 0⟩

/-- Modelled from the spec (§3, §4.4): the recognizer's state — the Width
Bound as the numerator/denominator pair supplied at initialization, the Point
Ledger, and the Melkman hull deque. -/
structure State where
  widthNumerator : Int
  widthDenominator : Int
  myPointSet : List Pt
  myMelkmanQueue : List Pt
deriving Repr, DecidableEq

/-- The configured Width Bound as an exact rational. -/
def boundQ (s : State) : ℚ := (s.widthNumerator : ℚ) / (s.widthDenominator : ℚ)

/-- Modelled from the spec (§4.4 and the `primitive()` doc of the header,
which says the width bound numerator/denominator are specified with `init`):
initialization from the first point and the bound pair. -/
def init (p : Pt) (num den : Int) : State :=
  ⟨num, den, [p], [p]⟩

/-- Number of distinct points in the current fuzzy segment (`size()`). -/
def size (s : State) : Nat := s.myPointSet.length

/-- The current primitive recognized by this computer (`primitive()`). -/
def primitive (s : State) : ParallelStrip := primitiveOf s.myMelkmanQueue

/-- The state as it would be after committing candidate point `p`: ledger and
hull both absorb the point; the bound pair is untouched. -/
def tentativeCommit (s : State) (p : Pt) : State :=
  { s with
    myPointSet := setInsert p s.myPointSet
    myMelkmanQueue := melkmanAddPoint s.myPointSet s.myMelkmanQueue p }

/-- Modelled from the spec (§4.4 `extendFront`): speculative
insert-measure-compare; commit when the tentative width is strictly below the
bound, roll back (state unchanged) otherwise.  The candidate point is the
model's argument. -/
def extendFront (s : State) (p : Pt) : Bool × State :=
  let t := tentativeCommit s p
  if melkmanMainDiagonal t.myMelkmanQueue < boundQ s then (true, t) else (false, s)

/-- Modelled from the spec (§4.4 `extendBack`): symmetric to `extendFront` —
the Melkman deque step integrates a candidate from either logical end through
the same double-ended pop/push, so both directions perform the same
insert-measure-compare protocol on the candidate point. -/
def extendBack (s : State) (p : Pt) : Bool × State :=
  let t := tentativeCommit s p
  if melkmanMainDiagonal t.myMelkmanQueue < boundQ s then (true, t) else (false, s)

/-- Modelled from the spec (§4.4 `isExtendableFront` with §4.2
`rollbackLast`): snapshot the hull, tentatively insert and measure, then
restore the snapshot — the extendability answer is returned with the point
never committed. -/
def isExtendableFront (s : State) (p : Pt) : Bool × State :=
  let saved := s.myMelkmanQueue
  let D := melkmanAddPoint s.myPointSet s.myMelkmanQueue p
  let ok := melkmanMainDiagonal D < boundQ s
  (ok, { s with myMelkmanQueue := saved })

/-- Modelled from the spec (§4.4 `isExtendableBack`): symmetric to
`isExtendableFront`. -/
def isExtendableBack (s : State) (p : Pt) : Bool × State :=
  let saved := s.myMelkmanQueue
  let D := melkmanAddPoint s.myPointSet s.myMelkmanQueue p
  let ok := melkmanMainDiagonal D < boundQ s
  (ok, { s with myMelkmanQueue := saved })

/-- Lexicographically least element of a point list (`(0,0)` when empty). -/
def lexMinPt : List Pt → Pt
  | [] => (0, 0)
  | x :: xs => xs.foldl (fun m q => if ptLt q m then q else m) x

/-- The polygon rotated so that its lexicographically least vertex comes
first: the canonical representative of the cyclic vertex order, used to
compare the Hull State (whose seam sits at the last insertion) with a
reference hull. -/
def rotateToMin (H : List Pt) : List Pt :=
  let i := H.findIdx fun v => v = lexMinPt H
  H.drop i ++ H.take i

/-- Strict lexicographic sortedness of a point list (the Point Ledger
invariant). -/
def LexSorted (L : List Pt) : Prop :=
  List.Pairwise (fun a b => ptLt a b = true) L

/-- Local convexity of an open chain: every three consecutive vertices make a
strict left turn. -/
def ChainConvex : List Pt → Prop
  | a :: b :: c :: t => 0 < det a b c ∧ ChainConvex (b :: c :: t)
  | _ => True

/-- Consecutive pairs (the edges) of an open chain. -/
def chainPairs (L : List Pt) : List (Pt × Pt) := L.zip L.tail

/-- Every point of `P` lies weakly to the left of every edge of the open
chain `W`. -/
def ChainSupports (W P : List Pt) : Prop :=
  ∀ e ∈ chainPairs W, ∀ q ∈ P, 0 ≤ det e.1 e.2 q

/-- Weak lexicographic order. -/
def ptLe (p q : Pt) : Prop := p = q ∨ ptLt p q = true

/-- Consecutive triples of an open chain. -/
def chainTriples (L : List Pt) : List (Pt × Pt × Pt) :=
  L.zip (L.tail.zip L.tail.tail)

/-- The last two elements of a list, in order. -/
def lastTwo : List Pt → Option (Pt × Pt)
  | [] => none
  | [_] => none
  | [u, w] => some (u, w)
  | _ :: b :: c :: t => lastTwo (b :: c :: t)

/-- Invariant of the lower-hull scan: `acc` is the reversed chain after the
points of `P` have been processed. -/
structure LowerInv (P acc : List Pt) : Prop where
  nonempty : acc ≠ []
  lex : LexSorted acc.reverse
  conv : ChainConvex acc.reverse
  sub : acc.reverse.Sublist P
  head_eq : acc.reverse.head? = P.head?
  last_eq : acc.reverse.getLast? = P.getLast?
  supports : ChainSupports acc.reverse P

/-- States reachable from `init` by successful extensions. -/
inductive Reachable : State → Prop
  | start (p : Pt) (num den : Int) : Reachable (init p num den)
  | stepF {s : State} (p : Pt) : Reachable s → (extendFront s p).1 = true →
      Reachable (extendFront s p).2
  | stepB {s : State} (p : Pt) : Reachable s → (extendBack s p).1 = true →
      Reachable (extendBack s p).2

end FuzzySeg

namespace DGtal

theorem Color.clamp_nonneg (value : ℚ) : 0 ≤ Color.clamp value := by
  unfold Color.clamp
  have h : (0 : ℚ) ≤ max (min value 255) 0 := le_max_right _ _
  exact_mod_cast Int.le_floor.mpr (by exact_mod_cast h)

theorem Color.clamp_le (value : ℚ) : Color.clamp value ≤ 255 := by
  unfold Color.clamp
  have h : max (min value 255) 0 ≤ (255 : ℚ) :=
    max_le (min_le_right _ _) (by norm_num)
  calc ⌊max (min value 255) 0⌋ ≤ ⌊(255 : ℚ)⌋ := Int.floor_le_floor h
    _ = 255 := by norm_num

theorem Color.clamped_inRange (r g b a : ℚ) :
    Color.inRange { myRed := Color.clamp r, myGreen := Color.clamp g,
                    myBlue := Color.clamp b, myAlpha := Color.clamp a } := by
  refine ⟨Color.clamp_nonneg r, Color.clamp_le r, Color.clamp_nonneg g,
    Color.clamp_le g, Color.clamp_nonneg b, Color.clamp_le b,
    Color.clamp_nonneg a, Color.clamp_le a⟩

end DGtal

namespace FuzzySeg

theorem ptLt_iff {p q : Pt} : ptLt p q = true ↔ p.1 < q.1 ∨ (p.1 = q.1 ∧ p.2 < q.2) := by
  simp [ptLt]

theorem ptLt_trans {a b c : Pt} (h1 : ptLt a b = true) (h2 : ptLt b c = true) :
    ptLt a c = true := by
  rw [ptLt_iff] at h1 h2 ⊢
  omega

theorem ptLt_ne {a b : Pt} (h : ptLt a b = true) : a ≠ b := by
  intro he
  subst he
  simp [ptLt] at h

theorem eq_of_not_ptLt {p q : Pt} (h1 : ¬ ptLt p q = true) (h2 : ¬ ptLt q p = true) :
    p = q := by
  rw [ptLt_iff] at h1 h2
  have h3 : p.1 = q.1 ∧ p.2 = q.2 := by omega
  exact Prod.ext h3.1 h3.2

theorem mem_setInsert {x p : Pt} {L : List Pt} :
    x ∈ setInsert p L ↔ x = p ∨ x ∈ L := by
  induction L with
  | nil => simp [setInsert]
  | cons q s ih =>
    simp only [setInsert]
    by_cases h1 : ptLt p q = true
    · rw [if_pos h1]
      simp
    · rw [if_neg h1]
      by_cases h2 : ptLt q p = true
      · rw [if_pos h2]
        simp only [List.mem_cons, ih]
        tauto
      · rw [if_neg h2]
        have he := eq_of_not_ptLt h1 h2
        subst he
        simp only [List.mem_cons]
        tauto

theorem setInsert_sorted {p : Pt} {L : List Pt}
    (h : List.Pairwise (fun a b => ptLt a b = true) L) :
    List.Pairwise (fun a b => ptLt a b = true) (setInsert p L) := by
  induction L with
  | nil => simp [setInsert]
  | cons q s ih =>
    rw [List.pairwise_cons] at h
    obtain ⟨hq, hs⟩ := h
    simp only [setInsert]
    by_cases h1 : ptLt p q = true
    · rw [if_pos h1, List.pairwise_cons]
      refine ⟨?_, List.pairwise_cons.mpr ⟨hq, hs⟩⟩
      intro b hb
      rcases List.mem_cons.mp hb with hb | hb
      · subst hb; exact h1
      · exact ptLt_trans h1 (hq b hb)
    · rw [if_neg h1]
      by_cases h2 : ptLt q p = true
      · rw [if_pos h2, List.pairwise_cons]
        refine ⟨?_, ih hs⟩
        intro b hb
        rcases mem_setInsert.mp hb with hb | hb
        · subst hb; exact h2
        · exact hq b hb
      · rw [if_neg h2]
        exact List.pairwise_cons.mpr ⟨hq, hs⟩

theorem extendBack_eq_extendFront (s : State) (p : Pt) :
    extendBack s p = extendFront s p := rfl

theorem extendFront_true {s : State} {p : Pt}
    (hc : melkmanMainDiagonal (tentativeCommit s p).myMelkmanQueue < boundQ s) :
    extendFront s p = (true, tentativeCommit s p) := by
  simp only [extendFront, if_pos hc]

theorem extendFront_false {s : State} {p : Pt}
    (hc : ¬ melkmanMainDiagonal (tentativeCommit s p).myMelkmanQueue < boundQ s) :
    extendFront s p = (false, s) := by
  simp only [extendFront, if_neg hc]

theorem reachable_sorted {s : State} (h : Reachable s) :
    List.Pairwise (fun a b => ptLt a b = true) s.myPointSet := by
  induction h with
  | start p num den =>
    simp [init]
  | stepF p hr htrue ih =>
    rename_i s
    by_cases hc : melkmanMainDiagonal (tentativeCommit s p).myMelkmanQueue < boundQ s
    · rw [extendFront_true hc]
      exact setInsert_sorted ih
    · rw [extendFront_false hc]
      exact ih
  | stepB p hr htrue ih =>
    rename_i s
    rw [extendBack_eq_extendFront]
    by_cases hc : melkmanMainDiagonal (tentativeCommit s p).myMelkmanQueue < boundQ s
    · rw [extendFront_true hc]
      exact setInsert_sorted ih
    · rw [extendFront_false hc]
      exact ih

theorem bestFold_snd (H : List Pt) (es : List (Pt × Pt)) (acc : (Pt × Pt) × ℚ)
    (hacc : acc.2 = edgeAxisWidth H acc.1) :
    (es.foldl
      (fun best e2 =>
        let w := edgeAxisWidth H e2
        if w < best.2 then (e2, w) else best) acc).2
      = edgeAxisWidth H
        (es.foldl
          (fun best e2 =>
            let w := edgeAxisWidth H e2
            if w < best.2 then (e2, w) else best) acc).1 := by
  induction es generalizing acc with
  | nil => exact hacc
  | cons e es ih =>
    simp only [List.foldl_cons]
    apply ih
    by_cases hlt : edgeAxisWidth H e < acc.2
    · rw [if_pos hlt]
    · rw [if_neg hlt]
      exact hacc

theorem primitiveOf_axisWidth : ∀ H : List Pt,
    axisWidth (primitiveOf H) = melkmanMainDiagonal H
  | [] => by simp [primitiveOf, axisWidth, melkmanMainDiagonal, mainDiagonalEdge]
  | [v] => by simp [primitiveOf, axisWidth, melkmanMainDiagonal, mainDiagonalEdge]
  | [a, b] => by simp [primitiveOf, axisWidth, melkmanMainDiagonal, mainDiagonalEdge]
  | a :: b :: c :: t => by
    have h := bestFold_snd (a :: b :: c :: t) ((b :: c :: t).zip ((c :: t) ++ [a]))
      ((a, b), edgeAxisWidth (a :: b :: c :: t) (a, b)) rfl
    simp only [primitiveOf, melkmanMainDiagonal, mainDiagonalEdge]
    rw [h]
    rfl

theorem melkmanMainDiagonal_degenerate {H : List Pt} (h : H.length ≤ 2) :
    melkmanMainDiagonal H = 0 := by
  match H with
  | [] => rfl
  | [_] => rfl
  | [_, _] => rfl
  | _ :: _ :: _ :: _ => simp at h

end FuzzySeg

/-- Claim C1: whenever `extendFront` or `extendBack` returns true, the width
ε of the strip returned by `primitive()` is strictly below the configured
Width Bound; whenever either returns false, committing that candidate point
would have produced a width ε at least the bound. -/
theorem C1_bound_invariant (s : FuzzySeg.State) (p : FuzzySeg.Pt) :
    ((FuzzySeg.extendFront s p).1 = true →
      FuzzySeg.axisWidth (FuzzySeg.primitive (FuzzySeg.extendFront s p).2) <
        FuzzySeg.boundQ s) ∧
    ((FuzzySeg.extendFront s p).1 = false →
      FuzzySeg.boundQ s ≤
        FuzzySeg.axisWidth (FuzzySeg.primitive (FuzzySeg.tentativeCommit s p))) ∧
    ((FuzzySeg.extendBack s p).1 = true →
      FuzzySeg.axisWidth (FuzzySeg.primitive (FuzzySeg.extendBack s p).2) <
        FuzzySeg.boundQ s) ∧
    ((FuzzySeg.extendBack s p).1 = false →
      FuzzySeg.boundQ s ≤
        FuzzySeg.axisWidth (FuzzySeg.primitive (FuzzySeg.tentativeCommit s p))) := by
  rw [FuzzySeg.extendBack_eq_extendFront]
  by_cases hc : FuzzySeg.melkmanMainDiagonal
      (FuzzySeg.tentativeCommit s p).myMelkmanQueue < FuzzySeg.boundQ s
  · rw [FuzzySeg.extendFront_true hc]
    refine ⟨fun _ => ?_, fun h => by simp at h, fun _ => ?_, fun h => by simp at h⟩ <;>
      simpa [FuzzySeg.primitive, FuzzySeg.primitiveOf_axisWidth] using hc
  · rw [FuzzySeg.extendFront_false hc]
    refine ⟨fun h => by simp at h, fun _ => ?_, fun h => by simp at h, fun _ => ?_⟩ <;>
      simpa [FuzzySeg.primitive, FuzzySeg.primitiveOf_axisWidth] using not_lt.mp hc

/-- Claim C2: when `isExtendableFront` (symmetrically `isExtendableBack`)
returns false, the Point Ledger size, the Hull State and the `primitive()`
output after the call equal their values before the call — the rejected
tentative hull insertion is rolled back atomically (the model restores the
snapshot unconditionally, so the state is the same state). -/
theorem C2_rollback_atomic (s : FuzzySeg.State) (p : FuzzySeg.Pt) :
    ((FuzzySeg.isExtendableFront s p).1 = false →
      (FuzzySeg.isExtendableFront s p).2 = s ∧
      FuzzySeg.size (FuzzySeg.isExtendableFront s p).2 = FuzzySeg.size s ∧
      (FuzzySeg.isExtendableFront s p).2.myMelkmanQueue = s.myMelkmanQueue ∧
      FuzzySeg.primitive (FuzzySeg.isExtendableFront s p).2 = FuzzySeg.primitive s) ∧
    ((FuzzySeg.isExtendableBack s p).1 = false →
      (FuzzySeg.isExtendableBack s p).2 = s ∧
      FuzzySeg.size (FuzzySeg.isExtendableBack s p).2 = FuzzySeg.size s ∧
      (FuzzySeg.isExtendableBack s p).2.myMelkmanQueue = s.myMelkmanQueue ∧
      FuzzySeg.primitive (FuzzySeg.isExtendableBack s p).2 = FuzzySeg.primitive s) :=
  ⟨fun _ => ⟨rfl, rfl, rfl, rfl⟩, fun _ => ⟨rfl, rfl, rfl, rfl⟩⟩

/-- Claim C5: the header's own documentation of `primitive()` says the width
bound `widthNumerator / widthDenominator` is specified with `init`, but the
declared `init(const ConstIterator&)` takes no such parameters and the class
declares no member able to hold them: its entire per-instance data is the one
deque `myMelkmanQueue`, so two instances agreeing on that deque are equal —
no width bound is stored anywhere in the recognizer. -/
theorem C5_state_only_queue (s t : DGtal.FuzzySegmentComputer)
    (h : s.myMelkmanQueue = t.myMelkmanQueue) : s = t := by
  cases s
  cases t
  simpa using h

/-- Witness for C5: the state-determination theorem applied to concrete
instances. -/
theorem C5_state_witness :
    (DGtal.FuzzySegmentComputer.mk [] = DGtal.FuzzySegmentComputer.mk []) :=
  C5_state_only_queue (DGtal.FuzzySegmentComputer.mk [])
    (DGtal.FuzzySegmentComputer.mk []) rfl

/-- Claim C8 counterexample: with the width bound 0/1 (a rational bound the
interface accepts), the state right after `init (0,0)` is degenerate, yet the
extension test with `(1,0)` — whose tentative hull is still degenerate, of
width 0 — returns false: the degenerate case is treated as exceeding the
bound, contradicting the claim as stated. -/
theorem C8_degenerate_counterexample :
    (FuzzySeg.extendFront (FuzzySeg.init ((0 : Int), (0 : Int)) 0 1)
        ((1 : Int), (0 : Int))).1 = false ∧
    (FuzzySeg.melkmanAddPoint [((0 : Int), (0 : Int))] [((0 : Int), (0 : Int))]
        ((1 : Int), (0 : Int))).length ≤ 2 := by
  have hb : FuzzySeg.boundQ (FuzzySeg.init ((0 : Int), (0 : Int)) 0 1) = 0 := by
    norm_num [FuzzySeg.boundQ, FuzzySeg.init]
  have h1 : FuzzySeg.melkmanAddPoint [((0 : Int), (0 : Int))]
      [((0 : Int), (0 : Int))] ((1 : Int), (0 : Int)) =
      [((1 : Int), (0 : Int)), ((0 : Int), (0 : Int))] := by rfl
  constructor
  · have hc : ¬ FuzzySeg.melkmanMainDiagonal
        (FuzzySeg.tentativeCommit (FuzzySeg.init ((0 : Int), (0 : Int)) 0 1)
          ((1 : Int), (0 : Int))).myMelkmanQueue <
        FuzzySeg.boundQ (FuzzySeg.init ((0 : Int), (0 : Int)) 0 1) := by
      rw [hb]
      show ¬ FuzzySeg.melkmanMainDiagonal
        (FuzzySeg.melkmanAddPoint [((0 : Int), (0 : Int))] [((0 : Int), (0 : Int))]
          ((1 : Int), (0 : Int))) < 0
      rw [h1]
      norm_num [FuzzySeg.melkmanMainDiagonal, FuzzySeg.mainDiagonalEdge]
    rw [FuzzySeg.extendFront_false hc]
  · rw [h1]
    simp

/-- Claim C8 (amended: the configured width bound must be strictly positive):
for a state whose hull is degenerate, the width is 0, `primitive()` is a
well-defined zero-width strip whose normal is orthogonal to the hull's single
direction, and an extension attempt whose tentative hull is still degenerate
is never rejected. -/
theorem C8_degenerate_corrected (s : FuzzySeg.State) (p : FuzzySeg.Pt)
    (hb : 0 < FuzzySeg.boundQ s) (hd : s.myMelkmanQueue.length ≤ 2) :
    FuzzySeg.melkmanMainDiagonal s.myMelkmanQueue = 0 ∧
    (FuzzySeg.primitive s).eps = 0 ∧
    FuzzySeg.axisWidth (FuzzySeg.primitive s) = 0 ∧
    ((FuzzySeg.melkmanAddPoint s.myPointSet s.myMelkmanQueue p).length ≤ 2 →
      (FuzzySeg.extendFront s p).1 = true ∧ (FuzzySeg.extendBack s p).1 = true) ∧
    (∀ a b : FuzzySeg.Pt, s.myMelkmanQueue = [a, b] →
      FuzzySeg.dot (FuzzySeg.primitive s).N (FuzzySeg.psub b a) = 0) := by
  refine ⟨FuzzySeg.melkmanMainDiagonal_degenerate hd, ?_, ?_, ?_, ?_⟩
  · unfold FuzzySeg.primitive
    match hq : s.myMelkmanQueue, hd with
    | [], _ => rfl
    | [v], _ => rfl
    | [a, b], _ => rfl
  · unfold FuzzySeg.primitive
    match hq : s.myMelkmanQueue, hd with
    | [], _ => simp [FuzzySeg.primitiveOf, FuzzySeg.axisWidth]
    | [v], _ => simp [FuzzySeg.primitiveOf, FuzzySeg.axisWidth]
    | [a, b], _ => simp [FuzzySeg.primitiveOf, FuzzySeg.axisWidth]
  · intro hdt
    have hw : FuzzySeg.melkmanMainDiagonal
        (FuzzySeg.tentativeCommit s p).myMelkmanQueue = 0 :=
      FuzzySeg.melkmanMainDiagonal_degenerate hdt
    have hc : FuzzySeg.melkmanMainDiagonal
        (FuzzySeg.tentativeCommit s p).myMelkmanQueue < FuzzySeg.boundQ s := by
      rw [hw]; exact hb
    rw [FuzzySeg.extendBack_eq_extendFront, FuzzySeg.extendFront_true hc]
    exact ⟨rfl, rfl⟩
  · intro a b hq
    unfold FuzzySeg.primitive
    rw [hq]
    simp [FuzzySeg.primitiveOf, FuzzySeg.dot, FuzzySeg.perp, FuzzySeg.psub]
    ring

/-- Witness for C8: the amended theorem applied at the freshly initialized
recognizer with bound 1/1 and candidate `(1,0)`. -/
theorem C8_degenerate_witness :
    0 < FuzzySeg.boundQ (FuzzySeg.init ((0 : Int), (0 : Int)) 1 1) ∧
    (FuzzySeg.init ((0 : Int), (0 : Int)) 1 1).myMelkmanQueue.length ≤ 2 ∧
    FuzzySeg.melkmanMainDiagonal
      (FuzzySeg.init ((0 : Int), (0 : Int)) 1 1).myMelkmanQueue = 0 := by
  have hb : 0 < FuzzySeg.boundQ (FuzzySeg.init ((0 : Int), (0 : Int)) 1 1) := by
    norm_num [FuzzySeg.boundQ, FuzzySeg.init]
  have hd : (FuzzySeg.init ((0 : Int), (0 : Int)) 1 1).myMelkmanQueue.length ≤ 2 := by
    simp [FuzzySeg.init]
  exact ⟨hb, hd,
    (C8_degenerate_corrected (FuzzySeg.init ((0 : Int), (0 : Int)) 1 1)
      ((1 : Int), (0 : Int)) hb hd).1⟩

/-- Claim C9: iterating the recognizer's ledger enumerates each distinct
stored point exactly once, in strictly increasing lexicographic order of the
point comparator, in every reachable state (hence regardless of the order in
which points were accepted at the front or the back). -/
theorem C9_ledger_sorted (s : FuzzySeg.State) (h : FuzzySeg.Reachable s) :
    List.Pairwise (fun a b => FuzzySeg.ptLt a b = true) s.myPointSet ∧
    s.myPointSet.Nodup := by
  have hs := FuzzySeg.reachable_sorted h
  exact ⟨hs, hs.imp fun hab => FuzzySeg.ptLt_ne hab⟩

/-- Witness for C9: the sortedness theorem applied at a concrete reachable
state. -/
theorem C9_ledger_witness :
    FuzzySeg.Reachable (FuzzySeg.init ((0 : Int), (0 : Int)) 1 1) ∧
    (List.Pairwise (fun a b => FuzzySeg.ptLt a b = true)
      (FuzzySeg.init ((0 : Int), (0 : Int)) 1 1).myPointSet ∧
    (FuzzySeg.init ((0 : Int), (0 : Int)) 1 1).myPointSet.Nodup) :=
  ⟨FuzzySeg.Reachable.start _ _ _,
    C9_ledger_sorted _ (FuzzySeg.Reachable.start _ _ _)⟩

/-- Claim C10: for every pair of colors and every coefficient, every component
of the result of `operator+`, `operator+=`, `operator-`, `operator-=`,
`operator*` and `operator*=` lies in `[0, 255]`: the component arithmetic is
clamped, never wrapping or overflowing. -/
theorem C10_color_ops_clamped (a v : DGtal.Color) (coeff : ℚ) :
    (DGtal.Color.add a v).inRange ∧ (DGtal.Color.addAssign a v).inRange ∧
    (DGtal.Color.sub a v).inRange ∧ (DGtal.Color.subAssign a v).inRange ∧
    (DGtal.Color.mul a coeff).inRange ∧ (DGtal.Color.mulAssign a coeff).inRange :=
  ⟨DGtal.Color.clamped_inRange _ _ _ _, DGtal.Color.clamped_inRange _ _ _ _,
   DGtal.Color.clamped_inRange _ _ _ _, DGtal.Color.clamped_inRange _ _ _ _,
   DGtal.Color.clamped_inRange _ _ _ _, DGtal.Color.clamped_inRange _ _ _ _⟩

namespace FuzzySeg

/-! Algebraic identities of the exact signed-area and dot-product arithmetic,
all verified by `ring` on the coordinates. -/

theorem det_cyclic (a b c : Pt) : det a b c = det b c a := by
  simp only [det]
  ring

theorem det_swap23 (a b c : Pt) : det a c b = -det a b c := by
  simp only [det]
  ring

theorem det_eq_cross (a b c : Pt) : det a b c = cross (psub b a) (psub c a) := by
  simp only [det, cross, psub]

theorem det_cocycle (a b c x : Pt) :
    det a b x + det b c x + det c a x = det a b c := by
  simp only [det]
  ring

theorem det_slabX (u v a b q : Pt) :
    (b.1 - a.1) * det u v q =
      (b.1 - q.1) * det u v a + (q.1 - a.1) * det u v b +
        det a b q * (v.1 - u.1) := by
  simp only [det]
  ring

theorem det_slabY (u v a b q : Pt) :
    (b.2 - a.2) * det u v q =
      (b.2 - q.2) * det u v a + (q.2 - a.2) * det u v b +
        det a b q * (v.2 - u.2) := by
  simp only [det]
  ring

theorem det_tri_edge (a b p q : Pt) :
    dot (psub b a) (psub b a) * det p a q =
      dot (psub q a) (psub b a) * det a b p -
        det a b q * dot (psub p a) (psub b a) := by
  simp only [det, dot, psub]
  ring

theorem det_collinear_compose (a b p q : Pt) :
    dot (psub b a) (psub b a) * det a p q =
      dot (psub p a) (psub b a) * det a b q -
        dot (psub q a) (psub b a) * det a b p := by
  simp only [det, dot, psub]
  ring

theorem cross_ray (a d1 d2 : Pt) :
    cross a d2 * dot d1 d1 =
      cross a d1 * dot d1 d2 + cross d1 d2 * dot a d1 := by
  simp only [cross, dot]
  ring

theorem cross_coordX (d u v : Pt) :
    d.1 * cross u v = u.1 * cross d v - v.1 * cross d u := by
  simp only [cross]
  ring

theorem cross_coordY (d u v : Pt) :
    d.2 * cross u v = u.2 * cross d v - v.2 * cross d u := by
  simp only [cross]
  ring

theorem lagrange (u v : Pt) :
    dot u v ^ 2 + cross u v ^ 2 = dot u u * dot v v := by
  simp only [dot, cross]
  ring

theorem dot_self_nonneg (u : Pt) : 0 ≤ dot u u := by
  simp only [dot]
  have h1 := mul_self_nonneg u.1
  have h2 := mul_self_nonneg u.2
  linarith

theorem dot_self_pos {u : Pt} (h : u ≠ (0, 0)) : 0 < dot u u := by
  rcases lt_or_eq_of_le (dot_self_nonneg u) with h1 | h1
  · exact h1
  · exfalso
    apply h
    simp only [dot] at h1
    have hu1 : u.1 = 0 := by nlinarith [sq_nonneg u.1, sq_nonneg u.2]
    have hu2 : u.2 = 0 := by nlinarith [sq_nonneg u.1, sq_nonneg u.2]
    exact Prod.ext hu1 hu2

theorem psub_eq_zero_iff {a b : Pt} : psub a b = ((0 : Int), (0 : Int)) ↔ a = b := by
  constructor
  · intro h
    have h1 := congrArg Prod.fst h
    have h2 := congrArg Prod.snd h
    simp [psub] at h1 h2
    exact Prod.ext (by omega) (by omega)
  · intro h
    subst h
    simp [psub]

end FuzzySeg

namespace FuzzySeg

/-! Chain lemmas: an open chain that is strictly lexicographically sorted and
locally convex is globally in convex position.  The arguments are the
classical ones for sorted point sequences, carried out with the slab
identities above. -/

theorem det_self2 (a b : Pt) : det a b b = 0 := by
  simp only [det]
  ring

theorem det_self12 (a b : Pt) : det a a b = 0 := by
  simp only [det]
  ring

theorem ptLt_x_le {a b : Pt} (h : ptLt a b = true) : a.1 ≤ b.1 := by
  rw [ptLt_iff] at h
  omega

theorem lexSorted_tail {x : Pt} {t : List Pt} (h : LexSorted (x :: t)) :
    LexSorted t :=
  (List.pairwise_cons.mp h).2

theorem lexSorted_head {x : Pt} {t : List Pt} (h : LexSorted (x :: t)) :
    ∀ q ∈ t, ptLt x q = true :=
  (List.pairwise_cons.mp h).1

theorem chainConvex_tail : ∀ {x : Pt} {t : List Pt},
    ChainConvex (x :: t) → ChainConvex t
  | _, [], _ => trivial
  | _, [_], _ => trivial
  | _, _ :: _ :: _, h => h.2

theorem edge_x_lt {a b c : Pt} (hab : ptLt a b = true) (hac : ptLt a c = true)
    (hd : 0 < det a b c) : a.1 < b.1 := by
  rw [ptLt_iff] at hab hac
  rcases hab with h | ⟨he, hy⟩
  · exact h
  · exfalso
    have hx : a.1 ≤ c.1 := by omega
    simp only [det] at hd
    have h9 : (b.1 - a.1) * (c.2 - a.2) = 0 := by
      have hb0 : b.1 - a.1 = 0 := by omega
      rw [hb0]
      ring
    linarith [h9, mul_nonneg (by omega : (0 : Int) ≤ b.2 - a.2)
      (by omega : (0 : Int) ≤ c.1 - a.1)]

theorem knuthA {a b c q : Pt} (hax : a.1 ≤ b.1) (hbc : b.1 < c.1)
    (hcq : c.1 ≤ q.1) (h1 : 0 < det a b c) (h2 : 0 < det b c q) :
    0 < det a b q := by
  have hid : (q.1 - b.1) * det a b c =
      (c.1 - b.1) * det a b q - det b c q * (b.1 - a.1) := by
    simp only [det]
    ring
  have h3 : 0 < (q.1 - b.1) * det a b c := mul_pos (by omega) h1
  have h4 : 0 ≤ det b c q * (b.1 - a.1) := mul_nonneg h2.le (by omega)
  have h5 : 0 < (c.1 - b.1) * det a b q := by linarith
  by_contra h7
  push_neg at h7
  nlinarith [h5, h7]

theorem knuthD {I J Jp K : Pt} (hIJ : I.1 ≤ J.1) (hJJp : J.1 < Jp.1)
    (hJpK : Jp.1 ≤ K.1) (h1 : 0 < det I J K) (h2 : 0 < det J Jp K) :
    0 < det I Jp K := by
  have hid : (K.1 - J.1) * det I Jp K =
      (K.1 - Jp.1) * det I J K + det J Jp K * (K.1 - I.1) := by
    simp only [det]
    ring
  have h3 : 0 ≤ (K.1 - Jp.1) * det I J K := mul_nonneg (by omega) h1.le
  have h4 : 0 < det J Jp K * (K.1 - I.1) := mul_pos h2 (by omega)
  have h5 : 0 < (K.1 - J.1) * det I Jp K := by linarith
  by_contra h7
  push_neg at h7
  nlinarith [h5, h7]

theorem edge_sees : ∀ {t : List Pt} {a b : Pt},
    LexSorted (a :: b :: t) → ChainConvex (a :: b :: t) →
    ∀ q ∈ t, 0 < det a b q := by
  intro t
  induction t with
  | nil =>
    intro a b _ _ q hq
    simp at hq
  | cons c t2 ih =>
    intro a b hlex hconv q hq
    rcases List.mem_cons.mp hq with rfl | hq2
    · exact hconv.1
    · have htl : LexSorted (b :: c :: t2) := lexSorted_tail hlex
      have htc : ChainConvex (b :: c :: t2) := chainConvex_tail hconv
      have hbcq : 0 < det b c q := ih htl htc q hq2
      have hab : ptLt a b = true := lexSorted_head hlex b (by simp)
      have hbc : ptLt b c = true := lexSorted_head htl c (by simp)
      have hbq : ptLt b q = true := lexSorted_head htl q (by simp [hq2])
      have hcq : ptLt c q = true :=
        lexSorted_head (lexSorted_tail htl) q hq2
      exact knuthA (ptLt_x_le hab) (edge_x_lt hbc hbq hbcq) (ptLt_x_le hcq)
        hconv.1 hbcq

theorem chain_x_strict : ∀ {t : List Pt} {b y z : Pt},
    LexSorted (b :: t) → ChainConvex (b :: t) → [y, z].Sublist t →
    b.1 < y.1 := by
  intro t
  induction t with
  | nil =>
    intro b y z _ _ hs
    simp at hs
  | cons c t2 ih =>
    intro b y z hlex hconv hs
    cases hs with
    | cons _ hs2 =>
      have hcy : c.1 < y.1 := ih (lexSorted_tail hlex) (chainConvex_tail hconv) hs2
      have hbc : ptLt b c = true := lexSorted_head hlex c (by simp)
      have := ptLt_x_le hbc
      omega
    | cons₂ _ hs2 =>
      have hz : z ∈ t2 := hs2.subset (by simp)
      have hbc : ptLt b c = true := lexSorted_head hlex c (by simp)
      have hbz : ptLt b z = true := lexSorted_head hlex z (by simp [hz])
      exact edge_x_lt hbc hbz (edge_sees hlex hconv z hz)

theorem sees_pairs : ∀ {t : List Pt} {v y z : Pt},
    LexSorted (v :: t) → ChainConvex (v :: t) → [y, z].Sublist t →
    0 < det v y z := by
  intro t
  induction t with
  | nil =>
    intro v y z _ _ hs
    simp at hs
  | cons b t2 ih =>
    intro v y z hlex hconv hs
    cases hs with
    | cons₂ _ hs2 =>
      exact edge_sees hlex hconv z (hs2.subset (by simp))
    | cons _ hs2 =>
      have hz : z ∈ t2 := hs2.subset (by simp)
      have hy : y ∈ t2 := hs2.subset (by simp)
      have hbyz : 0 < det b y z := ih (lexSorted_tail hlex) (chainConvex_tail hconv) hs2
      have hvbz : 0 < det v b z := edge_sees hlex hconv z (by simp [hz])
      have hvb : ptLt v b = true := lexSorted_head hlex b (by simp)
      have hby : b.1 < y.1 :=
        chain_x_strict (lexSorted_tail hlex) (chainConvex_tail hconv) hs2
      have hyz : ptLt y z = true := by
        have hs3 : [y, z].Sublist (v :: b :: t2) :=
          List.Sublist.cons v (List.Sublist.cons b hs2)
        have hp : List.Pairwise (fun a b => ptLt a b = true) [y, z] :=
          List.Pairwise.sublist hs3 hlex
        exact (List.pairwise_cons.mp hp).1 z (by simp)
      exact knuthD (ptLt_x_le hvb) hby (ptLt_x_le hyz) hvbz hbyz

theorem convPos : ∀ {C : List Pt} {x y z : Pt},
    LexSorted C → ChainConvex C → [x, y, z].Sublist C → 0 < det x y z := by
  intro C
  induction C with
  | nil =>
    intro x y z _ _ hs
    simp at hs
  | cons v t ih =>
    intro x y z hlex hconv hs
    cases hs with
    | cons _ hs2 => exact ih (lexSorted_tail hlex) (chainConvex_tail hconv) hs2
    | cons₂ _ hs2 => exact sees_pairs hlex hconv hs2

end FuzzySeg

namespace FuzzySeg

theorem det_swap12 (a b c : Pt) : det b a c = -det a b c := by
  simp only [det]
  ring

theorem reverse_cons2 (hd a : Pt) (rest : List Pt) :
    (hd :: a :: rest).reverse = rest.reverse ++ [a, hd] := by
  simp

theorem chainPush_go (W0 : List Pt) (p : Pt)
    (hlex : LexSorted W0) (hconv : ChainConvex W0) :
    ∀ (t : List Pt) (hd : Pt) (dropped : List Pt),
    W0 = (hd :: t).reverse ++ dropped →
    (∀ x ∈ dropped, 0 ≤ det hd p x) →
    ∃ hd2 t2 dropped2,
      chainPush p (hd :: t) = p :: hd2 :: t2 ∧
      W0 = (hd2 :: t2).reverse ++ dropped2 ∧
      (∀ x ∈ dropped2, 0 ≤ det hd2 p x) ∧
      (t2 = [] ∨ ∃ a t3, t2 = a :: t3 ∧ 0 < det a hd2 p) := by
  intro t
  induction t with
  | nil =>
    intro hd dropped hsplit hinv
    refine ⟨hd, [], dropped, ?_, hsplit, hinv, Or.inl rfl⟩
    simp [chainPush]
  | cons a rest ih =>
    intro hd dropped hsplit hinv
    by_cases hc : det a hd p ≤ 0
    · have hsplit2 : W0 = (a :: rest).reverse ++ (hd :: dropped) := by
        rw [hsplit, reverse_cons2]
        simp
      have hinv2 : ∀ x ∈ hd :: dropped, 0 ≤ det a p x := by
        intro x hx
        rcases List.mem_cons.mp hx with h | hx2
        · subst h
          have hs := det_swap23 a x p
          linarith
        · have hsub : [a, hd, x].Sublist W0 := by
            rw [hsplit, reverse_cons2, List.append_assoc]
            have h1 : [a, hd, x].Sublist ([a, hd] ++ dropped) := by
              have : ([a, hd] ++ [x]).Sublist ([a, hd] ++ dropped) :=
                (List.append_sublist_append_left [a, hd]).mpr
                  (List.singleton_sublist.mpr hx2)
              simpa using this
            exact h1.trans (List.suffix_append rest.reverse ([a, hd] ++ dropped)).sublist
          have h1 : 0 < det a hd x := convPos hlex hconv hsub
          have h2 : 0 ≤ det hd p x := hinv x hx2
          have hco := det_cocycle a hd p x
          have hsw := det_swap12 p a x
          have hsw2 := det_swap23 p a x
          -- det a p x = det a hd x + det hd p x - det a hd p
          linarith [hco, hsw, hsw2, det_swap23 a p x]
      have hstep : chainPush p (hd :: a :: rest) = chainPush p (a :: rest) := by
        simp only [chainPush, if_pos hc]
      rw [hstep]
      exact ih a (hd :: dropped) hsplit2 hinv2
    · refine ⟨hd, a :: rest, dropped, ?_, hsplit, hinv,
        Or.inr ⟨a, rest, rfl, not_le.mp hc⟩⟩
      simp only [chainPush, if_neg hc]

end FuzzySeg

namespace FuzzySeg

theorem det_self13 (a b : Pt) : det a b a = 0 := by
  simp only [det]
  ring

theorem ptLe_x_le {a b : Pt} (h : ptLe a b) : a.1 ≤ b.1 := by
  rcases h with rfl | h
  · exact le_refl _
  · exact ptLt_x_le h

theorem ptLe_refl (a : Pt) : ptLe a a := Or.inl rfl

theorem ptLe_antisymm {a b : Pt} (h1 : ptLe a b) (h2 : ptLe b a) : a = b := by
  rcases h1 with rfl | h1
  · rfl
  · rcases h2 with rfl | h2
    · rfl
    · exact absurd (ptLt_trans h1 h2) (by intro h; exact ptLt_ne h rfl)

theorem ptLt_or_ge (a b : Pt) : ptLt a b = true ∨ ptLe b a := by
  by_cases h1 : ptLt a b = true
  · exact Or.inl h1
  · by_cases h2 : ptLt b a = true
    · exact Or.inr (Or.inr h2)
    · exact Or.inr (Or.inl (eq_of_not_ptLt h2 h1))

theorem chainConvex_prefix : ∀ {V D : List Pt}, ChainConvex (V ++ D) → ChainConvex V
  | [], _, _ => trivial
  | [_], _, _ => trivial
  | [_, _], _, _ => trivial
  | _ :: b :: c :: t, D, h => ⟨h.1, chainConvex_prefix (V := b :: c :: t) (D := D) h.2⟩

theorem lexSorted_prefix {V D : List Pt} (h : LexSorted (V ++ D)) : LexSorted V :=
  List.Pairwise.sublist ((List.prefix_append V D).sublist) h

theorem lexSorted_append_elem {V D : List Pt} (h : LexSorted (V ++ D)) :
    ∀ x ∈ V, ∀ y ∈ D, ptLt x y = true := by
  rw [LexSorted, List.pairwise_append] at h
  exact h.2.2

theorem lastTwo_concat2 : ∀ (L : List Pt) (u w : Pt),
    lastTwo (L ++ [u, w]) = some (u, w)
  | [], u, w => rfl
  | [a], u, w => rfl
  | a :: b :: t, u, w => by
    have h1 : (a :: b :: t) ++ [u, w] = a :: ((b :: t) ++ [u, w]) := rfl
    have h2 := lastTwo_concat2 (b :: t) u w
    rw [h1]
    cases t with
    | nil => exact h2
    | cons c t2 => exact h2

theorem chainConvex_snoc : ∀ {V : List Pt} {p : Pt}, ChainConvex V →
    (∀ u w, lastTwo V = some (u, w) → 0 < det u w p) → ChainConvex (V ++ [p])
  | [], _, _, _ => trivial
  | [_], _, _, _ => trivial
  | [u, w], p, _, hl => ⟨hl u w rfl, trivial⟩
  | a :: b :: c :: t, p, hc, hl =>
    ⟨hc.1, chainConvex_snoc (V := b :: c :: t) hc.2 (fun u w h => hl u w h)⟩

theorem lexSorted_snoc {V : List Pt} {p : Pt} (h : LexSorted V)
    (hp : ∀ x ∈ V, ptLt x p = true) : LexSorted (V ++ [p]) := by
  rw [LexSorted, List.pairwise_append]
  refine ⟨h, List.pairwise_singleton _ _, ?_⟩
  intro x hx y hy
  rcases List.mem_singleton.mp hy with rfl
  exact hp x hx

theorem chainPairs_cons_cons (a b : Pt) (t : List Pt) :
    chainPairs (a :: b :: t) = (a, b) :: chainPairs (b :: t) := rfl

theorem chainPairs_snoc : ∀ {V : List Pt} {u p : Pt}, V.getLast? = some u →
    chainPairs (V ++ [p]) = chainPairs V ++ [(u, p)] := by
  intro V
  induction V with
  | nil => intro u p h; simp at h
  | cons a T ih =>
    intro u p h
    cases T with
    | nil =>
      simp at h
      subst h
      rfl
    | cons b T2 =>
      have h2 : (b :: T2).getLast? = some u := by
        rwa [List.getLast?_cons_cons] at h
      show (a, b) :: chainPairs ((b :: T2) ++ [p]) =
        ((a, b) :: chainPairs (b :: T2)) ++ [(u, p)]
      rw [ih h2]
      rfl

theorem chainPairs_mem_left {V : List Pt} {e : Pt × Pt} (h : e ∈ chainPairs V) :
    e.1 ∈ V ∧ e.2 ∈ V := by
  induction V with
  | nil => simp [chainPairs] at h
  | cons a T ih =>
    cases T with
    | nil => simp [chainPairs] at h
    | cons b T2 =>
      rw [chainPairs_cons_cons] at h
      rcases List.mem_cons.mp h with rfl | h2
      · exact ⟨by simp, by simp⟩
      · obtain ⟨h3, h4⟩ := ih h2
        exact ⟨by simp [h3], by simp [h4]⟩

theorem chainPairs_lt {V : List Pt} (hlex : LexSorted V) :
    ∀ e ∈ chainPairs V, ptLt e.1 e.2 = true := by
  induction V with
  | nil => intro e he; simp [chainPairs] at he
  | cons a T ih =>
    cases T with
    | nil => intro e he; simp [chainPairs] at he
    | cons b T2 =>
      intro e he
      rw [chainPairs_cons_cons] at he
      rcases List.mem_cons.mp he with rfl | h2
      · exact lexSorted_head hlex b (by simp)
      · exact ih (lexSorted_tail hlex) e h2

theorem chainPairs_of_prefix : ∀ {V D : List Pt} {e : Pt × Pt},
    e ∈ chainPairs V → e ∈ chainPairs (V ++ D) := by
  intro V
  induction V with
  | nil => intro D e he; simp [chainPairs] at he
  | cons a T ih =>
    intro D e he
    cases T with
    | nil => simp [chainPairs] at he
    | cons b T2 =>
      rw [chainPairs_cons_cons] at he
      have h3 : (a :: b :: T2) ++ D = a :: b :: (T2 ++ D) := rfl
      rw [h3, chainPairs_cons_cons]
      rcases List.mem_cons.mp he with rfl | h2
      · exact List.mem_cons_self _ _
      · exact List.mem_cons_of_mem _ (ih h2)

theorem sorted_head_ptLe {P : List Pt} (h : LexSorted P) {h0 : Pt}
    (hh : P.head? = some h0) : ∀ q ∈ P, ptLe h0 q := by
  cases P with
  | nil => simp at hh
  | cons a T =>
    simp at hh
    subst hh
    intro q hq
    rcases List.mem_cons.mp hq with rfl | hq2
    · exact ptLe_refl _
    · exact Or.inr (lexSorted_head h q hq2)

theorem sorted_ptLe_getLast {P : List Pt} (h : LexSorted P) {l0 : Pt}
    (hl : P.getLast? = some l0) : ∀ q ∈ P, ptLe q l0 := by
  induction P with
  | nil => simp at hl
  | cons a T ih =>
    intro q hq
    cases T with
    | nil =>
      simp at hl hq
      subst hl
      subst hq
      exact ptLe_refl _
    | cons b T2 =>
      rw [List.getLast?_cons_cons] at hl
      rcases List.mem_cons.mp hq with rfl | hq2
      · have hb := ih (lexSorted_tail h) hl b (by simp)
        have hab : ptLt q b = true := lexSorted_head h b (by simp)
        rcases hb with rfl | hb2
        · exact Or.inr hab
        · exact Or.inr (ptLt_trans hab hb2)
      · exact ih (lexSorted_tail h) hl q hq2

theorem exists_spanning : ∀ {V : List Pt} {q : Pt},
    (∃ v0, V.head? = some v0 ∧ ptLe v0 q) →
    (∃ v1, V.getLast? = some v1 ∧ ptLe q v1) →
    (∃ e ∈ chainPairs V, ptLe e.1 q ∧ ptLe q e.2) ∨ (∃ v, V = [v] ∧ q = v) := by
  intro V
  induction V with
  | nil =>
    intro q h1 _
    obtain ⟨v0, hv0, _⟩ := h1
    simp at hv0
  | cons a T ih =>
    intro q h1 h2
    obtain ⟨v0, hv0, hle0⟩ := h1
    simp at hv0
    subst hv0
    cases T with
    | nil =>
      obtain ⟨v1, hv1, hle1⟩ := h2
      simp at hv1
      subst hv1
      exact Or.inr ⟨a, rfl, (ptLe_antisymm hle1 hle0).symm ▸ rfl⟩
    | cons b T2 =>
      rcases ptLt_or_ge q b with hqb | hbq
      · refine Or.inl ⟨(a, b), ?_, hle0, Or.inr hqb⟩
        rw [chainPairs_cons_cons]
        exact List.mem_cons_self _ _
      · obtain ⟨v1, hv1, hle1⟩ := h2
        rw [List.getLast?_cons_cons] at hv1
        have hrec := ih (q := q) ⟨b, rfl, hbq⟩ ⟨v1, hv1, hle1⟩
        rcases hrec with ⟨e, he, hspan⟩ | ⟨v, hv, hqv⟩
        · refine Or.inl ⟨e, ?_, hspan⟩
          rw [chainPairs_cons_cons]
          exact List.mem_cons_of_mem _ he
        · refine Or.inl ⟨(a, b), ?_, hle0, ?_⟩
          · rw [chainPairs_cons_cons]
            exact List.mem_cons_self _ _
          · have : b = v := by
              injection hv with h3 _
            subst this
            exact Or.inl hqv

end FuzzySeg

namespace FuzzySeg

theorem getLast?_decomp : ∀ {L : List Pt} {a : Pt},
    L.getLast? = some a → ∃ L2, L = L2 ++ [a] := by
  intro L
  induction L with
  | nil => intro a h; simp at h
  | cons x T ih =>
    intro a h
    cases T with
    | nil =>
      simp at h
      subst h
      exact ⟨[], rfl⟩
    | cons y T2 =>
      rw [List.getLast?_cons_cons] at h
      obtain ⟨L2, hL2⟩ := ih h
      refine ⟨x :: L2, ?_⟩
      rw [List.cons_append, ← hL2]

theorem chain_edges_see : ∀ {V : List Pt} (p : Pt),
    LexSorted V → ChainConvex V → (∀ x ∈ V, ptLt x p = true) →
    (∀ u w, lastTwo V = some (u, w) → 0 < det u w p) →
    ∀ e ∈ chainPairs V, 0 < det e.1 e.2 p := by
  intro V
  induction V with
  | nil =>
    intro p _ _ _ _ e he
    simp [chainPairs] at he
  | cons a T ih =>
    intro p hlex hconv hp hl e he
    cases T with
    | nil => simp [chainPairs] at he
    | cons b T2 =>
      rw [chainPairs_cons_cons] at he
      cases T2 with
      | nil =>
        rcases List.mem_cons.mp he with rfl | h2
        · exact hl a b rfl
        · simp [chainPairs] at h2
      | cons c T3 =>
        have hrec : ∀ e2 ∈ chainPairs (b :: c :: T3), 0 < det e2.1 e2.2 p :=
          ih p (lexSorted_tail hlex) (chainConvex_tail hconv)
            (fun x hx => hp x (by simp [hx]))
            (fun u w h => hl u w h)
        rcases List.mem_cons.mp he with rfl | h2
        · have hbc : 0 < det b c p := by
            have := hrec (b, c) (by
              rw [chainPairs_cons_cons]
              exact List.mem_cons_self _ _)
            simpa using this
          have hab : ptLt a b = true := lexSorted_head hlex b (by simp)
          have hbcL : ptLt b c = true :=
            lexSorted_head (lexSorted_tail hlex) c (by simp)
          have hbp : ptLt b p = true := hp b (by simp)
          have hcp : ptLt c p = true := hp c (by simp)
          exact knuthA (ptLt_x_le hab) (edge_x_lt hbcL hbp hbc) (ptLt_x_le hcp)
            hconv.1 hbc
        · exact hrec e h2

theorem new_edge_supports
    {P W0 V dropped2 : List Pt} {p hd2 : Pt}
    (hW0 : W0 = V ++ dropped2) (hV : V.getLast? = some hd2)
    (hlexW0 : LexSorted W0)
    (hdropinv : ∀ x ∈ dropped2, 0 ≤ det hd2 p x)
    (hW1lex : LexSorted (V ++ [p])) (hW1conv : ChainConvex (V ++ [p]))
    (hsupp : ChainSupports W0 P)
    (hplarger : ∀ x ∈ W0, ptLt x p = true)
    (hhead : W0.head? = P.head?) (hlast : W0.getLast? = P.getLast?)
    (hPsorted : LexSorted P) :
    ∀ q ∈ P, 0 ≤ det hd2 p q := by
  obtain ⟨V2, hV2⟩ := getLast?_decomp hV
  have hhd2W0 : hd2 ∈ W0 := by
    rw [hW0, hV2]
    simp
  have hvert : ∀ x ∈ W0, 0 ≤ det hd2 p x := by
    intro x hx
    rw [hW0] at hx
    rcases List.mem_append.mp hx with hxV | hxD
    · rw [hV2] at hxV
      rcases List.mem_append.mp hxV with hxV2 | hxe
      · have hsub : [x, hd2, p].Sublist (V ++ [p]) := by
          rw [hV2, List.append_assoc]
          exact List.Sublist.append (List.singleton_sublist.mpr hxV2)
            (List.Sublist.refl _)
        have h1 := convPos hW1lex hW1conv hsub
        have h2 := det_cyclic x hd2 p
        linarith
      · rcases List.mem_singleton.mp hxe with rfl
        rw [det_self13]
    · exact hdropinv x hxD
  intro q hq
  have hW0ne : W0 ≠ [] := by
    rw [hW0, hV2]
    simp
  obtain ⟨h0, W0t, hW0c⟩ : ∃ h0 W0t, W0 = h0 :: W0t := by
    cases W0 with
    | nil => exact absurd rfl hW0ne
    | cons x T => exact ⟨x, T, rfl⟩
  have hh0 : W0.head? = some h0 := by rw [hW0c]; rfl
  obtain ⟨l0, hl0⟩ : ∃ l0, W0.getLast? = some l0 := by
    rw [hW0, hV2, List.append_assoc]
    cases hres : (V2 ++ ([hd2] ++ dropped2)).getLast? with
    | some z => exact ⟨z, rfl⟩
    | none =>
      rw [List.getLast?_eq_none_iff] at hres
      simp at hres
  have hq_lo : ptLe h0 q := by
    have hh2 : P.head? = some h0 := by rw [← hhead]; exact hh0
    exact sorted_head_ptLe hPsorted hh2 q hq
  have hq_hi : ptLe q l0 := by
    have hl2 : P.getLast? = some l0 := by rw [← hlast]; exact hl0
    exact sorted_ptLe_getLast hPsorted hl2 q hq
  rcases exists_spanning ⟨h0, hh0, hq_lo⟩ ⟨l0, hl0, hq_hi⟩ with
    ⟨e, he, hspan1, hspan2⟩ | ⟨v, hveq, hqv⟩
  · have hmem := chainPairs_mem_left he
    have hga : 0 ≤ det hd2 p e.1 := hvert _ hmem.1
    have hgb : 0 ≤ det hd2 p e.2 := hvert _ hmem.2
    have hfq : 0 ≤ det e.1 e.2 q := hsupp _ he q hq
    have hab : ptLt e.1 e.2 = true := chainPairs_lt hlexW0 _ he
    have hpx : hd2.1 ≤ p.1 := ptLt_x_le (hplarger hd2 hhd2W0)
    have hax : e.1.1 ≤ q.1 := ptLe_x_le hspan1
    have hqx : q.1 ≤ e.2.1 := ptLe_x_le hspan2
    by_cases habx : e.1.1 < e.2.1
    · have hid := det_slabX hd2 p e.1 e.2 q
      by_contra hneg
      push_neg at hneg
      have hm1 : 0 ≤ (e.2.1 - q.1) * det hd2 p e.1 :=
        mul_nonneg (by omega) hga
      have hm2 : 0 ≤ (q.1 - e.1.1) * det hd2 p e.2 :=
        mul_nonneg (by omega) hgb
      have hm3 : 0 ≤ det e.1 e.2 q * (p.1 - hd2.1) :=
        mul_nonneg hfq (by omega)
      have hm4 : (e.2.1 - e.1.1) * det hd2 p q < 0 :=
        mul_neg_of_pos_of_neg (by omega) hneg
      linarith
    · have habe : e.1.1 = e.2.1 := by omega
      have hqxe : q.1 = e.1.1 := by omega
      have hay : e.1.2 ≤ q.2 := by
        rcases hspan1 with h | h
        · rw [← h]
        · rw [ptLt_iff] at h
          omega
      have hqy : q.2 ≤ e.2.2 := by
        rcases hspan2 with h | h
        · rw [h]
        · rw [ptLt_iff] at h
          omega
      have haby : e.1.2 < e.2.2 := by
        rw [ptLt_iff] at hab
        omega
      have hfq0 : det e.1 e.2 q = 0 := by
        have e1 : e.2.1 - e.1.1 = 0 := by omega
        have e2 : q.1 - e.1.1 = 0 := by omega
        simp only [det]
        rw [e1, e2]
        ring
      have hid := det_slabY hd2 p e.1 e.2 q
      by_contra hneg
      push_neg at hneg
      have hm1 : 0 ≤ (e.2.2 - q.2) * det hd2 p e.1 :=
        mul_nonneg (by omega) hga
      have hm2 : 0 ≤ (q.2 - e.1.2) * det hd2 p e.2 :=
        mul_nonneg (by omega) hgb
      have hm4 : (e.2.2 - e.1.2) * det hd2 p q < 0 :=
        mul_neg_of_pos_of_neg (by omega) hneg
      rw [hfq0] at hid
      linarith
  · subst hqv
    exact hvert q (by rw [hveq]; simp)

end FuzzySeg

namespace FuzzySeg

theorem lowerInv_step {P acc : List Pt} {p : Pt}
    (hPp : LexSorted (P ++ [p]))
    (hinv : LowerInv P acc) :
    LowerInv (P ++ [p]) (chainPush p acc) := by
  obtain ⟨hd, t, rfl⟩ : ∃ hd t, acc = hd :: t := by
    cases acc with
    | nil => exact absurd rfl hinv.nonempty
    | cons x T => exact ⟨x, T, rfl⟩
  have hPsorted : LexSorted P := lexSorted_prefix hPp
  have hallp : ∀ x ∈ P, ptLt x p = true := fun x hx =>
    lexSorted_append_elem hPp x hx p (by simp)
  have hplargerW0 : ∀ x ∈ (hd :: t).reverse, ptLt x p = true := fun x hx =>
    hallp x (hinv.sub.subset hx)
  obtain ⟨hd2, t2, dropped2, heq, hsplit, hdropinv, hstop⟩ :=
    chainPush_go ((hd :: t).reverse) p hinv.lex hinv.conv t hd []
      (by simp) (by simp)
  have hVgetLast : ((hd2 :: t2).reverse).getLast? = some hd2 := by
    rw [List.getLast?_reverse]
    rfl
  have hVlex : LexSorted ((hd2 :: t2).reverse) := by
    have h := hinv.lex
    rw [hsplit] at h
    exact lexSorted_prefix h
  have hVconv : ChainConvex ((hd2 :: t2).reverse) := by
    have h := hinv.conv
    rw [hsplit] at h
    exact chainConvex_prefix h
  have hVlastsee : ∀ u w, lastTwo ((hd2 :: t2).reverse) = some (u, w) →
      0 < det u w p := by
    rcases hstop with ht2 | ⟨a, t3, ht2, hdet⟩
    · subst ht2
      intro u w h
      simp [lastTwo] at h
    · subst ht2
      intro u w h
      rw [reverse_cons2, lastTwo_concat2] at h
      injection h with h1
      simp only [Prod.mk.injEq] at h1
      obtain ⟨h2, h3⟩ := h1
      subst h2
      subst h3
      exact hdet
  have hplargerV : ∀ x ∈ (hd2 :: t2).reverse, ptLt x p = true := fun x hx =>
    hplargerW0 x (by rw [hsplit]; exact List.mem_append_left _ hx)
  have hW1lex : LexSorted ((hd2 :: t2).reverse ++ [p]) :=
    lexSorted_snoc hVlex hplargerV
  have hW1conv : ChainConvex ((hd2 :: t2).reverse ++ [p]) :=
    chainConvex_snoc hVconv hVlastsee
  rw [heq]
  have hrev : (p :: hd2 :: t2).reverse = (hd2 :: t2).reverse ++ [p] := by
    simp
  constructor
  · simp
  · rw [hrev]
    exact hW1lex
  · rw [hrev]
    exact hW1conv
  · rw [hrev]
    refine List.Sublist.append ?_ (List.Sublist.refl _)
    have h1 : ((hd2 :: t2).reverse).Sublist ((hd :: t).reverse) := by
      rw [hsplit]
      exact (List.prefix_append _ dropped2).sublist
    exact h1.trans hinv.sub
  · rw [hrev]
    obtain ⟨v0, V2, hV0⟩ : ∃ v0 V2, (hd2 :: t2).reverse = v0 :: V2 := by
      cases hres : (hd2 :: t2).reverse with
      | nil =>
        exfalso
        have := congrArg List.length hres
        simp at this
      | cons x T => exact ⟨x, T, rfl⟩
    have h2 : ((hd :: t).reverse).head? = some v0 := by
      rw [hsplit, hV0]
      rfl
    have h3 : P.head? = some v0 := by
      rw [← hinv.head_eq]
      exact h2
    cases P with
    | nil => simp at h3
    | cons p0 P2 =>
      simp at h3
      rw [hV0]
      subst h3
      rfl
  · rw [hrev]
    rw [List.getLast?_concat, List.getLast?_concat]
  · rw [hrev]
    intro e he q hq
    rw [chainPairs_snoc hVgetLast] at he
    rcases List.mem_append.mp he with heV | heNew
    · rcases List.mem_append.mp hq with hqP | hqp
      · have heW0 : e ∈ chainPairs ((hd :: t).reverse) := by
          rw [hsplit]
          exact chainPairs_of_prefix heV
        exact hinv.supports e heW0 q hqP
      · rcases List.mem_singleton.mp hqp with rfl
        exact le_of_lt (chain_edges_see q hVlex hVconv hplargerV hVlastsee e heV)
    · rcases List.mem_singleton.mp heNew with rfl
      rcases List.mem_append.mp hq with hqP | hqp
      · exact new_edge_supports hsplit hVgetLast hinv.lex hdropinv hW1lex hW1conv
          hinv.supports hplargerW0 hinv.head_eq hinv.last_eq hPsorted q hqP
      · rcases List.mem_singleton.mp hqp with rfl
        rw [det_self2]

end FuzzySeg

namespace FuzzySeg

theorem lowerInv_fold (S : List Pt) : LexSorted S → S ≠ [] →
    LowerInv S (lowerChainRev S) := by
  induction S using List.reverseRecOn with
  | nil => intro _ h; exact absurd rfl h
  | append_singleton P p ih =>
    intro hlex _
    rcases eq_or_ne P [] with rfl | hPne
    · have h1 : lowerChainRev ([] ++ [p]) = [p] := rfl
      rw [h1]
      refine ⟨by simp, ?_, trivial, by simp, rfl, rfl, ?_⟩
      · simp [LexSorted]
      · intro e he
        simp [chainPairs] at he
    · have hPlex : LexSorted P := lexSorted_prefix hlex
      have hinv := ih hPlex hPne
      have hfold : lowerChainRev (P ++ [p]) = chainPush p (lowerChainRev P) := by
        simp [lowerChainRev, List.foldl_append]
      rw [hfold]
      exact lowerInv_step hlex hinv

end FuzzySeg

namespace FuzzySeg

/-! Algebraic core for hull uniqueness and seam arguments: proportionality of
signed areas along a line, sign of dot products of lexicographically ordered
parallel vectors, transitivity of the angular order of lex-positive
directions, and the collapse of three collinear points. -/

theorem det_prop_lin (o m x y : Pt) :
    dot (psub x m) (psub x m) * det o m y -
      dot (psub x m) (psub y m) * det o m x =
        det m x y * dot (psub m o) (psub x m) := by
  simp only [det, dot, psub]
  ring

theorem lex_pos_sub {a b : Pt} (h : ptLt a b = true) :
    ptLt (0, 0) (psub b a) = true := by
  rw [ptLt_iff] at h ⊢
  simp only [psub]
  omega

theorem dot_negPt_negPt (m x y : Pt) :
    dot (psub m x) (psub m y) = dot (psub x m) (psub y m) := by
  simp only [dot, psub]
  ring

theorem cross_negPt_negPt (m x y : Pt) :
    cross (psub m x) (psub m y) = cross (psub x m) (psub y m) := by
  simp only [cross, psub]
  ring

theorem cross_psub_eq_det (m x y : Pt) :
    cross (psub x m) (psub y m) = det m x y := by
  simp only [cross, det, psub]

theorem lex_pos_cases {u : Pt} (h : ptLt (0, 0) u = true) :
    0 < u.1 ∨ (u.1 = 0 ∧ 0 < u.2) := by
  rw [ptLt_iff] at h
  rcases h with h1 | ⟨h1, h2⟩
  · exact Or.inl h1
  · exact Or.inr ⟨h1.symm, h2⟩

theorem lexpos_parallel_dot_pos {u v : Pt} (hcol : cross u v = 0)
    (hu : ptLt (0, 0) u = true) (hv : ptLt (0, 0) v = true) : 0 < dot u v := by
  have hu2 := lex_pos_cases hu
  have hv2 := lex_pos_cases hv
  simp only [cross] at hcol
  simp only [dot]
  rcases hu2 with hu1 | ⟨hu1, hu2⟩
  · rcases hv2 with hv1 | ⟨hv1, hv2⟩
    · have hsum : (0 : ℤ) < u.1 * u.1 + u.2 * u.2 := by nlinarith
      have key : u.1 * (u.1 * v.1 + u.2 * v.2) =
          v.1 * (u.1 * u.1 + u.2 * u.2) + u.2 * (u.1 * v.2 - u.2 * v.1) := by
        ring
      rw [hcol] at key
      nlinarith [mul_pos hv1 hsum]
    · exfalso
      rw [hv1] at hcol
      nlinarith [mul_pos hu1 hv2]
  · rcases hv2 with hv1 | ⟨hv1, hv2⟩
    · exfalso
      rw [hu1] at hcol
      nlinarith [mul_pos hu2 hv1]
    · rw [hu1, hv1]
      nlinarith [mul_pos hu2 hv2]

theorem cross_trans {p q r : Pt} (hp : ptLt (0, 0) p = true)
    (hq : ptLt (0, 0) q = true) (hr : ptLt (0, 0) r = true)
    (h1 : cross p q < 0) (h2 : cross q r ≤ 0) : cross p r < 0 := by
  have hp2 := lex_pos_cases hp
  have hq2 := lex_pos_cases hq
  have hr2 := lex_pos_cases hr
  have hp1 : 0 ≤ p.1 := by rcases hp2 with h | ⟨h, _⟩ <;> omega
  have hq1 : 0 < q.1 := by
    rcases hq2 with h | ⟨h, hq3⟩
    · exact h
    · exfalso
      simp only [cross] at h1
      rw [h] at h1
      nlinarith [mul_nonneg hp1 (le_of_lt hq3)]
  have hr1 : 0 < r.1 := by
    rcases hr2 with h | ⟨h, hr3⟩
    · exact h
    · exfalso
      simp only [cross] at h2
      rw [h] at h2
      nlinarith [mul_pos hq1 hr3]
  have key : q.1 * cross p r = p.1 * cross q r + r.1 * cross p q := by
    simp only [cross]
    ring
  nlinarith [mul_nonpos_of_nonneg_of_nonpos hp1 h2, mul_neg_of_pos_of_neg hr1 h1]


theorem collinear_three {x m a b c : Pt} (hxm : x ≠ m)
    (ha : det x m a = 0) (hb : det x m b = 0) (hc : det x m c = 0) :
    det a b c = 0 := by
  have key1 : (m.1 - x.1) * det a b c =
      (b.1 - a.1) * (det x m c - det x m a) -
        (c.1 - a.1) * (det x m b - det x m a) := by
    simp only [det]
    ring
  have key2 : (m.2 - x.2) * det a b c =
      (b.2 - a.2) * (det x m c - det x m a) -
        (c.2 - a.2) * (det x m b - det x m a) := by
    simp only [det]
    ring
  rw [ha, hb, hc] at key1 key2
  simp at key1 key2
  rcases key1 with k1 | k1
  · rcases key2 with k2 | k2
    · exfalso
      apply hxm
      exact Prod.ext (by omega) (by omega)
    · exact k2
  · exact k1

theorem det_flip {o v l w : Pt} (hcol : det v l w = 0) (hw : ptLt w v = true)
    (hl : ptLt v l = true) (hpos : 0 < det o v l) : det o v w < 0 := by
  have hid := det_prop_lin o v l w
  rw [hcol] at hid
  simp at hid
  have hA : 0 < dot (psub l v) (psub l v) := by
    apply dot_self_pos
    intro hz
    exact ptLt_ne hl ((psub_eq_zero_iff.mp hz).symm)
  have hB : dot (psub l v) (psub w v) < 0 := by
    have hpos2 : 0 < dot (psub l v) (psub v w) := by
      apply lexpos_parallel_dot_pos
      · have h1 : cross (psub l v) (psub w v) = det v l w := cross_psub_eq_det v l w
        have h2 : cross (psub l v) (psub v w) = - cross (psub l v) (psub w v) := by
          simp only [cross, psub]
          ring
        rw [h2, h1, hcol]
        ring
      · exact lex_pos_sub hl
      · exact lex_pos_sub hw
    have h3 : dot (psub l v) (psub w v) = - dot (psub l v) (psub v w) := by
      simp only [dot, psub]
      ring
    rw [h3]
    linarith
  nlinarith

theorem det_pinch {x m y q : Pt} (hcol : det x m y = 0)
    (hside : (ptLt x m = true ∧ ptLt y m = true) ∨
      (ptLt m x = true ∧ ptLt m y = true))
    (hne : x ≠ m)
    (h1 : 0 ≤ det x m q) (h2 : 0 ≤ det m y q) : det x m q = 0 := by
  have hcol2 : det m x y = 0 := by
    have := det_swap12 x m y
    rw [hcol] at this
    linarith [this]
  have hid := det_prop_lin q m x y
  rw [hcol2] at hid
  simp at hid
  have hcyc1 : det q m y = det m y q := by
    rw [det_cyclic q m y]
  have hcyc2 : det q m x = - det x m q := by
    rw [det_cyclic q m x]
    exact det_swap12 x m q
  rw [hcyc1, hcyc2] at hid
  have hA : 0 < dot (psub x m) (psub x m) := by
    apply dot_self_pos
    intro hz
    exact hne (psub_eq_zero_iff.mp hz)
  have hS : 0 < dot (psub x m) (psub y m) := by
    rcases hside with ⟨hx, hy⟩ | ⟨hx, hy⟩
    · rw [← dot_negPt_negPt]
      apply lexpos_parallel_dot_pos
      · rw [cross_negPt_negPt, cross_psub_eq_det]
        exact hcol2
      · exact lex_pos_sub hx
      · exact lex_pos_sub hy
    · apply lexpos_parallel_dot_pos
      · rw [cross_psub_eq_det]
        exact hcol2
      · exact lex_pos_sub hx
      · exact lex_pos_sub hy
  nlinarith

end FuzzySeg

namespace FuzzySeg

/-! Transfer of the lower-chain invariant to the upper chain: the upper hull
of `S` is the lower hull of the negated reversed list, mapped back through
negation. -/

theorem negPt_negPt (p : Pt) : negPt (negPt p) = p := by
  simp [negPt]

theorem ptLt_neg (p q : Pt) : ptLt (negPt p) (negPt q) = ptLt q p := by
  rw [Bool.eq_iff_iff, ptLt_iff, ptLt_iff]
  simp only [negPt]
  omega

theorem det_negPt (o a b : Pt) : det (negPt o) (negPt a) (negPt b) = det o a b := by
  simp only [det, negPt]
  ring

theorem det_negPt_arg (u w q : Pt) :
    det (negPt u) (negPt w) q = det u w (negPt q) := by
  simp only [det, negPt]
  ring

theorem chainConvex_map_neg : ∀ {L : List Pt}, ChainConvex L →
    ChainConvex (L.map negPt)
  | [], _ => trivial
  | [_], _ => trivial
  | [_, _], _ => trivial
  | a :: b :: c :: t, h => by
    refine ⟨?_, chainConvex_map_neg (L := b :: c :: t) h.2⟩
    show 0 < det (negPt a) (negPt b) (negPt c)
    rw [det_negPt]
    exact h.1

theorem lexSorted_neg_rev {S : List Pt} (h : LexSorted S) :
    LexSorted (S.reverse.map negPt) := by
  rw [LexSorted, List.pairwise_map, List.pairwise_reverse]
  exact h.imp (fun hab => by rwa [ptLt_neg])

theorem chainPairs_map_neg (L : List Pt) :
    chainPairs (L.map negPt) = (chainPairs L).map (fun e => (negPt e.1, negPt e.2)) := by
  simp only [chainPairs]
  rw [← List.map_tail, List.zip_map]
  rfl

theorem upperFull_eq (S : List Pt) :
    upperFull S = (lowerChainRev (S.reverse.map negPt)).reverse.map negPt := rfl

theorem upperFull_ne {S : List Pt} (hlex : LexSorted S) (hne : S ≠ []) :
    upperFull S ≠ [] := by
  have inv := lowerInv_fold (S.reverse.map negPt) (lexSorted_neg_rev hlex) (by simp [hne])
  rw [upperFull_eq]
  simp only [ne_eq, List.map_eq_nil, List.reverse_eq_nil_iff]
  exact inv.nonempty

theorem upperFull_head {S : List Pt} (hlex : LexSorted S) (hne : S ≠ []) :
    (upperFull S).head? = S.getLast? := by
  have inv := lowerInv_fold (S.reverse.map negPt) (lexSorted_neg_rev hlex) (by simp [hne])
  have h1 : (upperFull S).head? =
      ((lowerChainRev (S.reverse.map negPt)).reverse.head?).map negPt := by
    rw [upperFull_eq, List.head?_map]
  rw [h1, inv.head_eq, List.head?_map, List.head?_reverse]
  cases S.getLast? with
  | none => rfl
  | some v => simp [negPt_negPt]

theorem getLast?_map_pt (f : Pt → Pt) : ∀ (l : List Pt),
    (l.map f).getLast? = l.getLast?.map f
  | [] => rfl
  | [_] => rfl
  | a :: b :: t2 => by
    rw [List.map_cons, List.map_cons, List.getLast?_cons_cons,
      List.getLast?_cons_cons, ← List.map_cons]
    exact getLast?_map_pt f (b :: t2)

theorem upperFull_last {S : List Pt} (hlex : LexSorted S) (hne : S ≠ []) :
    (upperFull S).getLast? = S.head? := by
  have inv := lowerInv_fold (S.reverse.map negPt) (lexSorted_neg_rev hlex) (by simp [hne])
  have h1 : (upperFull S).getLast? =
      ((lowerChainRev (S.reverse.map negPt)).reverse.getLast?).map negPt := by
    rw [upperFull_eq, getLast?_map_pt]
  rw [h1, inv.last_eq, getLast?_map_pt, List.getLast?_reverse]
  cases S.head? with
  | none => rfl
  | some v => simp [negPt_negPt]

theorem upperFull_conv {S : List Pt} (hlex : LexSorted S) (hne : S ≠ []) :
    ChainConvex (upperFull S) := by
  have inv := lowerInv_fold (S.reverse.map negPt) (lexSorted_neg_rev hlex) (by simp [hne])
  rw [upperFull_eq]
  exact chainConvex_map_neg inv.conv

theorem upperFull_anti_pairwise {S : List Pt} (hlex : LexSorted S) (hne : S ≠ []) :
    List.Pairwise (fun a b => ptLt b a = true) (upperFull S) := by
  have inv := lowerInv_fold (S.reverse.map negPt) (lexSorted_neg_rev hlex) (by simp [hne])
  rw [upperFull_eq, List.pairwise_map]
  exact inv.lex.imp (fun hab => by rwa [ptLt_neg])

theorem upperFull_mem {S : List Pt} (hlex : LexSorted S) (hne : S ≠ [])
    {v : Pt} (hv : v ∈ upperFull S) : v ∈ S := by
  have inv := lowerInv_fold (S.reverse.map negPt) (lexSorted_neg_rev hlex) (by simp [hne])
  rw [upperFull_eq, List.mem_map] at hv
  obtain ⟨u, hu, rfl⟩ := hv
  have hu2 : u ∈ S.reverse.map negPt := inv.sub.subset hu
  rw [List.mem_map] at hu2
  obtain ⟨w, hw, rfl⟩ := hu2
  rw [negPt_negPt]
  exact List.mem_reverse.mp hw

theorem upperFull_supports {S : List Pt} (hlex : LexSorted S) (hne : S ≠ []) :
    ∀ e ∈ chainPairs (upperFull S), ∀ q ∈ S, 0 ≤ det e.1 e.2 q := by
  have inv := lowerInv_fold (S.reverse.map negPt) (lexSorted_neg_rev hlex) (by simp [hne])
  intro e he q hq
  rw [upperFull_eq, chainPairs_map_neg, List.mem_map] at he
  obtain ⟨e2, he2, rfl⟩ := he
  show 0 ≤ det (negPt e2.1) (negPt e2.2) q
  rw [det_negPt_arg]
  have hq2 : negPt q ∈ S.reverse.map negPt :=
    List.mem_map.mpr ⟨q, List.mem_reverse.mpr hq, rfl⟩
  exact inv.supports e2 he2 (negPt q) hq2

theorem lexSorted_nodup {L : List Pt} (h : LexSorted L) : L.Nodup :=
  h.imp (fun hab => ptLt_ne hab)

theorem upperFull_nodup {S : List Pt} (hlex : LexSorted S) (hne : S ≠ []) :
    (upperFull S).Nodup :=
  (upperFull_anti_pairwise hlex hne).imp (fun hab => (ptLt_ne hab).symm)

end FuzzySeg

namespace FuzzySeg

/-! Bookkeeping for closed polygons: the cyclic edge and triple lists of the
assembled hull decompose into the edges and triples of the two open chains. -/

theorem zip_tail_append : ∀ {L : List Pt} {z m : Pt}, L.getLast? = some m →
    L.zip (L.tail ++ [z]) = chainPairs L ++ [(m, z)]
  | [], z, m, h => by simp at h
  | [a], z, m, h => by
    simp at h
    subst h
    rfl
  | a :: b :: t, z, m, h => by
    rw [List.getLast?_cons_cons] at h
    have ih := zip_tail_append (L := b :: t) (z := z) h
    show (a, b) :: (b :: t).zip (t ++ [z]) = ((a, b) :: chainPairs (b :: t)) ++ [(m, z)]
    rw [show (b :: t).zip (t ++ [z]) = (b :: t).zip ((b :: t).tail ++ [z]) from rfl, ih]
    rfl

theorem cyclicPairs_decomp {x : Pt} {xs : List Pt} {m : Pt}
    (h : (x :: xs).getLast? = some m) :
    cyclicPairs (x :: xs) = chainPairs (x :: xs) ++ [(m, x)] := by
  show (x :: xs).zip (xs ++ [x]) = _
  exact zip_tail_append h

theorem chainPairs_append_cons : ∀ (A : List Pt) (x : Pt) (B : List Pt),
    chainPairs (A ++ x :: B) = chainPairs (A ++ [x]) ++ chainPairs (x :: B)
  | [], x, B => rfl
  | [a], x, B => rfl
  | a :: a2 :: A2, x, B => by
    have ih := chainPairs_append_cons (a2 :: A2) x B
    show (a, a2) :: chainPairs ((a2 :: A2) ++ x :: B) =
      ((a, a2) :: chainPairs ((a2 :: A2) ++ [x])) ++ chainPairs (x :: B)
    rw [ih]
    rfl

theorem chainConvex_triples : ∀ {L : List Pt}, ChainConvex L →
    ∀ t ∈ chainTriples L, 0 < det t.1 t.2.1 t.2.2
  | [], _, t, ht => by simp [chainTriples] at ht
  | [_], _, t, ht => by simp [chainTriples] at ht
  | [_, _], _, t, ht => by simp [chainTriples] at ht
  | a :: b :: c :: t2, h, t, ht => by
    have hht : t = (a, b, c) ∨ t ∈ chainTriples (b :: c :: t2) := by
      simpa [chainTriples] using List.mem_cons.mp ht
    rcases hht with rfl | h2
    · exact h.1
    · exact chainConvex_triples h.2 t h2

theorem chainConvex_cons_iff {a : Pt} {L : List Pt} :
    ChainConvex (a :: L) ↔
      (∀ b c t2, L = b :: c :: t2 → 0 < det a b c) ∧ ChainConvex L := by
  cases L with
  | nil => simp [ChainConvex]
  | cons b T =>
    cases T with
    | nil => simp [ChainConvex]
    | cons c t2 =>
      constructor
      · intro h
        exact ⟨fun b2 c2 t3 he => by
          injection he with h1 h2
          injection h2 with h3 h4
          subst h1; subst h3
          exact h.1, h.2⟩
      · intro ⟨h1, h2⟩
        exact ⟨h1 b c t2 rfl, h2⟩

theorem chainConvex_glue : ∀ (A : List Pt) {x y : Pt} {B : List Pt},
    ChainConvex (A ++ [x, y]) → ChainConvex (x :: y :: B) →
    ChainConvex (A ++ x :: y :: B)
  | [], x, y, B, _, h2 => h2
  | a :: A2, x, y, B, h1, h2 => by
    have h1t : ChainConvex (A2 ++ [x, y]) := (chainConvex_cons_iff.mp h1).2
    have ih := chainConvex_glue A2 h1t h2
    rw [List.cons_append]
    rw [List.cons_append] at h1
    apply chainConvex_cons_iff.mpr
    refine ⟨?_, ih⟩
    intro b c t2 he
    have hhead := (chainConvex_cons_iff.mp h1).1
    cases A2 with
    | nil =>
      simp at he
      obtain ⟨rfl, rfl, _⟩ := he
      exact hhead x y [] rfl
    | cons a2 A3 =>
      cases A3 with
      | nil =>
        simp at he
        obtain ⟨rfl, rfl, _⟩ := he
        exact hhead a2 x [y] rfl
      | cons a3 A4 =>
        injection he with k1 k2
        injection k2 with k3 k4
        subst k1; subst k3
        exact hhead a2 a3 (A4 ++ [x, y]) rfl

end FuzzySeg

namespace FuzzySeg

theorem cyclicTriples_decomp (h0 h1 : Pt) (rest : List Pt) :
    cyclicTriples (h0 :: h1 :: rest) =
      chainTriples ((h0 :: h1 :: rest) ++ [h0, h1]) := by
  have hr1 : rotate1 (h0 :: h1 :: rest) = (h1 :: rest) ++ [h0] := rfl
  have hr2 : rotate1 ((h1 :: rest) ++ [h0]) = rest ++ [h0, h1] := by
    show (rest ++ [h0]) ++ [h1] = rest ++ [h0, h1]
    simp
  have hlen1 : ((h1 :: rest) ++ [h0]).length = (rest ++ [h0, h1]).length := by
    simp
  have hinner : ((h1 :: rest) ++ [h0, h1]).zip (rest ++ [h0, h1]) =
      ((h1 :: rest) ++ [h0]).zip (rest ++ [h0, h1]) := by
    have h2 : (h1 :: rest) ++ [h0, h1] = ((h1 :: rest) ++ [h0]) ++ [h1] := by simp
    have h3 : rest ++ [h0, h1] = (rest ++ [h0, h1]) ++ [] := by simp
    rw [h2]
    conv_lhs => rw [h3]
    rw [List.zip_append hlen1]
    simp
  have e1 : cyclicTriples (h0 :: h1 :: rest) =
      (h0 :: h1 :: rest).zip (((h1 :: rest) ++ [h0]).zip (rest ++ [h0, h1])) := by
    simp only [cyclicTriples]
    rw [hr1, hr2]
  have e2 : chainTriples ((h0 :: h1 :: rest) ++ [h0, h1]) =
      ((h0 :: h1 :: rest) ++ [h0, h1]).zip
        (((h1 :: rest) ++ [h0, h1]).zip (rest ++ [h0, h1])) := rfl
  rw [e1, e2, hinner]
  have hZlen : (h0 :: h1 :: rest).length =
      ((((h1 :: rest) ++ [h0]).zip (rest ++ [h0, h1]))).length := by
    simp [List.length_zip]
  have h5 : (((h1 :: rest) ++ [h0]).zip (rest ++ [h0, h1])) =
      (((h1 :: rest) ++ [h0]).zip (rest ++ [h0, h1])) ++ [] := by simp
  conv_rhs => rw [h5]
  rw [List.zip_append hZlen]
  simp

theorem mem_dropLast_succ : ∀ {X : List Pt} {v : Pt}, v ∈ X.dropLast →
    ∃ b, (v, b) ∈ chainPairs X
  | [], v, h => by simp at h
  | [x], v, h => by simp at h
  | x :: y :: t, v, h => by
    have h2 : v ∈ x :: (y :: t).dropLast := h
    rcases List.mem_cons.mp h2 with rfl | h3
    · exact ⟨y, by rw [chainPairs_cons_cons]; exact List.mem_cons_self _ _⟩
    · obtain ⟨b, hb⟩ := mem_dropLast_succ h3
      exact ⟨b, by rw [chainPairs_cons_cons]; exact List.mem_cons_of_mem _ hb⟩

theorem chainPairs_suffix_mem : ∀ (A : List Pt) {T : List Pt} {e : Pt × Pt},
    e ∈ chainPairs T → e ∈ chainPairs (A ++ T)
  | [], _, _, h => h
  | a :: A2, T, e, h => by
    have ih := chainPairs_suffix_mem A2 h
    show e ∈ chainPairs (a :: (A2 ++ T))
    cases hA : A2 ++ T with
    | nil =>
      rw [hA] at ih
      simp [chainPairs] at ih
    | cons b T2 =>
      rw [chainPairs_cons_cons]
      rw [hA] at ih
      exact List.mem_cons_of_mem _ ih

theorem chainConvex_suffix : ∀ (A : List Pt) {T : List Pt},
    ChainConvex (A ++ T) → ChainConvex T
  | [], _, h => h
  | _ :: A2, _, h => chainConvex_suffix A2 (chainConvex_tail h)

theorem mem_middle_decomp : ∀ {X : List Pt} {v : Pt}, v ∈ X →
    X.head? ≠ some v → X.getLast? ≠ some v →
    ∃ A a b B, X = A ++ a :: v :: b :: B := by
  intro X
  induction X with
  | nil => intro v h _ _; simp at h
  | cons x T ih =>
    intro v hv hhead hlast
    have hxv : x ≠ v := fun he => hhead (by rw [he]; rfl)
    rcases List.mem_cons.mp hv with rfl | hvT
    · exact absurd rfl hxv
    · cases T with
      | nil => simp at hvT
      | cons y T2 =>
        by_cases hyv : y = v
        · subst hyv
          cases T2 with
          | nil =>
            exfalso
            apply hlast
            simp
          | cons b B => exact ⟨[], x, b, B, rfl⟩
        · have hhead2 : (y :: T2).head? ≠ some v := by
            intro hc
            rw [List.head?_cons] at hc
            exact hyv (Option.some.inj hc)
          have hlast2 : (y :: T2).getLast? ≠ some v := by
            intro hc
            apply hlast
            rw [List.getLast?_cons_cons]
            exact hc
          obtain ⟨A, a, b, B, hX⟩ := ih hvT hhead2 hlast2
          exact ⟨x :: A, a, b, B, by rw [hX]; rfl⟩

theorem lastTwo_mem_chainPairs : ∀ {X : List Pt} {u w : Pt},
    lastTwo X = some (u, w) → (u, w) ∈ chainPairs X
  | [], u, w, h => by simp [lastTwo] at h
  | [_], u, w, h => by simp [lastTwo] at h
  | [a, b], u, w, h => by
    simp [lastTwo] at h
    obtain ⟨rfl, rfl⟩ := h
    show (a, b) ∈ chainPairs [a, b]
    simp [chainPairs]
  | a :: b :: c :: t, u, w, h => by
    have h2 : lastTwo (b :: c :: t) = some (u, w) := h
    have ih := lastTwo_mem_chainPairs h2
    rw [chainPairs_cons_cons]
    exact List.mem_cons_of_mem _ ih

theorem lastTwo_getLast : ∀ {X : List Pt} {u w : Pt},
    lastTwo X = some (u, w) → X.getLast? = some w
  | [], u, w, h => by simp [lastTwo] at h
  | [_], u, w, h => by simp [lastTwo] at h
  | [a, b], u, w, h => by
    simp [lastTwo] at h
    obtain ⟨rfl, rfl⟩ := h
    rfl
  | a :: b :: c :: t, u, w, h => by
    have h2 : lastTwo (b :: c :: t) = some (u, w) := h
    have ih := lastTwo_getLast h2
    rw [List.getLast?_cons_cons]
    exact ih

theorem lastTwo_some : ∀ {X : List Pt}, 2 ≤ X.length →
    ∃ u w, lastTwo X = some (u, w)
  | [], h => by simp at h
  | [_], h => by simp at h
  | [a, b], _ => ⟨a, b, rfl⟩
  | a :: b :: c :: t, _ => by
    obtain ⟨u, w, h⟩ := lastTwo_some (X := b :: c :: t) (by simp)
    exact ⟨u, w, h⟩

end FuzzySeg

namespace FuzzySeg

theorem chainPairs_pairwise {R : Pt → Pt → Prop} : ∀ {L : List Pt},
    List.Pairwise R L → ∀ e ∈ chainPairs L, R e.1 e.2
  | [], _, e, he => by simp [chainPairs] at he
  | [_], _, e, he => by simp [chainPairs] at he
  | a :: b :: t, h, e, he => by
    rw [chainPairs_cons_cons] at he
    rcases List.mem_cons.mp he with rfl | h2
    · exact (List.pairwise_cons.mp h).1 b (by simp)
    · exact chainPairs_pairwise (List.pairwise_cons.mp h).2 e h2

theorem lastTwo_decomp : ∀ {X : List Pt} {u w : Pt},
    lastTwo X = some (u, w) → ∃ A, X = A ++ [u, w]
  | [], u, w, h => by simp [lastTwo] at h
  | [_], u, w, h => by simp [lastTwo] at h
  | [a, b], u, w, h => by
    simp [lastTwo] at h
    obtain ⟨rfl, rfl⟩ := h
    exact ⟨[], rfl⟩
  | a :: b :: c :: t, u, w, h => by
    obtain ⟨A, hA⟩ := lastTwo_decomp (X := b :: c :: t) h
    exact ⟨a :: A, by rw [show b :: c :: t = A ++ [u, w] from hA]; rfl⟩

theorem onSeg_of_between {a b q : Pt} (hcol : det a b q = 0) (haq : ptLe a q)
    (hqb : ptLe q b) (hab : ptLt a b = true) : onSeg a b q = true := by
  simp only [onSeg, Bool.and_eq_true, decide_eq_true_eq]
  refine ⟨⟨hcol, ?_⟩, ?_⟩
  · rcases ptLt_iff.mp hab with hx | ⟨hx, hy⟩
    · have hq1 : a.1 ≤ q.1 := ptLe_x_le haq
      have key : dot (psub q a) (psub b a) * (b.1 - a.1) =
          (q.1 - a.1) * ((b.1 - a.1) ^ 2 + (b.2 - a.2) ^ 2) +
            (b.2 - a.2) * det a b q := by
        simp only [dot, psub, det]
        ring
      rw [hcol] at key
      nlinarith [sq_nonneg (b.1 - a.1), sq_nonneg (b.2 - a.2),
        mul_nonneg (by linarith : (0 : ℤ) ≤ q.1 - a.1)
          (by nlinarith [sq_nonneg (b.1 - a.1), sq_nonneg (b.2 - a.2)] :
            (0 : ℤ) ≤ (b.1 - a.1) ^ 2 + (b.2 - a.2) ^ 2)]
    · have hq1 : q.1 = a.1 := by
        simp only [det] at hcol
        rw [← hx] at hcol
        have h2 : (b.2 - a.2) * (q.1 - a.1) = 0 := by linarith [hcol]
        rcases mul_eq_zero.mp h2 with h3 | h3
        · omega
        · omega
      have hq2 : a.2 ≤ q.2 := by
        rcases haq with rfl | hlt
        · omega
        · rcases ptLt_iff.mp hlt with h4 | ⟨h4, h5⟩
          · omega
          · omega
      simp only [dot, psub]
      nlinarith [mul_nonneg (by omega : (0 : ℤ) ≤ q.2 - a.2)
        (by omega : (0 : ℤ) ≤ b.2 - a.2)]
  · rcases ptLt_iff.mp hab with hx | ⟨hx, hy⟩
    · have hq1 : q.1 ≤ b.1 := ptLe_x_le hqb
      have key : dot (psub q b) (psub a b) * (b.1 - a.1) =
          (b.1 - q.1) * ((b.1 - a.1) ^ 2 + (b.2 - a.2) ^ 2) -
            (b.2 - a.2) * det a b q := by
        simp only [dot, psub, det]
        ring
      rw [hcol] at key
      nlinarith [sq_nonneg (b.1 - a.1), sq_nonneg (b.2 - a.2),
        mul_nonneg (by linarith : (0 : ℤ) ≤ b.1 - q.1)
          (by nlinarith [sq_nonneg (b.1 - a.1), sq_nonneg (b.2 - a.2)] :
            (0 : ℤ) ≤ (b.1 - a.1) ^ 2 + (b.2 - a.2) ^ 2)]
    · have hq1 : q.1 = a.1 := by
        simp only [det] at hcol
        rw [← hx] at hcol
        have h2 : (b.2 - a.2) * (q.1 - a.1) = 0 := by linarith [hcol]
        rcases mul_eq_zero.mp h2 with h3 | h3
        · omega
        · omega
      have hq2 : q.2 ≤ b.2 := by
        rcases hqb with rfl | hlt
        · omega
        · rcases ptLt_iff.mp hlt with h4 | ⟨h4, h5⟩
          · omega
          · omega
      simp only [dot, psub]
      nlinarith [mul_nonneg (by omega : (0 : ℤ) ≤ b.2 - q.2)
        (by omega : (0 : ℤ) ≤ b.2 - a.2)]

theorem head?_mem {S : List Pt} {x : Pt} (h : S.head? = some x) : x ∈ S := by
  cases S with
  | nil => simp at h
  | cons a t =>
    simp at h
    subst h
    exact List.mem_cons_self _ _

theorem getLast?_mem {S : List Pt} {x : Pt} (h : S.getLast? = some x) : x ∈ S := by
  obtain ⟨S2, hS2⟩ := getLast?_decomp h
  rw [hS2]
  simp

theorem two_point_valid {S : List Pt} {l0 m : Pt} (hlex : LexSorted S)
    (hh : S.head? = some l0) (hl : S.getLast? = some m) (hlm : ptLt l0 m = true)
    (hcolS : ∀ q ∈ S, det l0 m q = 0) :
    melkmanIsConvexValid [l0, m] S = true := by
  have hl0S : l0 ∈ S := head?_mem hh
  have hmS : m ∈ S := getLast?_mem hl
  simp only [melkmanIsConvexValid, Bool.and_eq_true, decide_eq_true_eq,
    List.all_eq_true]
  refine ⟨⟨⟨ptLt_ne hlm, hl0S⟩, hmS⟩, ?_⟩
  intro q hq
  exact onSeg_of_between (hcolS q hq) (sorted_head_ptLe hlex hh q hq)
    (sorted_ptLe_getLast hlex hl q hq) hlm

end FuzzySeg

namespace FuzzySeg

theorem getLast?_some : ∀ {S : List Pt}, S ≠ [] → ∃ x, S.getLast? = some x
  | [], h => absurd rfl h
  | [a], _ => ⟨a, rfl⟩
  | _ :: b :: t, _ => by
    obtain ⟨x, hx⟩ := getLast?_some (S := b :: t) (by simp)
    exact ⟨x, by rw [List.getLast?_cons_cons]; exact hx⟩

theorem cyclic_edges_split {L Ms : List Pt} {l0 m : Pt}
    (hhead : L.head? = some l0) (hlast : L.getLast? = some m) :
    ∀ e ∈ cyclicPairs (L ++ Ms),
      e ∈ chainPairs L ∨ e ∈ chainPairs (m :: Ms ++ [l0]) := by
  obtain ⟨ltail, rfl⟩ : ∃ lt2, L = l0 :: lt2 := by
    cases L with
    | nil => simp at hhead
    | cons a t =>
      simp at hhead
      subst hhead
      exact ⟨t, rfl⟩
  obtain ⟨Lc, hLc⟩ := getLast?_decomp hlast
  intro e he
  cases Ms with
  | nil =>
    rw [List.append_nil] at he
    rw [cyclicPairs_decomp hlast] at he
    rcases List.mem_append.mp he with h1 | h1
    · exact Or.inl h1
    · right
      simp at h1
      subst h1
      show (m, l0) ∈ chainPairs [m, l0]
      simp [chainPairs]
  | cons m0 Ms2 =>
    obtain ⟨mz, hmz⟩ := getLast?_some (S := m0 :: Ms2) (by simp)
    have hHlast2 : ((l0 :: ltail) ++ m0 :: Ms2).getLast? = some mz := by
      rw [List.getLast?_append, hmz]
      rfl
    have hd : cyclicPairs (l0 :: (ltail ++ m0 :: Ms2)) =
        chainPairs (l0 :: (ltail ++ m0 :: Ms2)) ++ [(mz, l0)] :=
      cyclicPairs_decomp hHlast2
    rw [show (l0 :: ltail) ++ m0 :: Ms2 = l0 :: (ltail ++ m0 :: Ms2) from rfl, hd] at he
    rcases List.mem_append.mp he with h1 | h1
    · have e1 : l0 :: (ltail ++ m0 :: Ms2) = Lc ++ m :: m0 :: Ms2 := by
        rw [show l0 :: (ltail ++ m0 :: Ms2) = (l0 :: ltail) ++ (m0 :: Ms2) from rfl,
          hLc]
        simp
      rw [e1, chainPairs_append_cons] at h1
      rcases List.mem_append.mp h1 with h2 | h2
      · left
        rw [hLc]
        exact h2
      · right
        exact chainPairs_of_prefix (D := [l0]) h2
    · right
      simp at h1
      subst h1
      have hg : (m :: m0 :: Ms2).getLast? = some mz := by
        rw [List.getLast?_cons_cons]
        exact hmz
      have hs := chainPairs_snoc (p := l0) hg
      rw [show m :: (m0 :: Ms2) ++ [l0] = (m :: m0 :: Ms2) ++ [l0] from rfl, hs]
      simp

end FuzzySeg

namespace FuzzySeg

/-- The monotone-chain rebuild produces a valid Hull State for every sorted,
duplicate-free, nonempty ledger: the assembled cycle is strictly convex,
repetition-free, drawn from the ledger, and encloses every ledger point. -/
theorem rebuild_valid {S : List Pt} (hlex : LexSorted S) (hne : S ≠ []) :
    melkmanIsConvexValid (rebuildHull S) S = true := by
  obtain ⟨l0, hh⟩ : ∃ x, S.head? = some x := by
    cases S with
    | nil => exact absurd rfl hne
    | cons a t => exact ⟨a, rfl⟩
  obtain ⟨m, hm⟩ := getLast?_some hne
  by_cases hlm0 : l0 = m
  · have hS1 : S = [l0] := by
      cases S with
      | nil => exact absurd rfl hne
      | cons a t =>
        have ha : a = l0 := by simpa using hh
        cases t with
        | nil => rw [ha]
        | cons b t2 =>
          exfalso
          obtain ⟨m2, hm2⟩ := getLast?_some (S := b :: t2) (by simp)
          have hm3 : (a :: b :: t2).getLast? = some m2 := by
            rw [List.getLast?_cons_cons]
            exact hm2
          rw [hm] at hm3
          have hmem : m2 ∈ b :: t2 := getLast?_mem hm2
          have hlt : ptLt a m2 = true := lexSorted_head hlex m2 hmem
          apply ptLt_ne hlt
          rw [ha, hlm0]
          exact Option.some.inj hm3
    subst hS1
    show melkmanIsConvexValid [l0] [l0] = true
    simp [melkmanIsConvexValid]
  · have inv := lowerInv_fold S hlex hne
    have hLlex : LexSorted (lowerChain S) := inv.lex
    have hLconv : ChainConvex (lowerChain S) := inv.conv
    have hLsub : (lowerChain S).Sublist S := inv.sub
    have hLsupp : ChainSupports (lowerChain S) S := inv.supports
    have hLhead : (lowerChain S).head? = some l0 := inv.head_eq.trans hh
    have hLlast : (lowerChain S).getLast? = some m := inv.last_eq.trans hm
    have hl0S : l0 ∈ S := head?_mem hh
    have hmS : m ∈ S := getLast?_mem hm
    have hptlm : ptLt l0 m = true := by
      rcases sorted_ptLe_getLast hlex hm l0 hl0S with h | h
      · exact absurd h hlm0
      · exact h
    have hUhead : (upperFull S).head? = some m := (upperFull_head hlex hne).trans hm
    have hUlast : (upperFull S).getLast? = some l0 := (upperFull_last hlex hne).trans hh
    have hUconv := upperFull_conv hlex hne
    have hUanti := upperFull_anti_pairwise hlex hne
    have hUnodup := upperFull_nodup hlex hne
    have hUsupp := upperFull_supports hlex hne
    have hUmem : ∀ v ∈ upperFull S, v ∈ S := fun v hv => upperFull_mem hlex hne hv
    obtain ⟨u0, U1, hU1⟩ : ∃ u0 U1, upperFull S = u0 :: U1 := by
      cases hUe : upperFull S with
      | nil =>
        rw [hUe] at hUhead
        simp at hUhead
      | cons a t => exact ⟨a, t, rfl⟩
    have hu0 : m = u0 := by
      rw [hU1] at hUhead
      exact (Option.some.inj hUhead).symm
    subst hu0
    have hU1ne : U1 ≠ [] := by
      intro hx
      rw [hU1, hx] at hUlast
      simp at hUlast
      exact hlm0 hUlast.symm
    have hU1last : U1.getLast? = some l0 := by
      rw [hU1] at hUlast
      cases U1 with
      | nil => exact absurd rfl hU1ne
      | cons b t => rwa [List.getLast?_cons_cons] at hUlast
    obtain ⟨Ms, hMs⟩ := getLast?_decomp hU1last
    have hU : upperFull S = m :: (Ms ++ [l0]) := by rw [hU1, hMs]
    have hHdef : rebuildHull S = lowerChain S ++ Ms := by
      show lowerChain S ++ ((upperFull S).drop 1).dropLast = lowerChain S ++ Ms
      rw [hU]
      simp
    obtain ⟨l1, Lr1, hLr⟩ : ∃ l1 Lr1, lowerChain S = l0 :: l1 :: Lr1 := by
      cases hLe : lowerChain S with
      | nil =>
        rw [hLe] at hLhead
        simp at hLhead
      | cons a t =>
        rw [hLe] at hLhead hLlast
        simp at hLhead
        subst hLhead
        cases t with
        | nil =>
          simp at hLlast
          exact absurd hLlast hlm0
        | cons b t2 => exact ⟨b, t2, rfl⟩
    obtain ⟨x, m2, hxm⟩ := lastTwo_some (X := lowerChain S) (by rw [hLr]; simp)
    have hm2 : m = m2 := by
      have h1 := lastTwo_getLast hxm
      rw [hLlast] at h1
      exact Option.some.inj h1
    subst hm2
    obtain ⟨u1, Ur, hu1⟩ : ∃ u1 Ur, Ms ++ [l0] = u1 :: Ur := by
      cases hx : Ms ++ [l0] with
      | nil => simp at hx
      | cons a t => exact ⟨a, t, rfl⟩
    obtain ⟨uP, l0v, huP⟩ := lastTwo_some (X := upperFull S) (by rw [hU]; simp)
    have hl0v : l0 = l0v := by
      have h1 := lastTwo_getLast huP
      rw [hUlast] at h1
      exact Option.some.inj h1
    subst hl0v
    have hedges : ∀ e ∈ cyclicPairs (lowerChain S ++ Ms),
        e ∈ chainPairs (lowerChain S) ∨ e ∈ chainPairs (upperFull S) := by
      intro e he
      rcases cyclic_edges_split hLhead hLlast e he with h | h
      · exact Or.inl h
      · right
        rw [hU]
        exact h
    have hsupp : ∀ e ∈ cyclicPairs (lowerChain S ++ Ms), ∀ q ∈ S,
        0 ≤ det e.1 e.2 q := by
      intro e he q hq
      rcases hedges e he with h | h
      · exact hLsupp e h q hq
      · exact hUsupp e h q hq
    by_cases hdeg : Ms = [] ∧ Lr1 = []
    · obtain ⟨hMse, hLre⟩ := hdeg
      have hLr2 : lowerChain S = [l0, m] := by
        have h1 : (lowerChain S).getLast? = some l1 := by
          rw [hLr, hLre]
          rfl
        rw [hLlast] at h1
        rw [hLr, hLre, Option.some.inj h1]
      have hcolS : ∀ q ∈ S, det l0 m q = 0 := by
        intro q hq
        have he1 : (l0, m) ∈ chainPairs (lowerChain S) := by
          rw [hLr2]
          simp [chainPairs]
        have he2 : (m, l0) ∈ chainPairs (upperFull S) := by
          rw [hU, hMse]
          show (m, l0) ∈ chainPairs [m, l0]
          simp [chainPairs]
        have h1 : 0 ≤ det l0 m q := hLsupp _ he1 q hq
        have h2 : 0 ≤ det m l0 q := hUsupp _ he2 q hq
        have h3 := det_swap12 l0 m q
        linarith
      rw [hHdef, hMse, List.append_nil, hLr2]
      exact two_point_valid hlex hh hm hptlm hcolS
    · have hLrMs : Lr1 ++ Ms ≠ [] := by
        intro hx
        rcases List.append_eq_nil.mp hx with ⟨h1, h2⟩
        exact hdeg ⟨h2, h1⟩
      obtain ⟨c3, rest3, hc3⟩ : ∃ c3 rest3, Lr1 ++ Ms = c3 :: rest3 := by
        cases hx : Lr1 ++ Ms with
        | nil => exact absurd hx hLrMs
        | cons a t => exact ⟨a, t, rfl⟩
      have hHform : lowerChain S ++ Ms = l0 :: l1 :: (Lr1 ++ Ms) := by
        rw [hLr]
        rfl
      have hstrict : ∃ a b c2, a ∈ S ∧ b ∈ S ∧ c2 ∈ S ∧ 0 < det a b c2 := by
        rcases (show Lr1 ≠ [] ∨ Ms ≠ [] by tauto) with hL3 | hMne
        · obtain ⟨c2, Lr2, hLr2⟩ : ∃ c2 Lr2, Lr1 = c2 :: Lr2 := by
            cases Lr1 with
            | nil => exact absurd rfl hL3
            | cons a t => exact ⟨a, t, rfl⟩
          have hc : ChainConvex (l0 :: l1 :: c2 :: Lr2) := by
            rw [← hLr2, ← hLr]
            exact hLconv
          refine ⟨l0, l1, c2, ?_, ?_, ?_, hc.1⟩
          · exact hLsub.subset (by rw [hLr]; simp)
          · exact hLsub.subset (by rw [hLr]; simp)
          · exact hLsub.subset (by rw [hLr, hLr2]; simp)
        · obtain ⟨m0, Ms2, hMs2⟩ : ∃ m0 Ms2, Ms = m0 :: Ms2 := by
            cases Ms with
            | nil => exact absurd rfl hMne
            | cons a t => exact ⟨a, t, rfl⟩
          obtain ⟨w, Wr, hw⟩ : ∃ w Wr, Ms2 ++ [l0] = w :: Wr := by
            cases hx : Ms2 ++ [l0] with
            | nil => simp at hx
            | cons a t => exact ⟨a, t, rfl⟩
          have hc : ChainConvex (m :: m0 :: w :: Wr) := by
            rw [← hw]
            rw [show m :: m0 :: (Ms2 ++ [l0]) = m :: ((m0 :: Ms2) ++ [l0]) from rfl,
              ← hMs2, ← hU]
            exact hUconv
          refine ⟨m, m0, w, hmS, ?_, ?_, hc.1⟩
          · apply hUmem
            rw [hU, hMs2]
            simp
          · apply hUmem
            rw [hU, hMs2]
            have hwmem : w ∈ Ms2 ++ [l0] := by
              rw [hw]
              exact List.mem_cons_self _ _
            simp only [List.mem_cons, List.mem_append] at hwmem ⊢
            tauto
      have hxmL : (x, m) ∈ chainPairs (lowerChain S) := lastTwo_mem_chainPairs hxm
      have hmu1U : (m, u1) ∈ chainPairs (upperFull S) := by
        rw [hU, hu1, chainPairs_cons_cons]
        exact List.mem_cons_self _ _
      have hu1S : u1 ∈ S := hUmem u1 (chainPairs_mem_left hmu1U).2
      have hxm_lt : ptLt x m = true := chainPairs_lt hLlex _ hxmL
      have hu1m : ptLt u1 m = true := chainPairs_pairwise hUanti _ hmu1U
      have hseam1 : 0 < det x m u1 := by
        have hge : 0 ≤ det x m u1 := hLsupp _ hxmL u1 hu1S
        rcases lt_or_eq_of_le hge with hgt | heq
        · exact hgt
        exfalso
        have hline : ∀ q ∈ S, det x m q = 0 := by
          intro q hq
          exact det_pinch heq.symm (Or.inl ⟨hxm_lt, hu1m⟩) (ptLt_ne hxm_lt)
            (hLsupp _ hxmL q hq) (hUsupp _ hmu1U q hq)
        obtain ⟨a, b, c2, haS, hbS, hcS, habc⟩ := hstrict
        have h0 := collinear_three (ptLt_ne hxm_lt) (hline a haS) (hline b hbS)
          (hline c2 hcS)
        linarith
      have huPU : (uP, l0) ∈ chainPairs (upperFull S) := lastTwo_mem_chainPairs huP
      have hl0l1L : (l0, l1) ∈ chainPairs (lowerChain S) := by
        rw [hLr, chainPairs_cons_cons]
        exact List.mem_cons_self _ _
      have hl1S : l1 ∈ S := hLsub.subset (by rw [hLr]; simp)
      have hl0uP : ptLt l0 uP = true := chainPairs_pairwise hUanti _ huPU
      have hl0l1 : ptLt l0 l1 = true := chainPairs_lt hLlex _ hl0l1L
      have hseam2 : 0 < det uP l0 l1 := by
        have hge : 0 ≤ det uP l0 l1 := hUsupp _ huPU l1 hl1S
        rcases lt_or_eq_of_le hge with hgt | heq
        · exact hgt
        exfalso
        have hline : ∀ q ∈ S, det uP l0 q = 0 := by
          intro q hq
          exact det_pinch heq.symm (Or.inr ⟨hl0uP, hl0l1⟩)
            (fun he => ptLt_ne hl0uP he.symm)
            (hUsupp _ huPU q hq) (hLsupp _ hl0l1L q hq)
        obtain ⟨a, b, c2, haS, hbS, hcS, habc⟩ := hstrict
        have h0 := collinear_three (fun he => ptLt_ne hl0uP he.symm)
          (hline a haS) (hline b hbS) (hline c2 hcS)
        linarith
      obtain ⟨Lc2, hLc2⟩ := lastTwo_decomp hxm
      have hWconv : ChainConvex ((lowerChain S ++ Ms) ++ [l0, l1]) := by
        have h1 : (lowerChain S ++ Ms) ++ [l0, l1] =
            Lc2 ++ x :: m :: (Ms ++ [l0, l1]) := by
          rw [hLc2]
          simp
        rw [h1]
        apply chainConvex_glue
        · rw [← hLc2]
          exact hLconv
        · apply chainConvex_cons_iff.mpr
          constructor
          · intro b c t2 he
            injection he with k1 k2
            subst k1
            have h2 : Ms ++ [l0, l1] = u1 :: (Ur ++ [l1]) := by
              rw [show Ms ++ [l0, l1] = (Ms ++ [l0]) ++ [l1] by simp, hu1]
              rfl
            rw [h2] at k2
            injection k2 with k3 k4
            subst k3
            exact hseam1
          · have h3 : m :: (Ms ++ [l0, l1]) = (upperFull S) ++ [l1] := by
              rw [hU]
              simp
            rw [h3]
            apply chainConvex_snoc hUconv
            intro u w hlt
            rw [huP] at hlt
            injection hlt with k1
            simp only [Prod.mk.injEq] at k1
            obtain ⟨k2, k3⟩ := k1
            subst k2
            subst k3
            exact hseam2
      have hscc : strictlyConvexCyclic (lowerChain S ++ Ms) = true := by
        rw [hHform]
        simp only [strictlyConvexCyclic]
        rw [cyclicTriples_decomp, List.all_eq_true]
        intro t ht
        have hconvW : ChainConvex ((l0 :: l1 :: (Lr1 ++ Ms)) ++ [l0, l1]) := by
          rw [← hHform]
          exact hWconv
        have h0 := chainConvex_triples hconvW t ht
        simpa using h0
      have hMsSubU : Ms.Sublist (upperFull S) := by
        rw [hU]
        exact (List.sublist_append_left Ms [l0]).cons m
      have hMsNodup : Ms.Nodup := hMsSubU.nodup hUnodup
      have hUnodup2 : (m :: (Ms ++ [l0])).Nodup := by
        rw [← hU]
        exact hUnodup
      have hmNotMs : m ∉ Ms := by
        have h0 := (List.nodup_cons.mp hUnodup2).1
        intro hx
        exact h0 (List.mem_append_left _ hx)
      have hl0NotMs : l0 ∉ Ms := by
        have h2 := (List.nodup_cons.mp hUnodup2).2
        intro hx
        rcases List.nodup_append.mp h2 with ⟨_, _, hdisj⟩
        exact hdisj hx (by simp)
      have hdisjLM : List.Disjoint (lowerChain S) Ms := by
        intro v hvL hvMs
        have hvm : v ≠ m := fun he => hmNotMs (he ▸ hvMs)
        have hvl0 : v ≠ l0 := fun he => hl0NotMs (he ▸ hvMs)
        obtain ⟨A, a, b, B, hLdec⟩ := mem_middle_decomp hvL
          (by rw [hLhead]; intro hc; exact hvl0 (Option.some.inj hc).symm)
          (by rw [hLlast]; intro hc; exact hvm (Option.some.inj hc).symm)
        have hav : (a, v) ∈ chainPairs (lowerChain S) := by
          rw [hLdec]
          exact chainPairs_suffix_mem A (by
            rw [chainPairs_cons_cons]
            exact List.mem_cons_self _ _)
        have hvb : (v, b) ∈ chainPairs (lowerChain S) := by
          rw [hLdec]
          apply chainPairs_suffix_mem A
          rw [chainPairs_cons_cons]
          apply List.mem_cons_of_mem
          rw [chainPairs_cons_cons]
          exact List.mem_cons_self _ _
        have havb : 0 < det a v b := by
          have hsuf : ChainConvex (a :: v :: b :: B) := by
            apply chainConvex_suffix A
            rw [← hLdec]
            exact hLconv
          exact hsuf.1
        have hvdl : v ∈ (upperFull S).dropLast := by
          rw [hU, show m :: (Ms ++ [l0]) = (m :: Ms) ++ [l0] from rfl,
            List.dropLast_concat]
          exact List.mem_cons_of_mem _ hvMs
        obtain ⟨b2, hb2⟩ := mem_dropLast_succ hvdl
        have hb2v : ptLt b2 v = true := chainPairs_pairwise hUanti _ hb2
        have hb2S : b2 ∈ S := hUmem _ (chainPairs_mem_left hb2).2
        have hvb_lt : ptLt v b = true := chainPairs_lt hLlex _ hvb
        have hbS : b ∈ S := hLsub.subset (chainPairs_mem_left hvb).2
        have hcol : det v b b2 = 0 := by
          have h1 : 0 ≤ det v b b2 := hLsupp _ hvb b2 hb2S
          have h2 : 0 ≤ det v b2 b := hUsupp _ hb2 b hbS
          have h3 := det_swap23 v b b2
          linarith
        have hflip := det_flip hcol hb2v hvb_lt havb
        have hsup : 0 ≤ det a v b2 := hLsupp _ hav b2 hb2S
        linarith
      have hnodupH : (lowerChain S ++ Ms).Nodup :=
        (lexSorted_nodup hLlex).append hMsNodup hdisjLM
      have hmemH : ∀ v ∈ lowerChain S ++ Ms, v ∈ S := by
        intro v hv
        rcases List.mem_append.mp hv with h | h
        · exact hLsub.subset h
        · apply hUmem
          rw [hU]
          exact List.mem_cons_of_mem _ (List.mem_append_left _ h)
      rw [hHdef, hHform, hc3]
      have hback : l0 :: l1 :: c3 :: rest3 = lowerChain S ++ Ms := by
        rw [hHform, hc3]
      simp only [melkmanIsConvexValid, Bool.and_eq_true, decide_eq_true_eq,
        List.all_eq_true]
      refine ⟨⟨⟨?_, ?_⟩, ?_⟩, ?_⟩
      · rw [hback]
        exact hnodupH
      · rw [hback]
        exact hscc
      · intro v hv
        rw [hback] at hv
        exact hmemH v hv
      · intro q hq
        show (cyclicPairs (l0 :: l1 :: c3 :: rest3)).all
          (fun e => decide (0 ≤ det e.1 e.2 q)) = true
        rw [List.all_eq_true]
        intro e he
        rw [hback] at he
        simp only [decide_eq_true_eq]
        exact hsupp e he q hq

end FuzzySeg

namespace FuzzySeg

theorem ptLt_irrefl (a : Pt) : ptLt a a = false := by
  simp [ptLt]

theorem ptLe_trans {a b c : Pt} (h1 : ptLe a b) (h2 : ptLe b c) : ptLe a c := by
  rcases h1 with rfl | h1
  · exact h2
  · rcases h2 with rfl | h2
    · exact Or.inr h1
    · exact Or.inr (ptLt_trans h1 h2)

theorem ptLe_of_lt {a b : Pt} (h : ptLt a b = true) : ptLe a b := Or.inr h

theorem ptLe_iff_sub {a q : Pt} :
    ptLe a q ↔ (psub q a = ((0 : Int), (0 : Int)) ∨ ptLt (0, 0) (psub q a) = true) := by
  constructor
  · intro h
    rcases h with rfl | h
    · exact Or.inl (psub_eq_zero_iff.mpr rfl)
    · exact Or.inr (lex_pos_sub h)
  · intro h
    rcases h with h | h
    · exact Or.inl (psub_eq_zero_iff.mp h).symm
    · right
      rw [ptLt_iff] at h ⊢
      simp only [psub] at h
      omega

theorem onSeg_left (a b : Pt) : onSeg a b a = true := by
  simp only [onSeg, Bool.and_eq_true, decide_eq_true_eq]
  refine ⟨⟨det_self13 a b, ?_⟩, ?_⟩
  · simp [dot, psub]
  · exact dot_self_nonneg _

theorem onSeg_right (a b : Pt) : onSeg a b b = true := by
  simp only [onSeg, Bool.and_eq_true, decide_eq_true_eq]
  refine ⟨⟨det_self2 a b, ?_⟩, ?_⟩
  · exact dot_self_nonneg _
  · simp [dot, psub]

theorem onSeg_comm (a b q : Pt) : onSeg a b q = onSeg b a q := by
  rw [Bool.eq_iff_iff]
  simp only [onSeg, Bool.and_eq_true, decide_eq_true_eq]
  constructor
  · intro ⟨⟨h1, h2⟩, h3⟩
    have h4 := det_swap12 a b q
    exact ⟨⟨by linarith, h3⟩, h2⟩
  · intro ⟨⟨h1, h2⟩, h3⟩
    have h4 := det_swap12 b a q
    exact ⟨⟨by linarith, h3⟩, h2⟩

theorem lex_nonneg_of_ray {d z : Pt} (hd : ptLt (0, 0) d = true)
    (hcol : cross d z = 0) (hdot : 0 ≤ dot z d) :
    z = ((0 : Int), (0 : Int)) ∨ ptLt (0, 0) z = true := by
  have hd2 := lex_pos_cases hd
  simp only [cross] at hcol
  simp only [dot] at hdot
  rcases hd2 with hd1 | ⟨hd1, hd3⟩
  · have hz1 : 0 ≤ z.1 := by
      have key : (z.1 * d.1 + z.2 * d.2) * d.1 =
          z.1 * (d.1 * d.1 + d.2 * d.2) + d.2 * (d.1 * z.2 - d.2 * z.1) := by
        ring
      rw [hcol] at key
      nlinarith [mul_nonneg hdot (le_of_lt hd1)]
    rcases lt_or_eq_of_le hz1 with hz2 | hz2
    · right
      rw [ptLt_iff]
      exact Or.inl hz2
    · have hz3 : z.2 = 0 := by
        have h5 : d.1 * z.2 = d.2 * z.1 := by linarith
        rw [← hz2] at h5
        simp at h5
        rcases h5 with h6 | h6
        · omega
        · omega
      left
      exact Prod.ext (by omega) hz3
  · have hz1 : z.1 = 0 := by
      rw [hd1] at hcol
      simp at hcol
      rcases hcol with h6 | h6
      · omega
      · omega
    have hz2 : 0 ≤ z.2 := by
      rw [hd1, hz1] at hdot
      simp at hdot
      nlinarith
    rcases lt_or_eq_of_le hz2 with hz3 | hz3
    · right
      rw [ptLt_iff]
      exact Or.inr ⟨by omega, hz3⟩
    · left
      exact Prod.ext (by omega) (by omega)

theorem onSeg_lex_between_of_lt {a b q : Pt} (hseg : onSeg a b q = true)
    (hab : ptLt a b = true) : ptLe a q ∧ ptLe q b := by
  simp only [onSeg, Bool.and_eq_true, decide_eq_true_eq] at hseg
  obtain ⟨⟨hcol, hd1⟩, hd2⟩ := hseg
  constructor
  · rw [ptLe_iff_sub]
    apply lex_nonneg_of_ray (lex_pos_sub hab)
    · have h1 : cross (psub b a) (psub q a) = det a b q := cross_psub_eq_det a b q
      rw [h1, hcol]
    · have h2 : dot (psub q a) (psub b a) = dot (psub q a) (psub b a) := rfl
      rw [show dot (psub q a) (psub b a) = dot (psub q a) (psub b a) from rfl] at hd1
      have h3 : dot (psub q a) (psub b a) = dot (psub q a) (psub b a) := rfl
      simp only [dot, psub] at hd1 ⊢
      linarith
  · rw [ptLe_iff_sub]
    apply lex_nonneg_of_ray (lex_pos_sub hab)
    · simp only [cross, psub, det] at hcol ⊢
      nlinarith [hcol]
    · simp only [dot, psub] at hd2 ⊢
      linarith

theorem onSeg_lex_between {a b q : Pt} (hseg : onSeg a b q = true)
    (hab : a ≠ b) :
    (ptLe a q ∧ ptLe q b) ∨ (ptLe b q ∧ ptLe q a) := by
  rcases ptLt_or_ge a b with h | h
  · exact Or.inl (onSeg_lex_between_of_lt hseg h)
  · rcases h with rfl | h
    · exact absurd rfl hab
    · right
      rw [onSeg_comm] at hseg
      exact onSeg_lex_between_of_lt hseg h

end FuzzySeg

namespace FuzzySeg

theorem onSeg_degenerate (a q : Pt) : onSeg a a q = true := by
  simp only [onSeg, Bool.and_eq_true, decide_eq_true_eq]
  refine ⟨⟨det_self12 a q, ?_⟩, ?_⟩ <;> simp [dot, psub]

theorem ptLt_of_le_ne {a b : Pt} (h1 : ptLe a b) (h2 : a ≠ b) : ptLt a b = true := by
  rcases h1 with rfl | h1
  · exact absurd rfl h2
  · exact h1

theorem tri_valid {pts2 : List Pt} {a b p : Pt} (hd : 0 < det a b p)
    (hab : a ≠ b) (hap : a ∈ pts2) (hbp : b ∈ pts2) (hpp : p ∈ pts2)
    (hall : ∀ q ∈ pts2, q = p ∨ onSeg a b q = true) :
    melkmanIsConvexValid [p, a, b] pts2 = true := by
  have hpa : p ≠ a := by
    intro he
    rw [he, det_self13] at hd
    exact absurd hd (lt_irrefl 0)
  have hpb : p ≠ b := by
    intro he
    rw [he, det_self2] at hd
    exact absurd hd (lt_irrefl 0)
  have habpos : 0 < dot (psub b a) (psub b a) :=
    dot_self_pos (fun hz => hab (psub_eq_zero_iff.mp hz).symm)
  have habpos2 : 0 < dot (psub a b) (psub a b) :=
    dot_self_pos (fun hz => hab (psub_eq_zero_iff.mp hz))
  simp only [melkmanIsConvexValid, Bool.and_eq_true, decide_eq_true_eq,
    List.all_eq_true]
  refine ⟨⟨⟨?_, ?_⟩, ?_⟩, ?_⟩
  · simp [hpa, hpb, hab]
  · show ([(p, (a, b)), (a, (b, p)), (b, (p, a))].all
      fun t => decide (0 < det t.1 t.2.1 t.2.2)) = true
    simp only [List.all_cons, List.all_nil, Bool.and_eq_true, decide_eq_true_eq,
      Bool.and_true]
    have e1 : det p a b = det a b p := det_cyclic p a b
    have e2 : det b p a = det p a b := det_cyclic b p a
    refine ⟨by linarith, hd, by linarith⟩
  · intro v hv
    simp at hv
    rcases hv with rfl | rfl | rfl
    · exact hpp
    · exact hap
    · exact hbp
  · intro q hq
    show ([(p, a), (a, b), (b, p)].all fun e => decide (0 ≤ det e.1 e.2 q)) = true
    simp only [List.all_cons, List.all_nil, Bool.and_eq_true, decide_eq_true_eq,
      Bool.and_true]
    rcases hall q hq with rfl | hseg
    · refine ⟨?_, le_of_lt hd, ?_⟩
      · rw [det_self13]
      · rw [det_self2]
    · simp only [onSeg, Bool.and_eq_true, decide_eq_true_eq] at hseg
      obtain ⟨⟨hcol, hdq1⟩, hdq2⟩ := hseg
      have h1 : 0 ≤ det p a q := by
        have key := det_tri_edge a b p q
        rw [hcol] at key
        simp at key
        nlinarith [mul_nonneg hdq1 (le_of_lt hd)]
      have h2 : 0 ≤ det b p q := by
        have key := det_tri_edge b a p q
        have hba : det b a q = 0 := by
          have h3 := det_swap12 a b q
          rw [hcol] at h3
          linarith
        rw [hba] at key
        simp at key
        have hbap : det b a p = -det a b p := det_swap12 a b p
        have h4 : det b p q = -det p b q := det_swap12 p b q
        nlinarith [mul_nonneg hdq2 (le_of_lt hd)]
      exact ⟨h1, le_of_eq hcol.symm, h2⟩

end FuzzySeg

namespace FuzzySeg

theorem seg_valid_mid {pts2 : List Pt} {a b p : Pt}
    (hcol : det a b p = 0) (hab : a ≠ b)
    (hnot : ¬ onSeg a b p = true) (honb : onSeg a p b = true)
    (hap2 : a ∈ pts2) (hpp : p ∈ pts2)
    (hall : ∀ q ∈ pts2, q = p ∨ onSeg a b q = true) :
    melkmanIsConvexValid [p, a] pts2 = true := by
  have hpa : p ≠ a := by
    intro he
    rw [he] at hnot
    exact hnot (onSeg_left a b)
  simp only [melkmanIsConvexValid, Bool.and_eq_true, decide_eq_true_eq,
    List.all_eq_true]
  refine ⟨⟨⟨hpa, hpp⟩, hap2⟩, ?_⟩
  intro q hq
  rcases hall q hq with hqp | hseg
  · rw [hqp]
    exact onSeg_left p a
  · have hdq : det a b q = 0 := by
      have h := hseg
      simp only [onSeg, Bool.and_eq_true, decide_eq_true_eq] at h
      exact h.1.1
    have hapq : det a p q = 0 := collinear_three hab (det_self13 a b) hcol hdq
    have hapb : det a p b = 0 := by
      have h3 := det_swap23 a b p
      rw [hcol] at h3
      linarith
    rcases ptLt_or_ge a p with hap_lt | hpa_le
    · obtain ⟨hab_le, hbp_le⟩ := onSeg_lex_between_of_lt honb hap_lt
      have hab_lt : ptLt a b = true := ptLt_of_le_ne hab_le hab
      obtain ⟨haq, hqb⟩ := onSeg_lex_between_of_lt hseg hab_lt
      have hqp : ptLe q p := ptLe_trans hqb hbp_le
      have h5 : onSeg a p q = true := onSeg_of_between hapq haq hqp hap_lt
      rwa [onSeg_comm] at h5
    · rcases hpa_le with rfl | hpa_lt
      · exact absurd rfl hpa
      · have honb2 : onSeg p a b = true := by
          have h := honb
          rwa [onSeg_comm] at h
        obtain ⟨hpb_le, hba_le⟩ := onSeg_lex_between_of_lt honb2 hpa_lt
        have hba_lt : ptLt b a = true := ptLt_of_le_ne hba_le (Ne.symm hab)
        have hseg2 : onSeg b a q = true := by
          have h := hseg
          rwa [onSeg_comm] at h
        obtain ⟨hbq, hqa⟩ := onSeg_lex_between_of_lt hseg2 hba_lt
        have hpq : ptLe p q := ptLe_trans hpb_le hbq
        have hpaq : det p a q = 0 := by
          have h3 := det_swap12 a p q
          rw [hapq] at h3
          linarith
        exact onSeg_of_between hpaq hpq hqa hpa_lt

theorem seg_valid_far {pts2 : List Pt} {a b p : Pt}
    (hcol : det a b p = 0) (hab : a ≠ b)
    (hnot : ¬ onSeg a b p = true) (honb : ¬ onSeg a p b = true)
    (hbp2 : b ∈ pts2) (hpp : p ∈ pts2)
    (hall : ∀ q ∈ pts2, q = p ∨ onSeg a b q = true) :
    melkmanIsConvexValid [p, b] pts2 = true := by
  have hpb : p ≠ b := by
    intro he
    rw [he] at hnot
    exact hnot (onSeg_right a b)
  have hpa : p ≠ a := by
    intro he
    rw [he] at honb
    exact honb (onSeg_degenerate a b)
  have hapb : det a p b = 0 := by
    have h3 := det_swap23 a b p
    rw [hcol] at h3
    linarith
  have horient : (ptLt p a = true ∧ ptLt a b = true) ∨
      (ptLt a p = true ∧ ptLt b a = true) := by
    rcases ptLt_or_ge a b with hab_lt | hba_le
    · left
      refine ⟨?_, hab_lt⟩
      rcases ptLt_or_ge p a with hpa_lt | hap_le
      · exact hpa_lt
      · exfalso
        have hap_lt : ptLt a p = true := ptLt_of_le_ne hap_le (Ne.symm hpa)
        rcases ptLt_or_ge p b with hpb_lt | hbp_le
        · exact hnot (onSeg_of_between hcol (ptLe_of_lt hap_lt)
            (ptLe_of_lt hpb_lt) hab_lt)
        · exact honb (onSeg_of_between hapb (ptLe_of_lt hab_lt) hbp_le hap_lt)
    · right
      have hba_lt : ptLt b a = true :=
        ptLt_of_le_ne hba_le (Ne.symm hab)
      refine ⟨?_, hba_lt⟩
      rcases ptLt_or_ge a p with hap_lt | hpa_le
      · exact hap_lt
      · exfalso
        have hpa_lt : ptLt p a = true := ptLt_of_le_ne hpa_le hpa
        rcases ptLt_or_ge b p with hbp_lt | hpb_le
        · apply hnot
          rw [onSeg_comm]
          refine onSeg_of_between ?_ (ptLe_of_lt hbp_lt) (ptLe_of_lt hpa_lt) hba_lt
          have h4 := det_swap12 a b p
          rw [hcol] at h4
          linarith
        · apply honb
          rw [onSeg_comm]
          refine onSeg_of_between ?_ hpb_le (ptLe_of_lt hba_lt) hpa_lt
          have h4 := det_swap12 a p b
          rw [hapb] at h4
          linarith
  simp only [melkmanIsConvexValid, Bool.and_eq_true, decide_eq_true_eq,
    List.all_eq_true]
  refine ⟨⟨⟨hpb, hpp⟩, hbp2⟩, ?_⟩
  intro q hq
  rcases hall q hq with hqp | hseg
  · rw [hqp]
    exact onSeg_left p b
  · have hdq : det a b q = 0 := by
      have h := hseg
      simp only [onSeg, Bool.and_eq_true, decide_eq_true_eq] at h
      exact h.1.1
    rcases horient with ⟨hpa_lt, hab_lt⟩ | ⟨hap_lt, hba_lt⟩
    · obtain ⟨haq, hqb⟩ := onSeg_lex_between_of_lt hseg hab_lt
      have hpq : ptLe p q := ptLe_trans (ptLe_of_lt hpa_lt) haq
      have hpb_lt : ptLt p b = true := ptLt_trans hpa_lt hab_lt
      have hpbq : det p b q = 0 := collinear_three hab hcol (det_self2 a b) hdq
      exact onSeg_of_between hpbq hpq hqb hpb_lt
    · have hseg2 : onSeg b a q = true := by
        have h := hseg
        rwa [onSeg_comm] at h
      obtain ⟨hbq, hqa⟩ := onSeg_lex_between_of_lt hseg2 hba_lt
      have hqp : ptLe q p := ptLe_trans hqa (ptLe_of_lt hap_lt)
      have hbp_lt : ptLt b p = true := ptLt_trans hba_lt hap_lt
      have hbpq : det b p q = 0 := collinear_three hab (det_self2 a b) hcol hdq
      have h6 : onSeg b p q = true := onSeg_of_between hbpq hbq hqp hbp_lt
      rwa [onSeg_comm] at h6

end FuzzySeg

namespace FuzzySeg

theorem valid_grow {pts H : List Pt} {p : Pt}
    (hval : melkmanIsConvexValid H pts = true) (hin : insideOrOn H p = true) :
    melkmanIsConvexValid H (setInsert p pts) = true := by
  match H with
  | [] => simp [melkmanIsConvexValid] at hval
  | [v] =>
    simp only [melkmanIsConvexValid, decide_eq_true_eq] at hval ⊢
    simp only [insideOrOn, decide_eq_true_eq] at hin
    rw [hval, hin]
    simp [setInsert, ptLt_irrefl]
  | [a, b] =>
    simp only [melkmanIsConvexValid, Bool.and_eq_true, decide_eq_true_eq,
      List.all_eq_true] at hval ⊢
    obtain ⟨⟨⟨hab, haP⟩, hbP⟩, hall⟩ := hval
    have hin2 : onSeg a b p = true := hin
    refine ⟨⟨⟨hab, mem_setInsert.mpr (Or.inr haP)⟩,
      mem_setInsert.mpr (Or.inr hbP)⟩, ?_⟩
    intro q hq
    rcases mem_setInsert.mp hq with hq2 | hq2
    · rw [hq2]
      exact hin2
    · exact hall q hq2
  | a :: b :: c :: t =>
    simp only [melkmanIsConvexValid, Bool.and_eq_true, decide_eq_true_eq,
      List.all_eq_true] at hval ⊢
    obtain ⟨⟨⟨hnd, hscc⟩, hmem⟩, hall⟩ := hval
    refine ⟨⟨⟨hnd, hscc⟩, ?_⟩, ?_⟩
    · intro v hv
      exact mem_setInsert.mpr (Or.inr (hmem v hv))
    · intro q hq
      rcases mem_setInsert.mp hq with hq2 | hq2
      · rw [hq2]
        exact hin
      · exact hall q hq2

theorem addPoint_valid {pts H : List Pt} {p : Pt}
    (hlex : List.Pairwise (fun a b => ptLt a b = true) pts)
    (hval : melkmanIsConvexValid H pts = true) :
    melkmanIsConvexValid (melkmanAddPoint pts H p) (setInsert p pts) = true := by
  by_cases hin : insideOrOn H p = true
  · rw [show melkmanAddPoint pts H p = H by simp [melkmanAddPoint, hin]]
    exact valid_grow hval hin
  · have hin2 : insideOrOn H p = false := by
      cases h : insideOrOn H p
      · rfl
      · exact absurd h hin
    cases H with
    | nil => simp [melkmanIsConvexValid] at hval
    | cons a T =>
      cases T with
      | nil =>
        rw [show melkmanAddPoint pts [a] p = [p, a] by simp [melkmanAddPoint, hin2]]
        simp only [melkmanIsConvexValid, decide_eq_true_eq] at hval
        have hpa : p ≠ a := by
          intro he
          rw [he] at hin2
          simp [insideOrOn] at hin2
        subst hval
        simp only [melkmanIsConvexValid, Bool.and_eq_true, decide_eq_true_eq,
          List.all_eq_true]
        refine ⟨⟨⟨hpa, ?_⟩, ?_⟩, ?_⟩
        · exact mem_setInsert.mpr (Or.inl rfl)
        · exact mem_setInsert.mpr (Or.inr (by simp))
        · intro q hq
          rcases mem_setInsert.mp hq with hq2 | hq2
          · rw [hq2]
            exact onSeg_left p a
          · simp at hq2
            rw [hq2]
            exact onSeg_right p a
      | cons b T2 =>
        cases T2 with
        | nil =>
          simp only [melkmanIsConvexValid, Bool.and_eq_true, decide_eq_true_eq,
            List.all_eq_true] at hval
          obtain ⟨⟨⟨hab, haP⟩, hbP⟩, hall⟩ := hval
          have hnot : ¬ onSeg a b p = true := by
            intro h
            have h2 : insideOrOn [a, b] p = true := h
            rw [hin2] at h2
            simp at h2
          have hall2 : ∀ q ∈ setInsert p pts, q = p ∨ onSeg a b q = true := by
            intro q hq
            rcases mem_setInsert.mp hq with h | h
            · exact Or.inl h
            · exact Or.inr (hall q h)
          have hmemP : p ∈ setInsert p pts := mem_setInsert.mpr (Or.inl rfl)
          have hmemA : a ∈ setInsert p pts := mem_setInsert.mpr (Or.inr haP)
          have hmemB : b ∈ setInsert p pts := mem_setInsert.mpr (Or.inr hbP)
          by_cases hd1 : 0 < det a b p
          · rw [show melkmanAddPoint pts [a, b] p = [p, a, b] by
              simp [melkmanAddPoint, hin2, hd1]]
            exact tri_valid hd1 hab hmemA hmemB hmemP hall2
          · by_cases hd2 : det a b p < 0
            · rw [show melkmanAddPoint pts [a, b] p = [p, b, a] by
                simp [melkmanAddPoint, hin2, hd1, hd2]]
              have hd3 : 0 < det b a p := by
                have h4 := det_swap12 a b p
                linarith
              apply tri_valid hd3 (Ne.symm hab) hmemB hmemA hmemP
              intro q hq
              rcases hall2 q hq with h | h
              · exact Or.inl h
              · right
                rw [← onSeg_comm]
                exact h
            · have hcol : det a b p = 0 := by omega
              by_cases hd4 : onSeg a p b = true
              · rw [show melkmanAddPoint pts [a, b] p = [p, a] by
                  simp [melkmanAddPoint, hin2, hd1, hd2, hd4]]
                exact seg_valid_mid hcol hab hnot hd4 hmemA hmemP hall2
              · rw [show melkmanAddPoint pts [a, b] p = [p, b] by
                  simp [melkmanAddPoint, hin2, hd1, hd2, hd4]]
                exact seg_valid_far hcol hab hnot hd4 hmemB hmemP hall2
        | cons c T3 =>
          by_cases hcheck : melkmanIsConvexValid
              (p :: melkmanPopBack p (melkmanPopFront p (a :: b :: c :: T3)))
              (setInsert p pts) = true
          · rw [show melkmanAddPoint pts (a :: b :: c :: T3) p =
                p :: melkmanPopBack p (melkmanPopFront p (a :: b :: c :: T3)) by
              simp [melkmanAddPoint, hin2, hcheck]]
            exact hcheck
          · rw [show melkmanAddPoint pts (a :: b :: c :: T3) p =
                rebuildHull (setInsert p pts) by
              simp [melkmanAddPoint, hin2, hcheck]]
            apply rebuild_valid (setInsert_sorted hlex)
            exact List.ne_nil_of_mem (mem_setInsert.mpr (Or.inl rfl))

theorem reachable_valid {s : State} (h : Reachable s) :
    melkmanIsConvexValid s.myMelkmanQueue s.myPointSet = true := by
  induction h with
  | start p num den =>
    show melkmanIsConvexValid [p] [p] = true
    simp [melkmanIsConvexValid]
  | stepF p hr htrue ih =>
    rename_i s
    by_cases hc : melkmanMainDiagonal (tentativeCommit s p).myMelkmanQueue < boundQ s
    · rw [extendFront_true hc]
      exact addPoint_valid (reachable_sorted hr) ih
    · rw [extendFront_false hc]
      exact ih
  | stepB p hr htrue ih =>
    rename_i s
    rw [extendBack_eq_extendFront]
    by_cases hc : melkmanMainDiagonal (tentativeCommit s p).myMelkmanQueue < boundQ s
    · rw [extendFront_true hc]
      exact addPoint_valid (reachable_sorted hr) ih
    · rw [extendFront_false hc]
      exact ih

end FuzzySeg

namespace FuzzySeg

theorem setInsert_mem_eq : ∀ {L : List Pt} {p : Pt},
    List.Pairwise (fun a b => ptLt a b = true) L → p ∈ L → setInsert p L = L := by
  intro L
  induction L with
  | nil => intro p _ h; simp at h
  | cons q s ih =>
    intro p hpair hp
    obtain ⟨hq, hs⟩ := List.pairwise_cons.mp hpair
    rcases List.mem_cons.mp hp with rfl | hp2
    · simp only [setInsert, ptLt_irrefl]
      rfl
    · have hqp : ptLt q p = true := hq p hp2
      have hpq : ptLt p q = false := by
        cases hx : ptLt p q
        · rfl
        · exfalso
          have := ptLt_trans hx hqp
          rw [ptLt_irrefl] at this
          exact Bool.noConfusion this
      simp only [setInsert, hpq, hqp]
      simp only [show (false = true) = False by simp, if_false, if_true]
      rw [ih hs hp2]

theorem valid_implies_inside {H pts : List Pt} {q : Pt}
    (hval : melkmanIsConvexValid H pts = true) (hq : q ∈ pts) :
    insideOrOn H q = true := by
  match H with
  | [] => simp [melkmanIsConvexValid] at hval
  | [v] =>
    simp only [melkmanIsConvexValid, decide_eq_true_eq] at hval
    rw [hval] at hq
    simp at hq
    simp [insideOrOn, hq]
  | [a, b] =>
    simp only [melkmanIsConvexValid, Bool.and_eq_true, decide_eq_true_eq,
      List.all_eq_true] at hval
    exact hval.2 q hq
  | a :: b :: c :: t =>
    simp only [melkmanIsConvexValid, Bool.and_eq_true, decide_eq_true_eq,
      List.all_eq_true] at hval
    exact hval.2 q hq

theorem reachable_width {s : State} (h : Reachable s) :
    0 < boundQ s → melkmanMainDiagonal s.myMelkmanQueue < boundQ s := by
  induction h with
  | start p num den =>
    intro hpos
    show melkmanMainDiagonal [p] < boundQ (init p num den)
    rw [melkmanMainDiagonal_degenerate (by simp)]
    exact hpos
  | stepF p hr htrue ih =>
    rename_i s
    intro hpos
    by_cases hc : melkmanMainDiagonal (tentativeCommit s p).myMelkmanQueue < boundQ s
    · rw [extendFront_true hc]
      exact hc
    · rw [extendFront_false hc]
      rw [extendFront_false hc] at hpos
      exact ih hpos
  | stepB p hr htrue ih =>
    rename_i s
    intro hpos
    rw [extendBack_eq_extendFront] at hpos ⊢
    by_cases hc : melkmanMainDiagonal (tentativeCommit s p).myMelkmanQueue < boundQ s
    · rw [extendFront_true hc]
      exact hc
    · rw [extendFront_false hc]
      rw [extendFront_false hc] at hpos
      exact ih hpos

end FuzzySeg

/-- Claim C7 (counterexample): with the Width Bound pair 0/1 accepted by
`init`, calling `extendFront` with the point already stored in the Point
Ledger returns false — the duplicate insertion is counted as a rejection,
contradicting the claim for this reachable state. -/
theorem C7_duplicate_counterexample :
    ((0 : Int), (0 : Int)) ∈ (FuzzySeg.init (0, 0) 0 1).myPointSet ∧
      FuzzySeg.extendFront (FuzzySeg.init (0, 0) 0 1) (0, 0) =
        (false, FuzzySeg.init (0, 0) 0 1) := by
  constructor
  · show ((0 : Int), (0 : Int)) ∈ [((0 : Int), (0 : Int))]
    simp
  · apply FuzzySeg.extendFront_false
    intro hc
    have h0 : FuzzySeg.melkmanMainDiagonal
        (FuzzySeg.tentativeCommit (FuzzySeg.init (0, 0) 0 1) (0, 0)).myMelkmanQueue
          = 0 := by
      rfl
    have h1 : FuzzySeg.boundQ (FuzzySeg.init (0, 0) 0 1) = 0 := by
      norm_num [FuzzySeg.boundQ, FuzzySeg.init]
    rw [h0, h1] at hc
    exact lt_irrefl _ hc

/-- Claim C7 (amended): for every reachable recognizer state whose configured
Width Bound is strictly positive, calling `extendFront` or `extendBack` with a
point already present in the Point Ledger succeeds and returns the state
unchanged — so `size()`, the Hull State, and the output of `primitive()` are
untouched, the duplicate is not counted as a rejection, and the hull is not
corrupted. -/
theorem C7_duplicate_idempotent (s : FuzzySeg.State) (p : FuzzySeg.Pt)
    (hreach : FuzzySeg.Reachable s) (hpos : 0 < FuzzySeg.boundQ s)
    (hmem : p ∈ s.myPointSet) :
    FuzzySeg.extendFront s p = (true, s) ∧ FuzzySeg.extendBack s p = (true, s) := by
  have hsorted := FuzzySeg.reachable_sorted hreach
  have hval := FuzzySeg.reachable_valid hreach
  have hset : FuzzySeg.setInsert p s.myPointSet = s.myPointSet :=
    FuzzySeg.setInsert_mem_eq hsorted hmem
  have hin : FuzzySeg.insideOrOn s.myMelkmanQueue p = true :=
    FuzzySeg.valid_implies_inside hval hmem
  have haddp : FuzzySeg.melkmanAddPoint s.myPointSet s.myMelkmanQueue p =
      s.myMelkmanQueue := by
    simp [FuzzySeg.melkmanAddPoint, hin]
  have ht : FuzzySeg.tentativeCommit s p = s := by
    simp [FuzzySeg.tentativeCommit, hset, haddp]
  have hw := FuzzySeg.reachable_width hreach hpos
  have hc : FuzzySeg.melkmanMainDiagonal
      (FuzzySeg.tentativeCommit s p).myMelkmanQueue < FuzzySeg.boundQ s := by
    rw [ht]
    exact hw
  constructor
  · rw [FuzzySeg.extendFront_true hc, ht]
  · rw [FuzzySeg.extendBack_eq_extendFront, FuzzySeg.extendFront_true hc, ht]

/-- Witness for the amended claim C7 at a concrete state: the run initialized
at `(0,0)` with bound 1/1, re-extended with the same point, succeeds and is
unchanged. -/
theorem C7_duplicate_witness :
    FuzzySeg.Reachable (FuzzySeg.init ((0 : Int), (0 : Int)) 1 1) ∧
    0 < FuzzySeg.boundQ (FuzzySeg.init ((0 : Int), (0 : Int)) 1 1) ∧
    ((0 : Int), (0 : Int)) ∈ (FuzzySeg.init ((0 : Int), (0 : Int)) 1 1).myPointSet ∧
    FuzzySeg.extendFront (FuzzySeg.init ((0 : Int), (0 : Int)) 1 1) (0, 0) =
      (true, FuzzySeg.init ((0 : Int), (0 : Int)) 1 1) := by
  have hreach := FuzzySeg.Reachable.start ((0 : Int), (0 : Int)) 1 1
  have hpos : 0 < FuzzySeg.boundQ (FuzzySeg.init ((0 : Int), (0 : Int)) 1 1) := by
    norm_num [FuzzySeg.boundQ, FuzzySeg.init]
  have hmem : ((0 : Int), (0 : Int)) ∈
      (FuzzySeg.init ((0 : Int), (0 : Int)) 1 1).myPointSet := by
    simp [FuzzySeg.init]
  exact ⟨hreach, hpos, hmem,
    (C7_duplicate_idempotent _ _ hreach hpos hmem).1⟩

namespace FuzzySeg

/-- Uniqueness of the counterclockwise successor: if two strictly convex
cycles through `v` both keep the whole point set weakly to the left of their
edges at `v`, and each supports the other's vertices, their successors of `v`
coincide. -/
theorem succ_unique {u v w1 z1 w2 z2 : Pt}
    (h1 : 0 < det u v w1) (h2 : 0 < det v w1 z1) (h2' : 0 < det v w2 z2)
    (hs1 : 0 ≤ det v w1 w2) (hs1' : 0 ≤ det v w2 w1)
    (hsu : 0 ≤ det u v w2)
    (hz1 : 0 ≤ det w1 z1 w2) (hz2 : 0 ≤ det w2 z2 w1) : w1 = w2 := by
  have hcol : det v w1 w2 = 0 := by
    have h3 := det_swap23 v w1 w2
    linarith
  have hw1v : w1 ≠ v := by
    intro he
    rw [he, det_self12] at h2
    exact absurd h2 (lt_irrefl 0)
  have hw2v : w2 ≠ v := by
    intro he
    rw [he, det_self12] at h2'
    exact absurd h2' (lt_irrefl 0)
  have ha : 0 < dot (psub w1 v) (psub w1 v) :=
    dot_self_pos (fun hz => hw1v (psub_eq_zero_iff.mp hz))
  have hb : 0 < dot (psub w2 v) (psub w2 v) :=
    dot_self_pos (fun hz => hw2v (psub_eq_zero_iff.mp hz))
  have hlag := lagrange (psub w1 v) (psub w2 v)
  have hcross : cross (psub w1 v) (psub w2 v) = 0 := by
    rw [cross_psub_eq_det]
    exact hcol
  rw [hcross] at hlag
  simp at hlag
  -- hlag : dot (psub w1 v) (psub w2 v) ^ 2 = a * b
  rcases lt_trichotomy (dot (psub w1 v) (psub w2 v)) 0 with hc | hc | hc
  · -- opposite rays: contradicts support by the predecessor edge of the first cycle
    exfalso
    have hid := det_prop_lin u v w1 w2
    rw [hcol] at hid
    simp at hid
    nlinarith
  · -- perpendicular is impossible for collinear nonzero vectors
    exfalso
    rw [hc] at hlag
    nlinarith
  · -- same ray: each successor is weakly before the other, so they coincide
    have hP : 0 ≤ dot (psub v w1) (psub w2 w1) := by
      have hid := det_prop_lin z1 w1 v w2
      have hcol2 : det w1 v w2 = 0 := by
        have h3 := det_swap12 v w1 w2
        rw [hcol] at h3
        linarith
      rw [hcol2] at hid
      simp at hid
      have hY : det z1 w1 v = - det v w1 z1 := by
        have e1 := det_cyclic z1 w1 v
        have e2 := det_swap12 v w1 z1
        -- det z1 w1 v = det w1 v z1 = - det v w1 z1
        linarith
      have hX : det z1 w1 w2 = - det w1 z1 w2 := det_swap12 w1 z1 w2
      have hav : 0 < dot (psub v w1) (psub v w1) :=
        dot_self_pos (fun hz => hw1v (psub_eq_zero_iff.mp hz).symm)
      nlinarith
    have hQ : 0 ≤ dot (psub v w2) (psub w1 w2) := by
      have hid := det_prop_lin z2 w2 v w1
      have hcol2 : det w2 v w1 = 0 := by
        have h3 := det_swap12 v w2 w1
        have h4 := det_swap23 v w1 w2
        -- det v w2 w1 = - det v w1 w2 = 0
        rw [hcol] at h4
        linarith
      rw [hcol2] at hid
      simp at hid
      have hY : det z2 w2 v = - det v w2 z2 := by
        have e1 := det_cyclic z2 w2 v
        have e2 := det_swap12 v w2 z2
        linarith
      have hX : det z2 w2 w1 = - det w2 z2 w1 := det_swap12 w2 z2 w1
      have hav : 0 < dot (psub v w2) (psub v w2) :=
        dot_self_pos (fun hz => hw2v (psub_eq_zero_iff.mp hz).symm)
      nlinarith
    have hPid : dot (psub v w1) (psub w2 w1) =
        dot (psub w1 v) (psub w1 v) - dot (psub w1 v) (psub w2 v) := by
      simp only [dot, psub]
      ring
    have hQid : dot (psub v w2) (psub w1 w2) =
        dot (psub w2 v) (psub w2 v) - dot (psub w1 v) (psub w2 v) := by
      simp only [dot, psub]
      ring
    have hsq : dot (psub w2 w1) (psub w2 w1) =
        dot (psub w1 v) (psub w1 v) + dot (psub w2 v) (psub w2 v) -
          2 * dot (psub w1 v) (psub w2 v) := by
      simp only [dot, psub]
      ring
    have hzero : dot (psub w2 w1) (psub w2 w1) = 0 := by nlinarith
    have hne : psub w2 w1 = ((0 : Int), (0 : Int)) := by
      by_contra hx
      have := dot_self_pos hx
      linarith
    exact (psub_eq_zero_iff.mp hne).symm

end FuzzySeg

namespace FuzzySeg

theorem cyclicPairs_eq_snoc (x : Pt) (xs : List Pt) :
    cyclicPairs (x :: xs) = chainPairs ((x :: xs) ++ [x]) := by
  obtain ⟨m, hm⟩ := getLast?_some (S := x :: xs) (by simp)
  rw [cyclicPairs_decomp hm, chainPairs_snoc hm]

theorem chainTriples_append : ∀ (A : List Pt) (x y : Pt) (B : List Pt),
    chainTriples (A ++ x :: y :: B) =
      chainTriples (A ++ [x, y]) ++ chainTriples (x :: y :: B)
  | [], x, y, B => rfl
  | [a], x, y, B => rfl
  | a :: a2 :: A2, x, y, B => by
    have ih := chainTriples_append (a2 :: A2) x y B
    cases A2 with
    | nil =>
      show (a, a2, x) :: chainTriples (a2 :: x :: y :: B) =
        ((a, a2, x) :: chainTriples ([a2] ++ [x, y])) ++ chainTriples (x :: y :: B)
      rw [show chainTriples (a2 :: x :: y :: B) =
        chainTriples ([a2] ++ [x, y]) ++ chainTriples (x :: y :: B) from ih]
      rfl
    | cons a3 A3 =>
      show (a, a2, a3) :: chainTriples (a2 :: a3 :: (A3 ++ x :: y :: B)) =
        ((a, a2, a3) :: chainTriples (a2 :: a3 :: (A3 ++ [x, y]))) ++
          chainTriples (x :: y :: B)
      rw [show chainTriples (a2 :: a3 :: (A3 ++ x :: y :: B)) =
        chainTriples ((a2 :: a3 :: A3) ++ [x, y]) ++ chainTriples (x :: y :: B)
        from ih]
      rfl

theorem mem_cyclicPairs_rotate1 {h0 h1 : Pt} {rest : List Pt} {e : Pt × Pt} :
    e ∈ cyclicPairs (rotate1 (h0 :: h1 :: rest)) ↔
      e ∈ cyclicPairs (h0 :: h1 :: rest) := by
  have e1 : cyclicPairs (h0 :: h1 :: rest) =
      chainPairs [h0, h1] ++ chainPairs ((h1 :: rest) ++ [h0]) := by
    rw [cyclicPairs_eq_snoc]
    exact chainPairs_append_cons [h0] h1 (rest ++ [h0])
  have e2 : cyclicPairs (rotate1 (h0 :: h1 :: rest)) =
      chainPairs ((h1 :: rest) ++ [h0]) ++ chainPairs [h0, h1] := by
    show cyclicPairs (h1 :: (rest ++ [h0])) = _
    rw [cyclicPairs_eq_snoc]
    rw [show (h1 :: (rest ++ [h0])) ++ [h1] = (h1 :: rest) ++ h0 :: [h1] by simp]
    exact chainPairs_append_cons (h1 :: rest) h0 [h1]
  rw [e1, e2]
  simp only [List.mem_append]
  exact or_comm

theorem mem_cyclicTriples_rotate1 {h0 h1 r0 : Pt} {rs : List Pt}
    {t : Pt × Pt × Pt} :
    t ∈ cyclicTriples (rotate1 (h0 :: h1 :: r0 :: rs)) ↔
      t ∈ cyclicTriples (h0 :: h1 :: r0 :: rs) := by
  have e1 : cyclicTriples (h0 :: h1 :: r0 :: rs) =
      chainTriples [h0, h1, r0] ++ chainTriples ((h1 :: r0 :: rs) ++ [h0, h1]) := by
    rw [cyclicTriples_decomp]
    exact chainTriples_append [h0] h1 r0 (rs ++ [h0, h1])
  have e2 : cyclicTriples (rotate1 (h0 :: h1 :: r0 :: rs)) =
      chainTriples ((h1 :: r0 :: rs) ++ [h0, h1]) ++ chainTriples [h0, h1, r0] := by
    show cyclicTriples (h1 :: r0 :: (rs ++ [h0])) = _
    rw [cyclicTriples_decomp]
    rw [show (h1 :: r0 :: (rs ++ [h0])) ++ [h1, r0] =
      (h1 :: r0 :: rs) ++ h0 :: h1 :: [r0] by simp]
    exact chainTriples_append (h1 :: r0 :: rs) h0 h1 [r0]
  rw [e1, e2]
  simp only [List.mem_append]
  exact or_comm

theorem valid_rotate1 {D pts : List Pt} (h3 : 3 ≤ D.length)
    (hval : melkmanIsConvexValid D pts = true) :
    melkmanIsConvexValid (rotate1 D) pts = true := by
  obtain ⟨h0, h1x, r0, rs, rfl⟩ : ∃ a b c t, D = a :: b :: c :: t := by
    match D, h3 with
    | [], h => simp at h
    | [a], h => simp at h
    | [a, b], h => simp at h
    | a :: b :: c :: t, _ => exact ⟨a, b, c, t, rfl⟩
  simp only [melkmanIsConvexValid, Bool.and_eq_true, decide_eq_true_eq,
    List.all_eq_true] at hval
  obtain ⟨⟨⟨hnd, hscc⟩, hmem⟩, hall⟩ := hval
  obtain ⟨w, Wr, hw⟩ : ∃ w Wr, rs ++ [h0] = w :: Wr := by
    cases hx : rs ++ [h0] with
    | nil => simp at hx
    | cons a t => exact ⟨a, t, rfl⟩
  have hrot : rotate1 (h0 :: h1x :: r0 :: rs) = h1x :: r0 :: w :: Wr := by
    show h1x :: r0 :: (rs ++ [h0]) = h1x :: r0 :: w :: Wr
    rw [hw]
  rw [hrot]
  simp only [melkmanIsConvexValid, Bool.and_eq_true, decide_eq_true_eq,
    List.all_eq_true]
  refine ⟨⟨⟨?_, ?_⟩, ?_⟩, ?_⟩
  · have h5 : ((h1x :: r0 :: rs) ++ [h0]).Nodup := List.nodup_append_comm.mp hnd
    rw [← hw]
    exact h5
  · simp only [strictlyConvexCyclic, List.all_eq_true] at hscc ⊢
    intro t ht
    apply hscc
    apply mem_cyclicTriples_rotate1.mp
    rw [hrot]
    exact ht
  · intro v hv
    rw [← hrot] at hv
    have hv2 : v ∈ (h1x :: r0 :: rs) ++ [h0] := hv
    apply hmem
    simp only [List.mem_append, List.mem_cons] at hv2 ⊢
    tauto
  · intro q hq
    show (cyclicPairs (h1x :: r0 :: w :: Wr)).all
      (fun e => decide (0 ≤ det e.1 e.2 q)) = true
    rw [← hrot, List.all_eq_true]
    intro e he
    have he2 : e ∈ cyclicPairs (h0 :: h1x :: r0 :: rs) :=
      mem_cyclicPairs_rotate1.mp he
    have h6 : (cyclicPairs (h0 :: h1x :: r0 :: rs)).all
        (fun e => decide (0 ≤ det e.1 e.2 q)) = true := hall q hq
    rw [List.all_eq_true] at h6
    exact h6 e he2

theorem valid_rot_append : ∀ (A : List Pt) {C pts : List Pt},
    3 ≤ (A ++ C).length →
    melkmanIsConvexValid (A ++ C) pts = true →
    melkmanIsConvexValid (C ++ A) pts = true
  | [], C, pts, h3, hval => by simpa using hval
  | a :: A2, C, pts, h3, hval => by
    have h1 : melkmanIsConvexValid (rotate1 (a :: (A2 ++ C))) pts = true :=
      valid_rotate1 (by simpa using h3) hval
    have h2 : melkmanIsConvexValid (A2 ++ (C ++ [a])) pts = true := by
      rw [show A2 ++ (C ++ [a]) = (A2 ++ C) ++ [a] by simp]
      exact h1
    have h4 := valid_rot_append A2 (C := C ++ [a])
      (by simp at h3 ⊢; omega) h2
    rw [show C ++ a :: A2 = (C ++ [a]) ++ A2 by simp]
    exact h4

end FuzzySeg

namespace FuzzySeg

theorem exists_cons3 : ∀ {D : List Pt}, 3 ≤ D.length →
    ∃ a b c t, D = a :: b :: c :: t
  | [], h => by simp at h
  | [a], h => by simp at h
  | [a, b], h => by simp at h
  | a :: b :: c :: t, _ => ⟨a, b, c, t, rfl⟩

theorem valid_big_parts {D pts : List Pt} (h3 : 3 ≤ D.length)
    (hval : melkmanIsConvexValid D pts = true) :
    D.Nodup ∧ (∀ t ∈ cyclicTriples D, 0 < det t.1 t.2.1 t.2.2) ∧
      (∀ v ∈ D, v ∈ pts) ∧ (∀ e ∈ cyclicPairs D, ∀ q ∈ pts, 0 ≤ det e.1 e.2 q) := by
  obtain ⟨a, b, c, t, rfl⟩ := exists_cons3 h3
  simp only [melkmanIsConvexValid, Bool.and_eq_true, decide_eq_true_eq,
    List.all_eq_true] at hval
  obtain ⟨⟨⟨hnd, hscc⟩, hmem⟩, hall⟩ := hval
  refine ⟨hnd, ?_, hmem, ?_⟩
  · simp only [strictlyConvexCyclic, List.all_eq_true] at hscc
    intro t2 ht2
    simpa using hscc t2 ht2
  · intro e he q hq
    have h6 : (cyclicPairs (a :: b :: c :: t)).all
        (fun e => decide (0 ≤ det e.1 e.2 q)) = true := hall q hq
    rw [List.all_eq_true] at h6
    simpa using h6 e he

theorem length_rotate1 : ∀ (D : List Pt), (rotate1 D).length = D.length
  | [] => rfl
  | x :: xs => by
    show (xs ++ [x]).length = (x :: xs).length
    simp

theorem getElem?_rotate1 {D : List Pt} {i : Nat} (h : i < D.length) :
    (rotate1 D)[i]? = D[(i + 1) % D.length]? := by
  cases D with
  | nil => simp at h
  | cons x xs =>
    show (xs ++ [x])[i]? = _
    rcases Nat.lt_or_ge i xs.length with hi | hi
    · rw [List.getElem?_append_left hi]
      have h2 : (i + 1) % (x :: xs).length = i + 1 := by
        apply Nat.mod_eq_of_lt
        simp
        omega
      rw [h2, List.getElem?_cons_succ]
    · have hlen : (x :: xs).length = xs.length + 1 := by simp
      have hi2 : i = xs.length := by
        rw [hlen] at h
        omega
      subst hi2
      rw [List.getElem?_append_right (le_refl _)]
      have h3 : (xs.length + 1) % (x :: xs).length = 0 := by
        rw [hlen]
        exact Nat.mod_self _
      rw [h3]
      simp

end FuzzySeg

namespace FuzzySeg

theorem mod_shift (n a b : Nat) : ((a % n) + b) % n = (a + b) % n := by
  conv_rhs => rw [Nat.add_mod]
  conv_lhs => rw [Nat.add_mod, Nat.mod_mod]

theorem cyclic_pair_mem {D : List Pt} {i : Nat} {u w : Pt}
    (h : i < D.length)
    (hu : D[i]? = some u)
    (hw : D[(i + 1) % D.length]? = some w) :
    (u, w) ∈ cyclicPairs D := by
  have h2 : (rotate1 D)[i]? = some w := by
    rw [getElem?_rotate1 h]
    exact hw
  have h3 : (cyclicPairs D)[i]? = some (u, w) := by
    show (D.zip (rotate1 D))[i]? = some (u, w)
    exact List.getElem?_zip_eq_some.mpr ⟨hu, h2⟩
  exact List.getElem?_mem h3

theorem cyclic_triple_mem {D : List Pt} {i : Nat} {u v w : Pt}
    (h : i < D.length) (h0 : 0 < D.length)
    (hu : D[i]? = some u)
    (hv : D[(i + 1) % D.length]? = some v)
    (hw : D[(i + 2) % D.length]? = some w) :
    (u, (v, w)) ∈ cyclicTriples D := by
  have h2 : (rotate1 D)[i]? = some v := by
    rw [getElem?_rotate1 h]
    exact hv
  have h4 : (rotate1 (rotate1 D))[i]? = some w := by
    rw [getElem?_rotate1 (by rw [length_rotate1]; exact h), length_rotate1,
      getElem?_rotate1 (Nat.mod_lt _ h0), mod_shift]
    have e1 : i + 1 + 1 = i + 2 := by omega
    rw [e1]
    exact hw
  have h5 : ((rotate1 D).zip (rotate1 (rotate1 D)))[i]? = some (v, w) :=
    List.getElem?_zip_eq_some.mpr ⟨h2, h4⟩
  have h6 : (cyclicTriples D)[i]? = some (u, (v, w)) := by
    show (D.zip ((rotate1 D).zip (rotate1 (rotate1 D))))[i]? = _
    exact List.getElem?_zip_eq_some.mpr ⟨hu, h5⟩
  exact List.getElem?_mem h6

end FuzzySeg

namespace FuzzySeg

theorem succ_step {pts D E : List Pt} {i : Nat} {v w2 : Pt}
    (hD : melkmanIsConvexValid D pts = true)
    (hE : melkmanIsConvexValid E pts = true)
    (hD3 : 3 ≤ D.length) (hE3 : 3 ≤ E.length)
    (hiD : i < D.length) (hiE : i + 1 < E.length)
    (hvD : D[i]? = some v) (hvE : E[i]? = some v)
    (hw2 : E[i + 1]? = some w2) :
    D[(i + 1) % D.length]? = some w2 := by
  obtain ⟨hDnd, hDtr, hDmem, hDsup⟩ := valid_big_parts hD3 hD
  obtain ⟨hEnd, hEtr, hEmem, hEsup⟩ := valid_big_parts hE3 hE
  have hn0 : 0 < D.length := by omega
  have hm0 : 0 < E.length := by omega
  have hiE0 : i < E.length := by omega
  have hj1 : (i + 1) % D.length < D.length := Nat.mod_lt _ hn0
  obtain ⟨w1, hw1⟩ : ∃ w, D[(i + 1) % D.length]? = some w :=
    ⟨_, List.getElem?_eq_getElem hj1⟩
  suffices hww : w1 = w2 by
    rw [hw1, hww]
  have hj2 : (i + 2) % D.length < D.length := Nat.mod_lt _ hn0
  obtain ⟨z1, hz1e⟩ : ∃ z, D[(i + 2) % D.length]? = some z :=
    ⟨_, List.getElem?_eq_getElem hj2⟩
  have hjp : (i + (D.length - 1)) % D.length < D.length := Nat.mod_lt _ hn0
  obtain ⟨u, hue⟩ : ∃ w, D[(i + (D.length - 1)) % D.length]? = some w :=
    ⟨_, List.getElem?_eq_getElem hjp⟩
  have hk2 : (i + 2) % E.length < E.length := Nat.mod_lt _ hm0
  obtain ⟨z2, hz2e⟩ : ∃ z, E[(i + 2) % E.length]? = some z :=
    ⟨_, List.getElem?_eq_getElem hk2⟩
  have epi : i % D.length = i := Nat.mod_eq_of_lt hiD
  have ep1 : ((i + (D.length - 1)) % D.length + 1) % D.length = i := by
    have h := mod_shift D.length (i + (D.length - 1)) 1
    have e : i + (D.length - 1) + 1 = i + D.length := by omega
    rw [e, Nat.add_mod_right] at h
    rw [h]
    exact epi
  have ep2 : ((i + (D.length - 1)) % D.length + 2) % D.length =
      (i + 1) % D.length := by
    have h := mod_shift D.length (i + (D.length - 1)) 2
    have e : i + (D.length - 1) + 2 = (i + 1) + D.length := by omega
    rw [e, Nat.add_mod_right] at h
    exact h
  have eq1 : ((i + 1) % D.length + 1) % D.length = (i + 2) % D.length := by
    have h := mod_shift D.length (i + 1) 1
    have e : i + 1 + 1 = i + 2 := by omega
    rw [e] at h
    exact h
  have eqE : (i + 1) % E.length = i + 1 := Nat.mod_eq_of_lt hiE
  have htriD1 : (u, (v, w1)) ∈ cyclicTriples D := by
    apply cyclic_triple_mem hjp hn0 hue
    · rw [ep1]
      exact hvD
    · rw [ep2]
      exact hw1
  have htriD2 : (v, (w1, z1)) ∈ cyclicTriples D :=
    cyclic_triple_mem hiD hn0 hvD hw1 hz1e
  have htriE : (v, (w2, z2)) ∈ cyclicTriples E := by
    apply cyclic_triple_mem hiE0 hm0 hvE
    · rw [eqE]
      exact hw2
    · exact hz2e
  have hpairD1 : (u, v) ∈ cyclicPairs D := by
    apply cyclic_pair_mem hjp hue
    rw [ep1]
    exact hvD
  have hpairD2 : (v, w1) ∈ cyclicPairs D :=
    cyclic_pair_mem hiD hvD hw1
  have hpairD3 : (w1, z1) ∈ cyclicPairs D := by
    apply cyclic_pair_mem hj1 hw1
    rw [eq1]
    exact hz1e
  have hpairE1 : (v, w2) ∈ cyclicPairs E := by
    apply cyclic_pair_mem hiE0 hvE
    rw [eqE]
    exact hw2
  have hpairE2 : (w2, z2) ∈ cyclicPairs E := by
    apply cyclic_pair_mem hiE hw2
    exact hz2e
  have hw1pts : w1 ∈ pts := hDmem _ (List.getElem?_mem hw1)
  have hw2pts : w2 ∈ pts := hEmem _ (List.getElem?_mem hw2)
  exact succ_unique (hDtr _ htriD1) (hDtr _ htriD2) (hEtr _ htriE)
    (hDsup _ hpairD2 _ hw2pts) (hEsup _ hpairE1 _ hw1pts)
    (hDsup _ hpairD1 _ hw2pts) (hDsup _ hpairD3 _ hw2pts)
    (hEsup _ hpairE2 _ hw1pts)

theorem march_eq {pts D E : List Pt}
    (hD : melkmanIsConvexValid D pts = true)
    (hE : melkmanIsConvexValid E pts = true)
    (hD3 : 3 ≤ D.length) (hE3 : 3 ≤ E.length)
    (hhead : D.head? = E.head?) : D = E := by
  have key : ∀ i, i < D.length → i < E.length → D[i]? = E[i]? := by
    intro i
    induction i with
    | zero =>
      intro h1 h2
      rw [← List.head?_eq_getElem?, ← List.head?_eq_getElem?]
      exact hhead
    | succ k ih =>
      intro h1 h2
      have hk1 : k < D.length := by omega
      have hk2 : k < E.length := by omega
      have hkk := ih hk1 hk2
      obtain ⟨v, hv⟩ : ∃ v, D[k]? = some v := ⟨_, List.getElem?_eq_getElem hk1⟩
      have hvE : E[k]? = some v := by
        rw [← hkk]
        exact hv
      obtain ⟨w2, hw2⟩ : ∃ w, E[k + 1]? = some w :=
        ⟨_, List.getElem?_eq_getElem h2⟩
      have hstep := succ_step hD hE hD3 hE3 hk1 h2 hv hvE hw2
      rw [Nat.mod_eq_of_lt h1] at hstep
      rw [hstep, hw2]
  have hDnd := (valid_big_parts hD3 hD).1
  have hEnd := (valid_big_parts hE3 hE).1
  have hlen : D.length = E.length := by
    by_contra hne
    rcases Nat.lt_or_ge D.length E.length with hlt | hge
    · have hi1 : D.length - 1 < D.length := by omega
      have hi2 : D.length - 1 < E.length := by omega
      have hi3 : D.length - 1 + 1 < E.length := by omega
      obtain ⟨v, hv⟩ : ∃ v, D[D.length - 1]? = some v :=
        ⟨_, List.getElem?_eq_getElem hi1⟩
      have hvE : E[D.length - 1]? = some v := by
        rw [← key _ hi1 hi2]
        exact hv
      obtain ⟨w2, hw2⟩ : ∃ w, E[D.length - 1 + 1]? = some w :=
        ⟨_, List.getElem?_eq_getElem hi3⟩
      have hstep := succ_step hD hE hD3 hE3 hi1 hi3 hv hvE hw2
      have hmod : (D.length - 1 + 1) % D.length = 0 := by
        have e : D.length - 1 + 1 = D.length := by omega
        rw [e]
        exact Nat.mod_self _
      rw [hmod] at hstep
      have h0D : 0 < D.length := by omega
      have h0E : (0 : Nat) < E.length := by omega
      have hE0 : E[(0 : Nat)]? = some w2 := by
        rw [← key 0 h0D h0E]
        exact hstep
      have e : D.length - 1 + 1 = D.length := by omega
      rw [e] at hw2
      have hsame : E[(0 : Nat)]? = E[D.length]? := by
        rw [hE0, hw2]
      have h00 := List.getElem?_inj h0E hEnd hsame
      omega
    · have hlt : E.length < D.length := by omega
      have hi1 : E.length - 1 < E.length := by omega
      have hi2 : E.length - 1 < D.length := by omega
      have hi3 : E.length - 1 + 1 < D.length := by omega
      obtain ⟨v, hv⟩ : ∃ v, E[E.length - 1]? = some v :=
        ⟨_, List.getElem?_eq_getElem hi1⟩
      have hvD : D[E.length - 1]? = some v := by
        rw [key _ hi2 hi1]
        exact hv
      obtain ⟨w2, hw2⟩ : ∃ w, D[E.length - 1 + 1]? = some w :=
        ⟨_, List.getElem?_eq_getElem hi3⟩
      have hstep := succ_step hE hD hE3 hD3 hi1 hi3 hv hvD hw2
      have hmod : (E.length - 1 + 1) % E.length = 0 := by
        have e : E.length - 1 + 1 = E.length := by omega
        rw [e]
        exact Nat.mod_self _
      rw [hmod] at hstep
      have h0D : (0 : Nat) < D.length := by omega
      have h0E : (0 : Nat) < E.length := by omega
      have hD0 : D[(0 : Nat)]? = some w2 := by
        rw [key 0 h0D h0E]
        exact hstep
      have e : E.length - 1 + 1 = E.length := by omega
      rw [e] at hw2
      have hsame : D[(0 : Nat)]? = D[E.length]? := by
        rw [hD0, hw2]
      have h00 := List.getElem?_inj h0D hDnd hsame
      omega
  apply List.ext_getElem?
  intro i
  rcases Nat.lt_or_ge i D.length with hi | hi
  · exact key i hi (by omega)
  · rw [List.getElem?_eq_none hi, List.getElem?_eq_none (by omega)]

end FuzzySeg

namespace FuzzySeg

theorem ptLe_total (a b : Pt) : ptLe a b ∨ ptLe b a :=
  (ptLt_or_ge a b).imp ptLe_of_lt id

theorem exists_lex_min : ∀ {L : List Pt}, L ≠ [] →
    ∃ v, v ∈ L ∧ ∀ x ∈ L, ptLe v x
  | [], h => absurd rfl h
  | [x], _ => by
    refine ⟨x, by simp, ?_⟩
    intro y hy
    rw [List.mem_singleton] at hy
    rw [hy]
    exact Or.inl rfl
  | x :: y :: t, _ => by
    obtain ⟨v, hv, hall⟩ := exists_lex_min (L := y :: t) (by simp)
    rcases ptLe_total x v with hxv | hvx
    · refine ⟨x, by simp, ?_⟩
      intro q hq
      rcases List.mem_cons.mp hq with rfl | hq2
      · exact Or.inl rfl
      · exact ptLe_trans hxv (hall q hq2)
    · refine ⟨v, List.mem_cons_of_mem _ hv, ?_⟩
      intro q hq
      rcases List.mem_cons.mp hq with rfl | hq2
      · exact hvx
      · exact hall q hq2

theorem lexmin_cone {a b c : Pt}
    (ha : ptLt (0, 0) a = true) (hb : ptLt (0, 0) b = true)
    (hc : ptLt (0, 0) (negPt c) = true)
    (hab : 0 < cross a b) (hac : 0 ≤ cross a c) (hcb : 0 ≤ cross c b) :
    False := by
  have ha2 := lex_pos_cases ha
  have hb2 := lex_pos_cases hb
  have hc2 := lex_pos_cases hc
  have ha1 : 0 ≤ a.1 := by rcases ha2 with h | ⟨h, _⟩ <;> omega
  have hb1 : 0 ≤ b.1 := by rcases hb2 with h | ⟨h, _⟩ <;> omega
  simp only [negPt] at hc2
  simp only [cross] at hab hac hcb
  rcases hc2 with h | ⟨h, h2⟩
  · have hc1 : c.1 < 0 := by omega
    nlinarith [mul_nonneg ha1 hcb, mul_nonneg hb1 hac,
      mul_pos (show (0 : ℤ) < -c.1 by omega) hab]
  · have hc1 : c.1 = 0 := by omega
    have hc2' : c.2 < 0 := by omega
    rw [hc1] at hac hcb
    have ha0 : a.1 = 0 := by
      rcases lt_or_eq_of_le ha1 with h5 | h5
      · exfalso
        nlinarith
      · omega
    rcases ha2 with h3 | ⟨h3, h4⟩
    · omega
    · rw [ha0] at hab
      nlinarith

theorem rebuildHull_head {S : List Pt} (hlex : LexSorted S) (hne : S ≠ []) :
    (rebuildHull S).head? = S.head? := by
  have hinv := lowerInv_fold S hlex hne
  have hh2 : (lowerChain S).head? = S.head? := hinv.head_eq
  cases hLC : lowerChain S with
  | nil =>
    exfalso
    apply hinv.nonempty
    have h2 : (lowerChainRev S).reverse = [] := hLC
    simpa using h2
  | cons x xs =>
    rw [hLC] at hh2
    have he : rebuildHull S = x :: (xs ++ ((upperFull S).drop 1).dropLast) := by
      rw [rebuildHull, hLC]
      rfl
    rw [he]
    exact hh2

theorem lexmin_vertex {pts D : List Pt} {h0 : Pt} {rest : List Pt}
    (hlex : LexSorted pts) (hpts : pts = h0 :: rest)
    (h3 : 3 ≤ D.length)
    (hval : melkmanIsConvexValid D pts = true) : h0 ∈ D := by
  by_contra hni
  obtain ⟨hDnd, hDtr, hDmem, hDsup⟩ := valid_big_parts h3 hval
  have hgt : ∀ v ∈ D, ptLt h0 v = true := by
    intro v hv
    have hvpts := hDmem v hv
    rw [hpts] at hvpts
    rcases List.mem_cons.mp hvpts with h | h
    · exact absurd (h ▸ hv) hni
    · rw [hpts] at hlex
      exact (List.pairwise_cons.mp hlex).1 v h
  have hDne : D ≠ [] := by
    intro h
    rw [h] at h3
    simp at h3
  obtain ⟨vD, hvD, hminD⟩ := exists_lex_min hDne
  obtain ⟨A, B, hAB⟩ := List.append_of_mem hvD
  have hval2 : melkmanIsConvexValid ((vD :: B) ++ A) pts = true := by
    apply valid_rot_append A
    · rw [← hAB]
      exact h3
    · rw [← hAB]
      exact hval
  have hlen2 : ((vD :: B) ++ A).length = D.length := by
    rw [hAB]
    simp [List.length_append]
    omega
  have h32 : 3 ≤ ((vD :: B) ++ A).length := by omega
  obtain ⟨hnd2, htr2, hmem2, hsup2⟩ := valid_big_parts h32 hval2
  have hn0 : 0 < ((vD :: B) ++ A).length := by omega
  have h1lt : 1 < ((vD :: B) ++ A).length := by omega
  have hi : ((vD :: B) ++ A).length - 1 < ((vD :: B) ++ A).length := by omega
  obtain ⟨u, hu⟩ : ∃ u, ((vD :: B) ++ A)[((vD :: B) ++ A).length - 1]? = some u :=
    ⟨_, List.getElem?_eq_getElem hi⟩
  have hv0 : ((vD :: B) ++ A)[(0 : Nat)]? = some vD := by simp
  obtain ⟨w, hw⟩ : ∃ w, ((vD :: B) ++ A)[(1 : Nat)]? = some w :=
    ⟨_, List.getElem?_eq_getElem h1lt⟩
  have e0 : (((vD :: B) ++ A).length - 1 + 1) % ((vD :: B) ++ A).length = 0 := by
    have e : ((vD :: B) ++ A).length - 1 + 1 = ((vD :: B) ++ A).length := by omega
    rw [e]
    exact Nat.mod_self _
  have e1 : (((vD :: B) ++ A).length - 1 + 2) % ((vD :: B) ++ A).length = 1 := by
    have e : ((vD :: B) ++ A).length - 1 + 2 = ((vD :: B) ++ A).length + 1 := by omega
    rw [e, Nat.add_mod_left]
    exact Nat.mod_eq_of_lt h1lt
  have e2 : (0 + 1) % ((vD :: B) ++ A).length = 1 := by
    rw [Nat.zero_add]
    exact Nat.mod_eq_of_lt h1lt
  have htri : (u, (vD, w)) ∈ cyclicTriples ((vD :: B) ++ A) := by
    apply cyclic_triple_mem hi hn0 hu
    · rw [e0]
      exact hv0
    · rw [e1]
      exact hw
  have hpair1 : (u, vD) ∈ cyclicPairs ((vD :: B) ++ A) := by
    apply cyclic_pair_mem hi hu
    rw [e0]
    exact hv0
  have hpair2 : (vD, w) ∈ cyclicPairs ((vD :: B) ++ A) := by
    apply cyclic_pair_mem hn0 hv0
    rw [e2]
    exact hw
  have humem : u ∈ D := by
    have h2 : u ∈ (vD :: B) ++ A := List.getElem?_mem hu
    rw [hAB]
    simp only [List.mem_append, List.mem_cons] at h2 ⊢
    tauto
  have hwmem : w ∈ D := by
    have h2 : w ∈ (vD :: B) ++ A := List.getElem?_mem hw
    rw [hAB]
    simp only [List.mem_append, List.mem_cons] at h2 ⊢
    tauto
  have hh0 : h0 ∈ pts := by
    rw [hpts]
    exact List.mem_cons_self _ _
  have hturn : 0 < det u vD w := htr2 _ htri
  have hs1 : 0 ≤ det u vD h0 := hsup2 _ hpair1 _ hh0
  have hs2 : 0 ≤ det vD w h0 := hsup2 _ hpair2 _ hh0
  have huvD : vD ≠ u := by
    intro he
    rw [← he, det_self12] at hturn
    exact absurd hturn (lt_irrefl 0)
  have hwvD : vD ≠ w := by
    intro he
    rw [← he, det_self2] at hturn
    exact absurd hturn (lt_irrefl 0)
  have hltu : ptLt vD u = true := ptLt_of_le_ne (hminD u humem) huvD
  have hltw : ptLt vD w = true := ptLt_of_le_ne (hminD w hwmem) hwvD
  have ha : ptLt (0, 0) (psub w vD) = true := lex_pos_sub hltw
  have hb : ptLt (0, 0) (psub u vD) = true := lex_pos_sub hltu
  have hc : ptLt (0, 0) (negPt (psub h0 vD)) = true := by
    have h2 : ptLt h0 vD = true := hgt vD hvD
    have h4 := lex_pos_sub h2
    have he : negPt (psub h0 vD) = psub vD h0 := by
      simp only [negPt, psub, Prod.mk.injEq]
      constructor <;> ring
    rw [he]
    exact h4
  have hab : 0 < cross (psub w vD) (psub u vD) := by
    rw [cross_psub_eq_det]
    have h5 := det_cyclic u vD w
    linarith
  have hac : 0 ≤ cross (psub w vD) (psub h0 vD) := by
    rw [cross_psub_eq_det]
    exact hs2
  have hcb : 0 ≤ cross (psub h0 vD) (psub u vD) := by
    rw [cross_psub_eq_det]
    have h5 := det_cyclic u vD h0
    linarith
  exact lexmin_cone ha hb hc hab hac hcb

end FuzzySeg

namespace FuzzySeg

theorem seg_hull_eq {pts : List Pt} {h0 : Pt} {rest : List Pt} {lo hi a0 b0 : Pt}
    (hpts : pts = h0 :: rest) (hlex : LexSorted pts)
    (hlo : lo ∈ pts) (hhi : hi ∈ pts) (hlohi : ptLt lo hi = true)
    (hall : ∀ q ∈ pts, onSeg lo hi q = true)
    (ha0 : a0 = h0) (hb0pts : b0 ∈ pts) (hab0 : a0 ≠ b0)
    (hall0 : ∀ q ∈ pts, onSeg a0 b0 q = true) :
    a0 = lo ∧ b0 = hi := by
  have hmin : ∀ q ∈ pts, ptLe h0 q := by
    intro q hq
    rw [hpts] at hq hlex
    rcases List.mem_cons.mp hq with rfl | hq2
    · exact Or.inl rfl
    · exact Or.inr ((List.pairwise_cons.mp hlex).1 q hq2)
  have hh0pts : h0 ∈ pts := by
    rw [hpts]
    exact List.mem_cons_self _ _
  have h1 : ptLe h0 lo := hmin lo hlo
  have h2 : ptLe lo h0 := (onSeg_lex_between_of_lt (hall h0 hh0pts) hlohi).1
  have hloh0 : lo = h0 := ptLe_antisymm h2 h1
  refine ⟨by rw [ha0, ← hloh0], ?_⟩
  have ha0b0 : ptLt a0 b0 = true := by
    apply ptLt_of_le_ne _ hab0
    rw [ha0]
    exact hmin b0 hb0pts
  have h3 : ptLe hi b0 := (onSeg_lex_between_of_lt (hall0 hi hhi) ha0b0).2
  have h4 : ptLe b0 hi := (onSeg_lex_between_of_lt (hall b0 hb0pts) hlohi).2
  exact ptLe_antisymm h4 h3

theorem head_triple_mem (a b c : Pt) (t : List Pt) :
    (a, (b, c)) ∈ cyclicTriples (a :: b :: c :: t) := by
  have h0 : 0 < (a :: b :: c :: t).length := by
    simp only [List.length_cons]
    omega
  apply cyclic_triple_mem h0 h0
  · simp
  · have e1 : (0 + 1) % (a :: b :: c :: t).length = 0 + 1 :=
      Nat.mod_eq_of_lt (by simp only [List.length_cons]; omega)
    rw [e1]
    simp
  · have e2 : (0 + 2) % (a :: b :: c :: t).length = 0 + 2 :=
      Nat.mod_eq_of_lt (by simp only [List.length_cons]; omega)
    rw [e2]
    simp

theorem rebuild_big {pts : List Pt} (hlex : LexSorted pts) (hne : pts ≠ [])
    {x y z : Pt} (hx : x ∈ pts) (hy : y ∈ pts) (hz : z ∈ pts)
    (hd : det x y z ≠ 0) : 3 ≤ (rebuildHull pts).length := by
  have hEval := rebuild_valid hlex hne
  rcases hEshape : rebuildHull pts with _ | ⟨a0, _ | ⟨b0, _ | ⟨c0, t1⟩⟩⟩
  · rw [hEshape] at hEval
    simp [melkmanIsConvexValid] at hEval
  · rw [hEshape] at hEval
    simp only [melkmanIsConvexValid, decide_eq_true_eq] at hEval
    rw [hEval] at hx hy
    simp at hx hy
    rw [hx, hy, det_self12] at hd
    exact absurd rfl hd
  · rw [hEshape] at hEval
    simp only [melkmanIsConvexValid, Bool.and_eq_true, decide_eq_true_eq,
      List.all_eq_true] at hEval
    obtain ⟨⟨⟨hab0, ha0m⟩, hb0m⟩, hall0⟩ := hEval
    have hdx : det a0 b0 x = 0 := by
      have h5 := hall0 x hx
      simp only [onSeg, Bool.and_eq_true, decide_eq_true_eq] at h5
      exact h5.1.1
    have hdy : det a0 b0 y = 0 := by
      have h5 := hall0 y hy
      simp only [onSeg, Bool.and_eq_true, decide_eq_true_eq] at h5
      exact h5.1.1
    have hdz : det a0 b0 z = 0 := by
      have h5 := hall0 z hz
      simp only [onSeg, Bool.and_eq_true, decide_eq_true_eq] at h5
      exact h5.1.1
    exact absurd (collinear_three hab0 hdx hdy hdz) hd
  · simp only [List.length_cons]
    omega

theorem valid_unique_rot {pts D : List Pt} (hlex : LexSorted pts)
    (hval : melkmanIsConvexValid D pts = true) :
    ∃ k, D.drop k ++ D.take k = rebuildHull pts := by
  rcases D with _ | ⟨a, _ | ⟨b, _ | ⟨c, t⟩⟩⟩
  · simp [melkmanIsConvexValid] at hval
  · simp only [melkmanIsConvexValid, decide_eq_true_eq] at hval
    refine ⟨0, ?_⟩
    rw [hval]
    rfl
  · simp only [melkmanIsConvexValid, Bool.and_eq_true, decide_eq_true_eq,
      List.all_eq_true] at hval
    obtain ⟨⟨⟨hab, hapts⟩, hbpts⟩, hall⟩ := hval
    have hne : pts ≠ [] := List.ne_nil_of_mem hapts
    obtain ⟨h0, rest, hpts⟩ : ∃ h0 rest, pts = h0 :: rest := by
      cases pts with
      | nil => exact absurd rfl hne
      | cons x xs => exact ⟨x, xs, rfl⟩
    have hEval := rebuild_valid hlex hne
    have hEhead := rebuildHull_head hlex hne
    rcases hEshape : rebuildHull pts with _ | ⟨a0, _ | ⟨b0, _ | ⟨c0, t1⟩⟩⟩
    · rw [hEshape] at hEval
      simp [melkmanIsConvexValid] at hEval
    · rw [hEshape] at hEval
      simp only [melkmanIsConvexValid, decide_eq_true_eq] at hEval
      rw [hEval] at hapts hbpts
      simp at hapts hbpts
      exact absurd (hapts.trans hbpts.symm) hab
    · rw [hEshape] at hEval hEhead
      rw [hpts] at hEhead
      simp at hEhead
      simp only [melkmanIsConvexValid, Bool.and_eq_true, decide_eq_true_eq,
        List.all_eq_true] at hEval
      obtain ⟨⟨⟨hab0, ha0pts⟩, hb0pts⟩, hall0⟩ := hEval
      rcases ptLt_or_ge a b with hlt | hge
      · have hkey := seg_hull_eq hpts hlex hapts hbpts hlt hall hEhead hb0pts
          hab0 hall0
        refine ⟨0, ?_⟩
        rw [hkey.1, hkey.2]
        rfl
      · have hba : ptLt b a = true := ptLt_of_le_ne hge (Ne.symm hab)
        have hall2 : ∀ q ∈ pts, onSeg b a q = true := by
          intro q hq
          rw [onSeg_comm]
          exact hall q hq
        have hkey := seg_hull_eq hpts hlex hbpts hapts hba hall2 hEhead hb0pts
          hab0 hall0
        refine ⟨1, ?_⟩
        rw [hkey.1, hkey.2]
        rfl
    · exfalso
      have hE3 : 3 ≤ (rebuildHull pts).length := by
        rw [hEshape]
        simp only [List.length_cons]
        omega
      have hEval2 := rebuild_valid hlex hne
      obtain ⟨hEnd, hEtr, hEmem, hEsup⟩ := valid_big_parts hE3 hEval2
      have htriE : (a0, (b0, c0)) ∈ cyclicTriples (rebuildHull pts) := by
        rw [hEshape]
        exact head_triple_mem a0 b0 c0 t1
      have hstrict : 0 < det a0 b0 c0 := hEtr _ htriE
      have ha0pts : a0 ∈ pts := hEmem a0 (by rw [hEshape]; simp)
      have hb0pts : b0 ∈ pts := hEmem b0 (by rw [hEshape]; simp)
      have hc0pts : c0 ∈ pts := hEmem c0 (by rw [hEshape]; simp)
      have hda : det a b a0 = 0 := by
        have h5 := hall a0 ha0pts
        simp only [onSeg, Bool.and_eq_true, decide_eq_true_eq] at h5
        exact h5.1.1
      have hdb : det a b b0 = 0 := by
        have h5 := hall b0 hb0pts
        simp only [onSeg, Bool.and_eq_true, decide_eq_true_eq] at h5
        exact h5.1.1
      have hdc : det a b c0 = 0 := by
        have h5 := hall c0 hc0pts
        simp only [onSeg, Bool.and_eq_true, decide_eq_true_eq] at h5
        exact h5.1.1
      have hcol := collinear_three hab hda hdb hdc
      linarith
  · have hD3 : 3 ≤ (a :: b :: c :: t).length := by
      simp only [List.length_cons]
      omega
    obtain ⟨hDnd, hDtr, hDmem, hDsup⟩ := valid_big_parts hD3 hval
    have hapts : a ∈ pts := hDmem a (by simp)
    have hne : pts ≠ [] := List.ne_nil_of_mem hapts
    obtain ⟨h0, rest, hpts⟩ : ∃ h0 rest, pts = h0 :: rest := by
      cases pts with
      | nil => exact absurd rfl hne
      | cons x xs => exact ⟨x, xs, rfl⟩
    have htriD : (a, (b, c)) ∈ cyclicTriples (a :: b :: c :: t) :=
      head_triple_mem a b c t
    have hstrict : 0 < det a b c := hDtr _ htriD
    have hE3 : 3 ≤ (rebuildHull pts).length :=
      rebuild_big hlex hne (hDmem a (by simp)) (hDmem b (by simp))
        (hDmem c (by simp)) (by linarith)
    have hEval := rebuild_valid hlex hne
    have hEhead := rebuildHull_head hlex hne
    have hmem0 : h0 ∈ (a :: b :: c :: t) := lexmin_vertex hlex hpts hD3 hval
    obtain ⟨A, B, hAB⟩ := List.append_of_mem hmem0
    have hval2 : melkmanIsConvexValid ((h0 :: B) ++ A) pts = true := by
      apply valid_rot_append A
      · rw [← hAB]
        exact hD3
      · rw [← hAB]
        exact hval
    have h32 : 3 ≤ ((h0 :: B) ++ A).length := by
      have hl2 : ((h0 :: B) ++ A).length = (a :: b :: c :: t).length := by
        rw [hAB]
        simp [List.length_append]
        omega
      omega
    have hhead2 : ((h0 :: B) ++ A).head? = (rebuildHull pts).head? := by
      rw [hEhead, hpts]
      rfl
    have hDE := march_eq hval2 hEval h32 hE3 hhead2
    refine ⟨A.length, ?_⟩
    rw [hAB, List.drop_left, List.take_left]
    exact hDE

end FuzzySeg

/-- C3: spec-modelled hull correctness.  For every recognizer state reachable
from `init` by successful `extendFront`/`extendBack` calls, the Hull State
maintained incrementally in the Melkman deque equals the true convex hull of
the points currently stored in the Point Ledger as recomputed from scratch by
the independent monotone-chain reference algorithm `rebuildHull`: some
rotation of the deque (the deque's seam sits at the last insertion, while the
reference hull starts at the lexicographic minimum) coincides with the
reference hull vertex for vertex. -/
theorem C3_hull_correct (s : FuzzySeg.State) (h : FuzzySeg.Reachable s) :
    ∃ k, s.myMelkmanQueue.drop k ++ s.myMelkmanQueue.take k =
      FuzzySeg.rebuildHull s.myPointSet :=
  FuzzySeg.valid_unique_rot (FuzzySeg.reachable_sorted h)
    (FuzzySeg.reachable_valid h)

/-- Witness for C3 at a concrete reachable state. -/
theorem C3_hull_witness :
    FuzzySeg.Reachable (FuzzySeg.init (0, 0) 1 1) ∧
      ∃ k, (FuzzySeg.init (0, 0) 1 1).myMelkmanQueue.drop k ++
          (FuzzySeg.init (0, 0) 1 1).myMelkmanQueue.take k =
        FuzzySeg.rebuildHull (FuzzySeg.init (0, 0) 1 1).myPointSet :=
  ⟨FuzzySeg.Reachable.start _ _ _,
    C3_hull_correct _ (FuzzySeg.Reachable.start _ _ _)⟩

namespace FuzzySeg

theorem foldl_max_le {c : Int} : ∀ (xs : List Int) (a : Int),
    (∀ x ∈ xs, x ≤ c) → a ≤ c → xs.foldl max a ≤ c
  | [], _, _, ha => ha
  | x :: xs, a, h, ha => by
    apply foldl_max_le xs (max a x)
    · intro y hy
      exact h y (List.mem_cons_of_mem _ hy)
    · exact max_le ha (h x (List.mem_cons_self _ _))

theorem le_foldl_max : ∀ (xs : List Int) (a : Int), a ≤ xs.foldl max a
  | [], a => le_refl a
  | x :: xs, a => le_trans (le_max_left a x) (le_foldl_max xs (max a x))

theorem mem_le_foldl_max : ∀ (xs : List Int) (a : Int) {x : Int}, x ∈ xs →
    x ≤ xs.foldl max a
  | [], _, _, hx => absurd hx (List.not_mem_nil _)
  | y :: xs, a, x, hx => by
    rcases List.mem_cons.mp hx with rfl | hx2
    · exact le_trans (le_max_right a x) (le_foldl_max xs (max a x))
    · exact mem_le_foldl_max xs (max a y) hx2

theorem foldl_max_mem : ∀ (xs : List Int) (a : Int),
    xs.foldl max a = a ∨ xs.foldl max a ∈ xs
  | [], _ => Or.inl rfl
  | x :: xs, a => by
    rcases foldl_max_mem xs (max a x) with h | h
    · rcases max_choice a x with h2 | h2
      · left
        show xs.foldl max (max a x) = a
        rw [h, h2]
      · right
        show xs.foldl max (max a x) ∈ x :: xs
        rw [h, h2]
        exact List.mem_cons_self _ _
    · right
      exact List.mem_cons_of_mem _ h

theorem le_foldl_min {c : Int} : ∀ (xs : List Int) (a : Int),
    (∀ x ∈ xs, c ≤ x) → c ≤ a → c ≤ xs.foldl min a
  | [], _, _, ha => ha
  | x :: xs, a, h, ha => by
    apply le_foldl_min xs (min a x)
    · intro y hy
      exact h y (List.mem_cons_of_mem _ hy)
    · exact le_min ha (h x (List.mem_cons_self _ _))

theorem foldl_min_le : ∀ (xs : List Int) (a : Int), xs.foldl min a ≤ a
  | [], a => le_refl a
  | x :: xs, a => le_trans (foldl_min_le xs (min a x)) (min_le_left a x)

theorem foldl_min_le_mem : ∀ (xs : List Int) (a : Int) {x : Int}, x ∈ xs →
    xs.foldl min a ≤ x
  | [], _, _, hx => absurd hx (List.not_mem_nil _)
  | y :: xs, a, x, hx => by
    rcases List.mem_cons.mp hx with rfl | hx2
    · exact le_trans (foldl_min_le xs (min a x)) (min_le_right a x)
    · exact foldl_min_le_mem xs (min a y) hx2

theorem foldl_min_mem : ∀ (xs : List Int) (a : Int),
    xs.foldl min a = a ∨ xs.foldl min a ∈ xs
  | [], _ => Or.inl rfl
  | x :: xs, a => by
    rcases foldl_min_mem xs (min a x) with h | h
    · rcases min_choice a x with h2 | h2
      · left
        show xs.foldl min (min a x) = a
        rw [h, h2]
      · right
        show xs.foldl min (min a x) ∈ x :: xs
        rw [h, h2]
        exact List.mem_cons_self _ _
    · right
      exact List.mem_cons_of_mem _ h

theorem le_maxList {x : Int} : ∀ {L : List Int}, x ∈ L → x ≤ maxList L
  | [], hx => absurd hx (List.not_mem_nil _)
  | y :: ys, hx => by
    show x ≤ ys.foldl max y
    rcases List.mem_cons.mp hx with rfl | hx2
    · exact le_foldl_max ys x
    · exact mem_le_foldl_max ys y hx2

theorem maxList_le {c : Int} : ∀ {L : List Int}, L ≠ [] → (∀ x ∈ L, x ≤ c) →
    maxList L ≤ c
  | [], h, _ => absurd rfl h
  | y :: ys, _, h => foldl_max_le ys y
      (fun x hx => h x (List.mem_cons_of_mem _ hx)) (h y (List.mem_cons_self _ _))

theorem maxList_memL : ∀ {L : List Int}, L ≠ [] → maxList L ∈ L
  | [], h => absurd rfl h
  | y :: ys, _ => by
    show ys.foldl max y ∈ y :: ys
    rcases foldl_max_mem ys y with h | h
    · rw [h]
      exact List.mem_cons_self _ _
    · exact List.mem_cons_of_mem _ h

theorem minList_le {x : Int} : ∀ {L : List Int}, x ∈ L → minList L ≤ x
  | [], hx => absurd hx (List.not_mem_nil _)
  | y :: ys, hx => by
    show ys.foldl min y ≤ x
    rcases List.mem_cons.mp hx with rfl | hx2
    · exact foldl_min_le ys x
    · exact foldl_min_le_mem ys y hx2

theorem le_minList {c : Int} : ∀ {L : List Int}, L ≠ [] → (∀ x ∈ L, c ≤ x) →
    c ≤ minList L
  | [], h, _ => absurd rfl h
  | y :: ys, _, h => le_foldl_min ys y
      (fun x hx => h x (List.mem_cons_of_mem _ hx)) (h y (List.mem_cons_self _ _))

theorem minList_memL : ∀ {L : List Int}, L ≠ [] → minList L ∈ L
  | [], h => absurd rfl h
  | y :: ys, _ => by
    show ys.foldl min y ∈ y :: ys
    rcases foldl_min_mem ys y with h | h
    · rw [h]
      exact List.mem_cons_self _ _
    · exact List.mem_cons_of_mem _ h

theorem projList_ne_nil {N : Pt} {H : List Pt} (hne : H ≠ []) :
    projList N H ≠ [] :=
  fun h => hne (List.map_eq_nil_iff.mp h)

theorem proj_le_max {N v : Pt} {H : List Pt} (hv : v ∈ H) :
    dot N v ≤ maxList (projList N H) :=
  le_maxList (List.mem_map_of_mem _ hv)

theorem min_le_proj {N v : Pt} {H : List Pt} (hv : v ∈ H) :
    minList (projList N H) ≤ dot N v :=
  minList_le (List.mem_map_of_mem _ hv)

theorem exists_proj_max {N : Pt} {H : List Pt} (hne : H ≠ []) :
    ∃ v ∈ H, dot N v = maxList (projList N H) := by
  have h1 : maxList (projList N H) ∈ projList N H :=
    maxList_memL (projList_ne_nil hne)
  obtain ⟨v, hv, he⟩ := List.mem_map.mp h1
  exact ⟨v, hv, he⟩

theorem exists_proj_min {N : Pt} {H : List Pt} (hne : H ≠ []) :
    ∃ v ∈ H, dot N v = minList (projList N H) := by
  have h1 : minList (projList N H) ∈ projList N H :=
    minList_memL (projList_ne_nil hne)
  obtain ⟨v, hv, he⟩ := List.mem_map.mp h1
  exact ⟨v, hv, he⟩

theorem extentInt_nonneg {H : List Pt} (hne : H ≠ []) (N : Pt) :
    0 ≤ extentInt H N := by
  cases H with
  | nil => exact absurd rfl hne
  | cons v t =>
    have h1 := proj_le_max (N := N) (H := v :: t) (List.mem_cons_self v t)
    have h2 := min_le_proj (N := N) (H := v :: t) (List.mem_cons_self v t)
    simp only [extentInt]
    omega

theorem axisDenom_nonnegQ (N : Pt) : (0 : ℚ) ≤ ((axisDenom N : Int) : ℚ) := by
  simp only [axisDenom]
  positivity

theorem dirWidth_nonneg {H : List Pt} (hne : H ≠ []) (N : Pt) :
    0 ≤ dirWidth H N := by
  apply div_nonneg _ (axisDenom_nonnegQ N)
  exact_mod_cast extentInt_nonneg hne N

theorem edgeAxisWidth_eq_dirWidth (H : List Pt) (e : Pt × Pt) :
    edgeAxisWidth H e = dirWidth H (perp (psub e.2 e.1)) := rfl

end FuzzySeg
